import Mathlib

/-!
The change applier and the event consumer of neelance/firebase.

A shallow embedding of `firebase.go`: `processChange`, `applyPatch`, `fieldByKey`
and the two `Watch` operations, followed by theorems about them.

How the Go program is represented:

* Go values are trees (`Val`).  Every value knows its own type (`Val.typeOf`), so an
  interface holds just the value stored in it.  Maps and pointers are reference types in
  Go; the trees carry no sharing, so they stand for the destinations in which no map or
  pointee is reachable along two different routes.  Destinations in which maps of type
  `map[string]interface{}` are shared are represented by a store of maps kept by address
  (`Store`), on which `applyPatchShared` runs the same code.
* The type universe is `bool`, `int`, `float64`, `string`, `interface{}`, `[]T`,
  `map[string]T`, `*T` and structs without embedded fields.
* `reflect.Value` carries two permission bits that decide whether `Set`, `SetMapIndex`
  and `Interface` panic: the value is addressable, and the value was reached through an
  unexported struct field (read-only).  `Flags` tracks both along the navigation.
* A run of the code ends in `Res.ok` (returns nil), `Res.err e` (returns an error) or
  `Res.panic` (a run-time panic of `reflect` or of a slice expression).
* JSON texts are represented by their syntax trees (`JSON`); an event whose bytes are not
  valid JSON has `Data = none`.  A `json.RawMessage` is the tree of the value it holds,
  or `none` for the nil message of a missing member.  Number literals are integers;
  `float64 n` is the `float64` whose value is the integer `n`, and decoding a literal
  rounds it to the nearest `float64` or fails when it is out of range (`parseFloat64`).
  The type `int` is 64 bits wide.  A slice has no spare capacity behind its length.
* Go iterates over a map in an unspecified order.  A field mapping is an association list
  and the model iterates over it front to back; the list order stands for the order the
  run time happened to choose.
-/

namespace Firebase

/-! ## Types and values -/

mutual
/-- Go types of the universe covered by the model. -/
inductive GoType where
  | bool
  | int
  | float64
  | string
  | iface
  | slice (e : GoType)
  | map (e : GoType)
  | ptr (e : GoType)
  | struct (name : String) (fields : List StructField)
/-- Field of a struct type: Go name, whether it is exported, the key `encoding/json`
uses for it, and its type. -/
inductive StructField where
  | mk (name : String) (exported : Bool) (jsonName : String) (typ : GoType)
end

/-- Go name of a struct field. -/
def StructField.name : StructField → String
  | .mk n _ _ _ => n

/-- Whether the struct field is exported. -/
def StructField.exported : StructField → Bool
  | .mk _ e _ _ => e

/-- Key under which `encoding/json` reads the field. -/
def StructField.jsonName : StructField → String
  | .mk _ _ j _ => j

/-- Declared type of a struct field. -/
def StructField.typ : StructField → GoType
  | .mk _ _ _ t => t

/-- Go values.  `float64 n` is the `float64` whose value is the integer `n`. -/
inductive Val where
  | bool (b : Bool)
  | int (i : Int)
  | float64 (n : Int)
  | str (s : String)
  | nilIface
  | iface (x : Val)
  | nilSlice (e : GoType)
  | slice (e : GoType) (xs : List Val)
  | nilMap (e : GoType)
  | map (e : GoType) (entries : List (String × Val))
  | nilPtr (e : GoType)
  | ptr (p : Val)
  | struct (name : String) (fields : List StructField) (vals : List Val)

/-- JSON syntax trees. -/
inductive JSON where
  | null
  | bool (b : Bool)
  | num (n : Int)
  | str (s : String)
  | arr (xs : List JSON)
  | obj (kvs : List (String × JSON))

/-- A `json.RawMessage`: the JSON value it holds, `none` for the nil message. -/
abbrev Raw := Option JSON

/-- Text of `reflect.Type.String()`. -/
def GoType.toStr : GoType → String
  | .bool => "bool"
  | .int => "int"
  | .float64 => "float64"
  | .string => "string"
  | .iface => "interface {}"
  | .slice e => "[]" ++ e.toStr
  | .map e => "map[string]" ++ e.toStr
  | .ptr e => "*" ++ e.toStr
  | .struct n _ => n

/-- Static type of a value, `reflect.Value.Type()`.  For an interface this is the
interface type, not the type of its content. -/
def Val.typeOf : Val → GoType
  | .bool _ => .bool
  | .int _ => .int
  | .float64 _ => .float64
  | .str _ => .string
  | .nilIface => .iface
  | .iface _ => .iface
  | .nilSlice e => .slice e
  | .slice e _ => .slice e
  | .nilMap e => .map e
  | .map e _ => .map e
  | .nilPtr e => .ptr e
  | .ptr p => .ptr p.typeOf
  | .struct n fs _ => .struct n fs

mutual
/-- Zero value of a type, `reflect.Zero`. -/
def zero : GoType → Val
  | .bool => .bool false
  | .int => .int 0
  | .float64 => .float64 0
  | .string => .str ""
  | .iface => .nilIface
  | .slice e => .nilSlice e
  | .map e => .nilMap e
  | .ptr e => .nilPtr e
  | .struct n fs => .struct n fs (zeroFields fs)
/-- Zero values of the fields of a struct type, in declaration order. -/
def zeroFields : List StructField → List Val
  | [] => []
  | .mk _ _ _ t :: fs => zero t :: zeroFields fs
end

/-! ## Go maps as association lists -/

/-- Value bound to a key of a map (`m[k]`), the first binding in the list. -/
def mapLookup (k : String) : List (String × Val) → Option Val
  | [] => none
  | (k2, v) :: rest => if k2 = k then some v else mapLookup k rest

/-- Result of `m[k] = v`: the binding of `k` is replaced where it stands, a new key is
added at the end. -/
def mapInsert (k : String) (v : Val) : List (String × Val) → List (String × Val)
  | [] => [(k, v)]
  | (k2, v2) :: rest => if k2 = k then (k, v) :: rest else (k2, v2) :: mapInsert k v rest

/-- Result of `delete(m, k)`. -/
def mapDelete (k : String) : List (String × Val) → List (String × Val)
  | [] => []
  | (k2, v2) :: rest => if k2 = k then mapDelete k rest else (k2, v2) :: mapDelete k rest

/-! ## Errors and results -/

/-- Error values the code can return. -/
inductive GoError where
  | fmtErrorf (msg : String)
  | unmarshalType (value : String) (typ : String)
  | jsonInput
  | eof
  | client (msg : String)

/-- How a call ends: it returns nil, returns an error, or panics. -/
inductive Res where
  | ok
  | err (e : GoError)
  | panic

/-! ## The library functions the code calls -/

/-- Model of `strings.ToLower` for names written in ASCII: the letters A to Z are
lowered, every other character is left as it is. -/
def stringsToLower (s : String) : String :=
  String.mk (s.data.map Char.toLower)

/-- Model of `strings.Split(s, "/")`. -/
def stringsSplit (s : String) : List String :=
  (s.data.splitOn '/').map String.mk

/-- Where `encoding/json` lands when it follows a freshly allocated pointer chain of
type `t`: the zero value it will decode into, and how to wrap the decoded value. -/
def indirectNew : GoType → Val × (Val → Val)
  | .ptr e => ((indirectNew e).1, fun y => .ptr ((indirectNew e).2 y))
  | t => (zero t, id)

/-- Function `indirect` of `encoding/json` for a JSON value other than null: it walks
down pointers, allocating the nil ones, and through interfaces that hold a non-nil
pointer.  It returns the value to decode into and how to put the result back. -/
def indirect : Val → Val × (Val → Val)
  | .ptr p => ((indirect p).1, fun y => .ptr ((indirect p).2 y))
  | .nilPtr e => ((indirectNew e).1, fun y => .ptr ((indirectNew e).2 y))
  | .iface (.ptr p) => ((indirect p).1, fun y => .iface (.ptr ((indirect p).2 y)))
  | v => (v, id)

/-- Decoding the JSON literal null: pointers, interfaces, maps and slices become nil,
every other value is left alone.  An interface that holds a pointer to a pointer keeps
the outer pointer and has the inner one set to nil. -/
def unmarshalNull : Val → Val
  | .ptr p => .nilPtr p.typeOf
  | .iface (.ptr (.ptr q)) => .iface (.ptr (.nilPtr q.typeOf))
  | .iface (.ptr (.nilPtr e)) => .iface (.ptr (.nilPtr e))
  | .iface _ => .nilIface
  | .map e _ => .nilMap e
  | .slice e _ => .nilSlice e
  | v => v

/-- First of two optional errors: `encoding/json` remembers the first type error and
goes on decoding. -/
def firstErr : Option GoError → Option GoError → Option GoError
  | some e, _ => some e
  | none, e => e

/-- Binary digits a natural number has beyond the 53 digits of a `float64` mantissa; the
first argument bounds the count. -/
def excessBits : Nat → Nat → Nat
  | 0, _ => 0
  | fuel + 1, a => if a < 2 ^ 53 then 0 else excessBits fuel (a / 2) + 1

/-- The mantissa of `a` when its last `s` binary digits are rounded away: the nearest
one, a tie going to the even mantissa. -/
def roundMantissa (a s : Nat) : Nat :=
  if 2 * (a % 2 ^ s) < 2 ^ s then a / 2 ^ s
  else if 2 * (a % 2 ^ s) = 2 ^ s ∧ a / 2 ^ s % 2 = 0 then a / 2 ^ s
  else a / 2 ^ s + 1

/-- The natural number nearest to `a` among those a `float64` holds exactly (53 binary
digits followed by zeros). -/
def roundNat (a : Nat) : Nat :=
  roundMantissa a (excessBits 1024 a) * 2 ^ excessBits 1024 a

/-- Model of `strconv.ParseFloat(s, 64)` on the integer literal `n`: the nearest
`float64`; `none` is the range error of a literal whose nearest value would need more
than 1024 binary digits, which is beyond the largest `float64`. -/
def parseFloat64 (n : Int) : Option Int :=
  if 972 ≤ excessBits 1024 n.natAbs then none
  else if excessBits 1024 n.natAbs = 971 ∧ roundMantissa n.natAbs 971 = 2 ^ 53 then none
  else some (if n < 0 then -(roundNat n.natAbs : Int) else (roundNat n.natAbs : Int))

/-- The `UnmarshalTypeError` of a number literal that the type `typ` cannot hold. -/
def numberRangeError (n : Int) (typ : String) : GoError :=
  .unmarshalType ("number " ++ toString n) typ

mutual
/-- Value that `encoding/json` stores in an empty interface (`valueInterface`).  A
number literal out of the range of `float64` leaves nil in its place. -/
def decodeIface : JSON → Val
  | .null => .nilIface
  | .bool b => .iface (.bool b)
  | .num n =>
    match parseFloat64 n with
    | some x => .iface (.float64 x)
    | none => .nilIface
  | .str s => .iface (.str s)
  | .arr xs => .iface (.slice .iface (decodeIfaceList xs))
  | .obj kvs => .iface (.map .iface (decodeIfaceObj kvs []))
/-- Elements of a decoded `[]interface{}`. -/
def decodeIfaceList : List JSON → List Val
  | [] => []
  | x :: xs => decodeIface x :: decodeIfaceList xs
/-- Entries of a decoded `map[string]interface{}`, members stored one after the other. -/
def decodeIfaceObj : List (String × JSON) → List (String × Val) → List (String × Val)
  | [], acc => acc
  | (k, j) :: rest, acc => decodeIfaceObj rest (mapInsert k (decodeIface j) acc)
end

mutual
/-- The error `encoding/json` saves while it decodes into an empty interface: that of
the first number literal out of the range of `float64`. -/
def decodeIfaceErr : JSON → Option GoError
  | .num n =>
    match parseFloat64 n with
    | some _ => none
    | none => some (numberRangeError n "float64")
  | .arr xs => decodeIfaceListErr xs
  | .obj kvs => decodeIfaceObjErr kvs
  | _ => none
/-- First error among the elements of an array. -/
def decodeIfaceListErr : List JSON → Option GoError
  | [] => none
  | x :: xs => firstErr (decodeIfaceErr x) (decodeIfaceListErr xs)
/-- First error among the members of an object. -/
def decodeIfaceObjErr : List (String × JSON) → Option GoError
  | [] => none
  | (_, j) :: rest => firstErr (decodeIfaceErr j) (decodeIfaceObjErr rest)
end

/-- Index of the struct field `encoding/json` decodes the member `key` into: an exported
field whose JSON name is `key`, else one that matches ignoring letter case. -/
def jsonFieldExact (key : String) : List StructField → Option Nat
  | [] => none
  | f :: fs => if f.exported && f.jsonName = key then some 0
               else (jsonFieldExact key fs).map (· + 1)

/-- Case-insensitive fallback of `jsonField`. -/
def jsonFieldFold (key : String) : List StructField → Option Nat
  | [] => none
  | f :: fs => if f.exported && stringsToLower f.jsonName = stringsToLower key then some 0
               else (jsonFieldFold key fs).map (· + 1)

/-- Field lookup of `encoding/json`: exact name first, folded name second. -/
def jsonField (key : String) (fs : List StructField) : Option Nat :=
  match jsonFieldExact key fs with
  | some i => some i
  | none => jsonFieldFold key fs

mutual
/-- Decoding a JSON value into an existing Go value, `decodeState.value`.  It returns the
updated value and the first type error met; decoding goes on after a type error, so the
value may be partly updated when an error is returned. -/
def unmarshalValue : JSON → Val → Val × Option GoError
  | .null, v => (unmarshalNull v, none)
  | .bool b, v =>
    match (indirect v).1 with
    | .bool _ => ((indirect v).2 (.bool b), none)
    | .nilIface => ((indirect v).2 (.iface (.bool b)), none)
    | .iface _ => ((indirect v).2 (.iface (.bool b)), none)
    | pv => ((indirect v).2 pv, some (.unmarshalType "bool" pv.typeOf.toStr))
  | .num n, v =>
    match (indirect v).1 with
    | .float64 old =>
      match parseFloat64 n with
      | some x => ((indirect v).2 (.float64 x), none)
      | none => ((indirect v).2 (.float64 old), some (numberRangeError n "float64"))
    | .int i =>
      if -(2 : Int) ^ 63 ≤ n ∧ n < (2 : Int) ^ 63 then ((indirect v).2 (.int n), none)
      else ((indirect v).2 (.int i), some (numberRangeError n "int"))
    | .nilIface =>
      match parseFloat64 n with
      | some x => ((indirect v).2 (.iface (.float64 x)), none)
      | none => ((indirect v).2 .nilIface, some (numberRangeError n "float64"))
    | .iface y =>
      match parseFloat64 n with
      | some x => ((indirect v).2 (.iface (.float64 x)), none)
      | none => ((indirect v).2 (.iface y), some (numberRangeError n "float64"))
    | pv => ((indirect v).2 pv, some (.unmarshalType "number" pv.typeOf.toStr))
  | .str s, v =>
    match (indirect v).1 with
    | .str _ => ((indirect v).2 (.str s), none)
    | .nilIface => ((indirect v).2 (.iface (.str s)), none)
    | .iface _ => ((indirect v).2 (.iface (.str s)), none)
    | pv => ((indirect v).2 pv, some (.unmarshalType "string" pv.typeOf.toStr))
  | .arr xs, v =>
    match (indirect v).1 with
    | .nilIface =>
      ((indirect v).2 (.iface (.slice .iface (decodeIfaceList xs))), decodeIfaceListErr xs)
    | .iface _ =>
      ((indirect v).2 (.iface (.slice .iface (decodeIfaceList xs))), decodeIfaceListErr xs)
    | .nilSlice e =>
      ((indirect v).2 (.slice e (unmarshalArray xs e []).1), (unmarshalArray xs e []).2)
    | .slice e old =>
      ((indirect v).2 (.slice e (unmarshalArray xs e old).1), (unmarshalArray xs e old).2)
    | pv => ((indirect v).2 pv, some (.unmarshalType "array" pv.typeOf.toStr))
  | .obj kvs, v =>
    match (indirect v).1 with
    | .nilIface =>
      ((indirect v).2 (.iface (.map .iface (decodeIfaceObj kvs []))), decodeIfaceObjErr kvs)
    | .iface _ =>
      ((indirect v).2 (.iface (.map .iface (decodeIfaceObj kvs []))), decodeIfaceObjErr kvs)
    | .nilMap e =>
      ((indirect v).2 (.map e (unmarshalMap kvs e []).1), (unmarshalMap kvs e []).2)
    | .map e entries =>
      ((indirect v).2 (.map e (unmarshalMap kvs e entries).1), (unmarshalMap kvs e entries).2)
    | .struct n fs vals =>
      ((indirect v).2 (.struct n fs (unmarshalStruct kvs fs vals).1),
        (unmarshalStruct kvs fs vals).2)
    | pv => ((indirect v).2 pv, some (.unmarshalType "object" pv.typeOf.toStr))
/-- Decoding the elements of a JSON array into a slice: element `i` is decoded into the
old element `i` while there is one, into a zero element afterwards. -/
def unmarshalArray : List JSON → GoType → List Val → List Val × Option GoError
  | [], _, _ => ([], none)
  | j :: js, e, old =>
    ((unmarshalValue j (old.headD (zero e))).1 :: (unmarshalArray js e old.tail).1,
      firstErr (unmarshalValue j (old.headD (zero e))).2 (unmarshalArray js e old.tail).2)
/-- Decoding the members of a JSON object into a map: each value is decoded into a fresh
zero element, which is then stored under the key. -/
def unmarshalMap : List (String × JSON) → GoType → List (String × Val) →
    List (String × Val) × Option GoError
  | [], _, acc => (acc, none)
  | (k, j) :: rest, e, acc =>
    ((unmarshalMap rest e (mapInsert k (unmarshalValue j (zero e)).1 acc)).1,
      firstErr (unmarshalValue j (zero e)).2
        (unmarshalMap rest e (mapInsert k (unmarshalValue j (zero e)).1 acc)).2)
/-- Decoding the members of a JSON object into the fields of a struct, in place; a member
that matches no field is skipped. -/
def unmarshalStruct : List (String × JSON) → List StructField → List Val →
    List Val × Option GoError
  | [], _, vals => (vals, none)
  | (k, j) :: rest, fs, vals =>
    match jsonField k fs with
    | none => unmarshalStruct rest fs vals
    | some i =>
      ((unmarshalStruct rest fs (vals.set i (unmarshalValue j (vals.getD i .nilIface)).1)).1,
        firstErr (unmarshalValue j (vals.getD i .nilIface)).2
          (unmarshalStruct rest fs (vals.set i (unmarshalValue j (vals.getD i .nilIface)).1)).2)
end

/-- Model of `json.Unmarshal(data, &v)`: the nil message is a syntax error, anything
else is decoded into `v`. -/
def jsonUnmarshal (data : Raw) (v : Val) : Val × Option GoError :=
  match data with
  | none => (v, some .jsonInput)
  | some j => unmarshalValue j v

/-! ## The reflection cursor -/

/-- Permission bits of a `reflect.Value`: `addr` is `CanAddr()`, `ro` says the value was
reached through an unexported struct field. -/
structure Flags where
  addr : Bool
  ro : Bool

/-- Whether `reflect.Value.Set` is allowed on the value (`mustBeAssignable`). -/
def Flags.assignable (fl : Flags) : Bool :=
  fl.addr && !fl.ro

/-- Layer stepped through by `Elem()`: an interface or a pointer. -/
inductive Layer where
  | iface
  | ptr

/-- Puts a value back under the layers it was reached through, outermost first. -/
def plug : List Layer → Val → Val
  | [], v => v
  | .iface :: ls, v => .iface (plug ls v)
  | .ptr :: ls, v => .ptr (plug ls v)

/-- Value the navigation loop works on after its preparation steps, the permission bits
of that value, and the layers between it and the value the loop started at. -/
structure Focus where
  layers : List Layer
  target : Val
  flags : Flags

/-- The pointer loop run on the pointee of a pointer that was just allocated with
`reflect.New`: nested pointer types are allocated down to the first non-pointer type. -/
def allocPtrs : GoType → List Layer × Val
  | .ptr e => (.ptr :: (allocPtrs e).1, (allocPtrs e).2)
  | t => ([], zero t)

/-- The loop `for target.Type().Kind() == reflect.Ptr` (lines 191-196): a nil pointer is
set to a new instance, which needs an assignable value; `none` is the panic of `Set`. -/
def derefPtrs : Flags → Val → Option Focus
  | fl, .ptr p =>
    match derefPtrs ⟨true, fl.ro⟩ p with
    | some f => some ⟨.ptr :: f.layers, f.target, f.flags⟩
    | none => none
  | fl, .nilPtr e =>
    if fl.assignable then some ⟨.ptr :: (allocPtrs e).1, (allocPtrs e).2, ⟨true, false⟩⟩
    else none
  | fl, v => some ⟨[], v, fl⟩

/-- The interface step (lines 185-190): a nil interface is set to an empty
`map[string]interface{}`, then the cursor moves to the content of the interface. -/
def enterIface : Flags → Val → Option Focus
  | fl, .nilIface =>
    if fl.assignable then some ⟨[.iface], .map .iface [], ⟨false, fl.ro⟩⟩ else none
  | fl, .iface x => some ⟨[.iface], x, ⟨false, fl.ro⟩⟩
  | fl, v => some ⟨[], v, fl⟩

/-- The nil-map step (lines 197-199): a nil map is set to an empty map. -/
def initMap : Flags → Val → Option Val
  | fl, .nilMap e => if fl.assignable then some (.map e []) else none
  | _, v => some v

/-- The three preparation steps at the head of the navigation loop (lines 185-199).
`none` is a panic of `reflect.Value.Set`; the value is unchanged when that happens. -/
def normalize (fl : Flags) (v : Val) : Option Focus :=
  match enterIface fl v with
  | none => none
  | some f1 =>
    match derefPtrs f1.flags f1.target with
    | none => none
    | some f2 =>
      match initMap f2.flags f2.target with
      | none => none
      | some t => some ⟨f1.layers ++ f2.layers, t, f2.flags⟩

/-- Function `fieldByKey` (lines 263-272): index of the first field whose name is `name`
or whose lower-cased name is `name`; `none` is the zero `reflect.Value`. -/
def fieldByKey (name : String) : List StructField → Option Nat
  | [] => none
  | f :: fs =>
    if f.name = name ∨ stringsToLower f.name = name then some 0
    else (fieldByKey name fs).map (· + 1)

/-- Whether the field at an index is exported. -/
def fieldExported (fs : List StructField) (i : Nat) : Bool :=
  match fs.get? i with
  | some f => f.exported
  | none => false

/-- Declared type of the field at an index. -/
def fieldType (fs : List StructField) (i : Nat) : GoType :=
  match fs.get? i with
  | some f => f.typ
  | none => .iface

/-- Entry a fresh `map[string]interface{}` becomes when it is stored in a map with
element type `e`; `none` when the assignment is not allowed by the type (the panic of
`SetMapIndex`). -/
def storeFreshMap (e : GoType) (m : Val) : Option Val :=
  match e with
  | .iface => some (.iface m)
  | .map .iface => some m
  | _ => none

/-! ## applyPatch -/

/-- One round of the field loop of `applyPatch` (lines 222-258) on the target `t`. -/
def applyField (fl : Flags) (t : Val) (field : String) (data : Raw) : Val × Res :=
  match data with
  | some .null =>
    match t with
    | .map e entries => if fl.ro then (t, .panic) else (.map e (mapDelete field entries), .ok)
    | .nilMap _ => if fl.ro then (t, .panic) else (t, .ok)
    | .struct n fs vals =>
      match fieldByKey field fs with
      | none => (t, .panic)
      | some i =>
        if fl.addr && !(fl.ro || !fieldExported fs i) then
          (.struct n fs (vals.set i (zero (fieldType fs i))), .ok)
        else (t, .panic)
    | _ => (t, .err (.fmtErrorf ("invalid type: " ++ t.typeOf.toStr)))
  | _ =>
    match t with
    | .map e entries =>
      match (jsonUnmarshal data (zero e)).2 with
      | some err => (t, .err err)
      | none =>
        if fl.ro then (t, .panic)
        else (.map e (mapInsert field (jsonUnmarshal data (zero e)).1 entries), .ok)
    | .nilMap e =>
      match (jsonUnmarshal data (zero e)).2 with
      | some err => (t, .err err)
      | none => (t, .panic)
    | .struct n fs vals =>
      match fieldByKey field fs with
      | none => (t, .ok)
      | some i =>
        if !fl.addr then
          (t, .err (.fmtErrorf ("can not write field of " ++ t.typeOf.toStr ++
            ", use pointer to struct instead")))
        else if fl.ro || !fieldExported fs i then (t, .panic)
        else
          (.struct n fs (vals.set i (jsonUnmarshal data (vals.getD i .nilIface)).1),
            match (jsonUnmarshal data (vals.getD i .nilIface)).2 with
            | some err => .err err
            | none => .ok)
    | _ => (t, .err (.fmtErrorf ("invalid type: " ++ t.typeOf.toStr)))

/-- The field loop of `applyPatch` (lines 222-260): the fields are applied in list order
and the first error or panic ends the loop, the fields before it staying applied. -/
def applyFields (fl : Flags) : Val → List (String × Raw) → Val × Res
  | t, [] => (t, .ok)
  | t, (field, data) :: rest =>
    match applyField fl t field data with
    | (t2, .ok) => applyFields fl t2 rest
    | r => r

/-- The navigation loop of `applyPatch` (lines 184-220) followed by the field loop,
started at the value `v` with permission bits `fl`.  It returns the value `v` has become
and how the call ended. -/
def applyPatchLoop : List String → Flags → Val → List (String × Raw) → Val × Res
  | [], fl, v, fields =>
    match normalize fl v with
    | none => (v, .panic)
    | some f => (plug f.layers (applyFields f.flags f.target fields).1,
        (applyFields f.flags f.target fields).2)
  | key :: keys, fl, v, fields =>
    match normalize fl v with
    | none => (v, .panic)
    | some f =>
      match f.target with
      | .map e entries =>
        match mapLookup key entries with
        | none =>
          if f.flags.ro then (plug f.layers f.target, .panic)
          else
            match storeFreshMap e
              (applyPatchLoop keys ⟨false, false⟩ (.map .iface []) fields).1 with
            | none => (plug f.layers f.target, .panic)
            | some entry =>
              (plug f.layers (.map e (mapInsert key entry entries)),
                (applyPatchLoop keys ⟨false, false⟩ (.map .iface []) fields).2)
        | some x =>
          (plug f.layers (.map e (mapInsert key
              (applyPatchLoop keys ⟨false, f.flags.ro⟩ x fields).1 entries)),
            (applyPatchLoop keys ⟨false, f.flags.ro⟩ x fields).2)
      | .nilMap _ => (plug f.layers f.target, .panic)
      | .struct n fs vals =>
        match fieldByKey key fs with
        | none => (plug f.layers f.target, .panic)
        | some i =>
          (plug f.layers (.struct n fs (vals.set i
              (applyPatchLoop keys ⟨f.flags.addr, f.flags.ro || !fieldExported fs i⟩
                (vals.getD i .nilIface) fields).1)),
            (applyPatchLoop keys ⟨f.flags.addr, f.flags.ro || !fieldExported fs i⟩
              (vals.getD i .nilIface) fields).2)
      | t => (plug f.layers t, .err (.fmtErrorf ("invalid type: " ++ t.typeOf.toStr)))

/-- Function `applyPatch` (lines 182-261) on the destination `d` that the argument `v`
points to: `reflect.ValueOf(v).Elem()` is addressable and not read-only. -/
def applyPatch (d : Val) (keys : List String) (fields : List (String × Raw)) : Val × Res :=
  applyPatchLoop keys ⟨true, false⟩ d fields

/-! ## processChange -/

/-- An event of the stream, `client.Event`: its type and its data, `none` when the bytes
are not a JSON text. -/
structure Event where
  Typ : String
  Data : Option JSON

/-- The decoded change of a put event: `struct { Path string; Data json.RawMessage }`. -/
structure PutChange where
  Path : String
  Data : Raw

/-- The decoded change of a patch event:
`struct { Path string; Data map[string]json.RawMessage }`, a nil map being `none`. -/
structure PatchChange where
  Path : String
  Data : Option (List (String × Raw))

/-- Whether `encoding/json` decodes the member `key` into the field called `field`. -/
def memberIs (field : String) (key : String) : Bool :=
  key = field || stringsToLower key = stringsToLower field

/-- Decoding a JSON value into a string field: a string is stored, null changes
nothing, anything else is a type error. -/
def decodePath (j : JSON) (old : String) : String × Option GoError :=
  match j with
  | .str s => (s, none)
  | .null => (old, none)
  | .bool _ => (old, some (.unmarshalType "bool" "string"))
  | .num _ => (old, some (.unmarshalType "number" "string"))
  | .arr _ => (old, some (.unmarshalType "array" "string"))
  | .obj _ => (old, some (.unmarshalType "object" "string"))

/-- Members of the object of a put event, decoded one after the other. -/
def decodePutMembers : List (String × JSON) → PutChange → PutChange × Option GoError
  | [], c => (c, none)
  | (k, j) :: rest, c =>
    if memberIs "Path" k then
      ((decodePutMembers rest ⟨(decodePath j c.Path).1, c.Data⟩).1,
        firstErr (decodePath j c.Path).2
          (decodePutMembers rest ⟨(decodePath j c.Path).1, c.Data⟩).2)
    else if memberIs "Data" k then decodePutMembers rest ⟨c.Path, some j⟩
    else decodePutMembers rest c

/-- The call `json.Unmarshal(e.Data, &change)` of the put case (line 158). -/
def decodePut : Option JSON → PutChange × Option GoError
  | none => (⟨"", none⟩, some .jsonInput)
  | some .null => (⟨"", none⟩, none)
  | some (.obj kvs) => decodePutMembers kvs ⟨"", none⟩
  | some (.bool _) => (⟨"", none⟩, some (.unmarshalType "bool" "struct"))
  | some (.num _) => (⟨"", none⟩, some (.unmarshalType "number" "struct"))
  | some (.str _) => (⟨"", none⟩, some (.unmarshalType "string" "struct"))
  | some (.arr _) => (⟨"", none⟩, some (.unmarshalType "array" "struct"))

/-- Result of `m[k] = raw` on a `map[string]json.RawMessage`. -/
def rawInsert (k : String) (r : Raw) : List (String × Raw) → List (String × Raw)
  | [] => [(k, r)]
  | (k2, r2) :: rest => if k2 = k then (k, r) :: rest else (k2, r2) :: rawInsert k r rest

/-- Members of a JSON object stored into a `map[string]json.RawMessage`. -/
def decodeRawMap : List (String × JSON) → List (String × Raw) → List (String × Raw)
  | [], acc => acc
  | (k, j) :: rest, acc => decodeRawMap rest (rawInsert k (some j) acc)

/-- Decoding a JSON value into the `Data` field of a patch change: null makes the map
nil, an object is merged into the map, anything else is a type error. -/
def decodePatchData (j : JSON) (old : Option (List (String × Raw))) :
    Option (List (String × Raw)) × Option GoError :=
  match j with
  | .null => (none, none)
  | .obj kvs => (some (decodeRawMap kvs (old.getD [])), none)
  | .bool _ => (old, some (.unmarshalType "bool" "map[string]json.RawMessage"))
  | .num _ => (old, some (.unmarshalType "number" "map[string]json.RawMessage"))
  | .str _ => (old, some (.unmarshalType "string" "map[string]json.RawMessage"))
  | .arr _ => (old, some (.unmarshalType "array" "map[string]json.RawMessage"))

/-- Members of the object of a patch event, decoded one after the other. -/
def decodePatchMembers : List (String × JSON) → PatchChange → PatchChange × Option GoError
  | [], c => (c, none)
  | (k, j) :: rest, c =>
    if memberIs "Path" k then
      ((decodePatchMembers rest ⟨(decodePath j c.Path).1, c.Data⟩).1,
        firstErr (decodePath j c.Path).2
          (decodePatchMembers rest ⟨(decodePath j c.Path).1, c.Data⟩).2)
    else if memberIs "Data" k then
      ((decodePatchMembers rest ⟨c.Path, (decodePatchData j c.Data).1⟩).1,
        firstErr (decodePatchData j c.Data).2
          (decodePatchMembers rest ⟨c.Path, (decodePatchData j c.Data).1⟩).2)
    else decodePatchMembers rest c

/-- The call `json.Unmarshal(e.Data, &change)` of the patch case (line 172). -/
def decodePatch : Option JSON → PatchChange × Option GoError
  | none => (⟨"", none⟩, some .jsonInput)
  | some .null => (⟨"", none⟩, none)
  | some (.obj kvs) => decodePatchMembers kvs ⟨"", none⟩
  | some (.bool _) => (⟨"", none⟩, some (.unmarshalType "bool" "struct"))
  | some (.num _) => (⟨"", none⟩, some (.unmarshalType "number" "struct"))
  | some (.str _) => (⟨"", none⟩, some (.unmarshalType "string" "struct"))
  | some (.arr _) => (⟨"", none⟩, some (.unmarshalType "array" "struct"))

/-- The expression `strings.Split(path, "/")[1:]`. -/
def pathKeys (path : String) : List String :=
  (stringsSplit path).tail

/-- Function `processChange` (lines 151-180) on the destination `d` that `v` points to. -/
def processChange (d : Val) (e : Event) : Val × Res :=
  if e.Typ = "put" then
    match (decodePut e.Data).2 with
    | some err => (d, .err err)
    | none =>
      if (decodePut e.Data).1.Path = "/" then
        ((jsonUnmarshal (decodePut e.Data).1.Data d).1,
          match (jsonUnmarshal (decodePut e.Data).1.Data d).2 with
          | some err => .err err
          | none => .ok)
      else
        match (pathKeys (decodePut e.Data).1.Path).getLast? with
        | none => (d, .panic)
        | some last =>
          applyPatch d (pathKeys (decodePut e.Data).1.Path).dropLast
            [(last, (decodePut e.Data).1.Data)]
  else if e.Typ = "patch" then
    match (decodePatch e.Data).2 with
    | some err => (d, .err err)
    | none =>
      applyPatch d (pathKeys (decodePatch e.Data).1.Path)
        ((decodePatch e.Data).1.Data.getD [])
  else (d, .ok)

/-! ## The event consumer -/

/-- The event source, `client.Client`: the events queued in the channel `Stream`, oldest
first, whether the channel has been closed, and the failure `Err`. -/
structure Client where
  Stream : List Event
  closed : Bool
  Err : Option GoError

/-- The type `Watch` (lines 22-25). -/
structure Watch where
  client : Client
  bufferedChange : Option Event

/-- The error a closed stream is reported with (lines 112-115 and 137-140). -/
def closedErr (c : Client) : GoError :=
  match c.Err with
  | some e => e
  | none => .eof

/-- The receive loop of `WaitForChange` (lines 109-122) over the queued events.  The
result is the events left in the queue, the buffered event, and the returned error;
`none` means the call blocks on an open, empty channel. -/
def waitLoop (c : Client) : List Event → Option (List Event × Option Event × Option GoError)
  | [] => if c.closed then some ([], none, some (closedErr c)) else none
  | e :: rest => if e.Typ = "keep-alive" then waitLoop c rest else some (rest, some e, none)

/-- Method `WaitForChange` (lines 105-123): the new state of the watch and the returned
error, `none` when the call blocks. -/
def WaitForChange (w : Watch) : Option (Watch × Option GoError) :=
  match w.bufferedChange with
  | some _ => some (w, none)
  | none =>
    match waitLoop w.client w.client.Stream with
    | none => none
    | some (rest, buf, err) => some (⟨⟨rest, w.client.closed, w.client.Err⟩, buf⟩, err)

/-- The drain loop of `ApplyChanges` (lines 133-148): the queued events are received and
processed one by one; the result is the events left in the queue, the destination and
how the call ended. -/
def drainLoop (c : Client) : List Event → Val → List Event × Val × Res
  | [], d => if c.closed then ([], d, .err (closedErr c)) else ([], d, .ok)
  | e :: rest, d =>
    match processChange d e with
    | (d2, .ok) => drainLoop c rest d2
    | (d2, r) => (rest, d2, r)

/-- Method `ApplyChanges` (lines 125-149) on the destination `d` that `v` points to: the
new state of the watch, the destination, and how the call ended.  A panic of
`processChange` on the buffered event leaves the buffer as it was. -/
def ApplyChanges (w : Watch) (d : Val) : Watch × Val × Res :=
  match w.bufferedChange with
  | some b =>
    match processChange d b with
    | (d2, .ok) =>
      (⟨⟨(drainLoop w.client w.client.Stream d2).1, w.client.closed, w.client.Err⟩, none⟩,
        (drainLoop w.client w.client.Stream d2).2)
    | (d2, .err err) => (⟨w.client, none⟩, d2, .err err)
    | (d2, .panic) => (w, d2, .panic)
  | none =>
    (⟨⟨(drainLoop w.client w.client.Stream d).1, w.client.closed, w.client.Err⟩, none⟩,
      (drainLoop w.client w.client.Stream d).2)

/-! ## Observations used to state the properties -/

/-- Entries of a keyed container: of a map, or of a map stored in an interface. -/
def entriesOf : Val → Option (List (String × Val))
  | .map _ entries => some entries
  | .iface (.map _ entries) => some entries
  | _ => none

/-- Looking up a key sequence in a destination, one keyed container after the other. -/
def lookupPath : Val → List String → Option Val
  | v, [] => some v
  | v, k :: ks =>
    match entriesOf v with
    | none => none
    | some entries =>
      match mapLookup k entries with
      | none => none
      | some x => lookupPath x ks

/-- The path string `/k1/.../kn` of a key sequence. -/
def pathOf : List String → String
  | [] => ""
  | k :: ks => "/" ++ k ++ pathOf ks

/-- The put event `{path, data}`. -/
def putEvent (path : String) (data : JSON) : Event :=
  ⟨"put", some (.obj [("path", .str path), ("data", data)])⟩

/-- The patch event `{path, data}` with the field mapping `fields`. -/
def patchEvent (path : String) (fields : List (String × JSON)) : Event :=
  ⟨"patch", some (.obj [("path", .str path), ("data", .obj fields)])⟩

/-- Destination after `processChange` has been applied to the events in order. -/
def applyInOrder : Val → List Event → Val
  | d, [] => d
  | d, e :: es => applyInOrder (processChange d e).1 es

/-- Every event of the list is processed without error or panic, each on the destination
the events before it have left. -/
def allSucceed : Val → List Event → Prop
  | _, [] => True
  | d, e :: es => (processChange d e).2 = .ok ∧ allSucceed (processChange d e).1 es

/-! ## The order of strings -/

/-- Order of Go strings: lexicographic on the characters, which for UTF-8 text is the
order of the bytes. -/
def strLe (a b : String) : Prop :=
  a.data ≤ b.data

/-- Strict order of Go strings. -/
def strLt (a b : String) : Prop :=
  a.data < b.data

/-- Decision procedure of the order of Go strings. -/
instance strLeDec : DecidableRel strLe :=
  fun a b => inferInstanceAs (Decidable (a.data ≤ b.data))

/-! ## Reading a destination along a key sequence -/

/-- The value behind a chain of non-nil pointers. -/
def peelPtrs : Val → Val
  | .ptr p => peelPtrs p
  | v => v

/-- The value the navigation loop works on at a location that needs no preparation: the
content of an interface, behind the non-nil pointers. -/
def peel : Val → Val
  | .iface x => peelPtrs x
  | v => peelPtrs v

/-- The value a key sequence resolves to in a destination, read the way the navigation
of `applyPatch` goes (map entries by key, struct fields by `fieldByKey`) without creating
anything; `none` when a key is absent or the value at hand has no keys. -/
def resolve : Val → List String → Option Val
  | v, [] => some (peel v)
  | v, k :: ks =>
    match peel v with
    | .map _ es =>
      match mapLookup k es with
      | none => none
      | some x => resolve x ks
    | .struct _ fs vals =>
      match fieldByKey k fs with
      | none => none
      | some i => resolve (vals.getD i .nilIface) ks
    | _ => none

/-- The key sequence resolves to a non-nil keyed container or to a record. -/
def resolvesToContainer (v : Val) (q : List String) : Prop :=
  ∃ t, resolve v q = some t ∧
    match t with
    | .map _ _ => True
    | .struct _ _ _ => True
    | _ => False

mutual
/-- Every struct inside the value has as many field values as its type has fields. -/
def Val.wellFormed : Val → Bool
  | .iface x => x.wellFormed
  | .ptr p => p.wellFormed
  | .slice _ xs => wellFormedList xs
  | .map _ es => wellFormedEntries es
  | .struct _ fs vals => vals.length == fs.length && wellFormedList vals
  | _ => true
/-- All values of the list are well formed. -/
def wellFormedList : List Val → Bool
  | [] => true
  | x :: xs => x.wellFormed && wellFormedList xs
/-- All values bound in the association list are well formed. -/
def wellFormedEntries : List (String × Val) → Bool
  | [] => true
  | (_, x) :: es => x.wellFormed && wellFormedEntries es
end

/-! ## Locations of a destination -/

/-- Entry of a container that a key denotes: the key itself in a map, and in a struct the
index of the field `fieldByKey` resolves the key to, so that two spellings of one field
denote one entry. -/
inductive Entry where
  | key (k : String)
  | field (i : Nat)

/-- The entry a key denotes in a value; `none` when the value has no entries or the key
resolves to no field. -/
def entryOf (t : Val) (k : String) : Option Entry :=
  match t with
  | .map _ _ => some (.key k)
  | .struct _ fs _ => (fieldByKey k fs).map .field
  | _ => none

/-- The value stored in the entry a key denotes: the map entry or the struct field. -/
def entryVal (t : Val) (k : String) : Option Val :=
  match t with
  | .map _ es => mapLookup k es
  | .struct _ fs vals =>
    match fieldByKey k fs with
    | none => none
    | some i => some (vals.getD i .nilIface)
  | _ => none

/-- The value stored at a location of a destination: the key sequence is followed the
way the navigation of `applyPatch` goes, through interfaces, non-nil pointers, map
entries and struct fields, without creating anything. -/
def locate : Val → List String → Option Val
  | v, [] => some v
  | v, k :: ks =>
    match entryVal (peel v) k with
    | none => none
    | some x => locate x ks

/-- Locations that lie neither on the navigated path nor on an entry named in the
mapping, entries being told apart the way the code resolves keys: the key sequence leaves
the path at some entry, or it continues below the target through an entry that no field
of the mapping denotes. -/
def offLoc (fields : List (String × Raw)) : Val → List String → List String → Prop
  | _, _, [] => False
  | v, [], k :: _ => ∀ f ∈ fields.map Prod.fst, entryOf (peel v) f ≠ entryOf (peel v) k
  | v, key :: keys, k :: q =>
    entryOf (peel v) k ≠ entryOf (peel v) key ∨
      match entryVal (peel v) key with
      | none => True
      | some x => offLoc fields x keys q

/-! ## Destinations with shared maps

A Go map is a reference: the same `map[string]interface{}` can be stored under several
keys, and a write through one of them is seen through all.  The store below keeps such
maps by address, next to the values of the tree model, which are not shared. -/

/-- What a shared map holds under a key: a value of its own, no part of which is
reachable in another way, or a reference to the shared map at an address of the store. -/
inductive Slot where
  | own (v : Val)
  | ref (a : Nat)

/-- The shared maps of type `map[string]interface{}`, by address. -/
abbrev Store := List (List (String × Slot))

/-- Slot bound to a key of a shared map. -/
def slotLookup (k : String) : List (String × Slot) → Option Slot
  | [] => none
  | (k2, x) :: rest => if k2 = k then some x else slotLookup k rest

/-- Result of `m[k] = x` on a shared map. -/
def slotInsert (k : String) (x : Slot) : List (String × Slot) → List (String × Slot)
  | [] => [(k, x)]
  | (k2, x2) :: rest => if k2 = k then (k, x) :: rest else (k2, x2) :: slotInsert k x rest

/-- Result of `delete(m, k)` on a shared map. -/
def slotDelete (k : String) : List (String × Slot) → List (String × Slot)
  | [] => []
  | (k2, x2) :: rest => if k2 = k then slotDelete k rest else (k2, x2) :: slotDelete k rest

/-- One round of the field loop of `applyPatch` (lines 222-258) when the target is the
shared map at address `a`: null deletes the key, any other payload is decoded into a new
`interface{}` and stored under the key. -/
def applyFieldShared (s : Store) (a : Nat) (field : String) (data : Raw) : Store × Res :=
  match data with
  | some .null => (s.set a (slotDelete field (s.getD a [])), .ok)
  | _ =>
    match (jsonUnmarshal data (zero .iface)).2 with
    | some err => (s, .err err)
    | none =>
      (s.set a (slotInsert field (.own (jsonUnmarshal data (zero .iface)).1) (s.getD a [])),
        .ok)

/-- The field loop of `applyPatch` on the shared map at address `a`. -/
def applyFieldsShared (a : Nat) : Store → List (String × Raw) → Store × Res
  | s, [] => (s, .ok)
  | s, (field, data) :: rest =>
    match applyFieldShared s a field data with
    | (s2, .ok) => applyFieldsShared a s2 rest
    | r => r

/-- Function `applyPatch` (lines 182-261) when the cursor stands on the shared map at
address `a`.  A key that is absent is bound to a new empty map, which is added to the
store; a reference is followed; a value of its own is handed to the navigation of the
tree model and stored back. -/
def applyPatchShared : List String → Store → Nat → List (String × Raw) → Store × Res
  | [], s, a, fields => applyFieldsShared a s fields
  | key :: keys, s, a, fields =>
    match slotLookup key (s.getD a []) with
    | none =>
      applyPatchShared keys
        (s.set a (slotInsert key (.ref s.length) (s.getD a [])) ++ [[]]) s.length fields
    | some (.ref b) => applyPatchShared keys s b fields
    | some (.own x) =>
      (s.set a (slotInsert key (.own (applyPatchLoop keys ⟨false, false⟩ x fields).1)
          (s.getD a [])),
        (applyPatchLoop keys ⟨false, false⟩ x fields).2)

/-- Looking up a key sequence from a slot of the store, references being followed. -/
def lookupShared : List String → Store → Slot → Option Slot
  | [], _, x => some x
  | k :: ks, s, .ref a =>
    match slotLookup k (s.getD a []) with
    | none => none
    | some x => lookupShared ks s x
  | k :: ks, _, .own v => (locate v (k :: ks)).map .own

/-- The entries of the store that a call of `applyPatchShared` writes, as pairs of the
address of a map and a key: the named fields of the target, and on the way the next key
where it is absent or holds a value of its own.  Maps the call adds to the store are not
listed. -/
def touched : List String → Store → Nat → List (String × Raw) → List (Nat × String)
  | [], _, a, fields => fields.map (fun f => (a, f.1))
  | key :: keys, s, a, fields =>
    match slotLookup key (s.getD a []) with
    | none => [(a, key)]
    | some (.ref b) => touched keys s b fields
    | some (.own _) => [(a, key)]

/-- The entries of the store that a lookup reads, as pairs of the address of a map and a
key. -/
def reads : List String → Store → Slot → List (Nat × String)
  | [], _, _ => []
  | k :: ks, s, .ref a =>
    (a, k) ::
      match slotLookup k (s.getD a []) with
      | none => []
      | some x => reads ks s x
  | _ :: _, _, .own _ => []

/-- The tree of values a slot of the store stands for when nothing is shared: a
reference is replaced by the map it points to, down to the given depth. -/
def unfoldSlot : Nat → Store → Slot → Val
  | _, _, .own v => v
  | 0, _, .ref _ => .nilIface
  | n + 1, s, .ref a =>
    .iface (.map .iface ((s.getD a []).map (fun p => (p.1, unfoldSlot n s p.2))))

/-- The entries of a map of the tree model as slots of a shared map: every value is the
entry's own. -/
def ownAll (es : List (String × Val)) : List (String × Slot) :=
  es.map (fun p => (p.1, .own p.2))

/-! ## Predicates and inputs used in the statements -/

/-- Watch of the witness of C8: a patch event is buffered, a put event is queued and the
stream has been closed without failure. -/
def watchC8 : Watch :=
  ⟨⟨[putEvent "/outer/inner/a" (.num 1)], true, none⟩,
    some (patchEvent "/outer/inner" [("b", .num 1)])⟩

/-- Watch of the witness of C9: the buffered put event addresses a key below a number. -/
def watchC9 : Watch :=
  ⟨⟨[putEvent "/a" (.num 2)], false, none⟩, some (putEvent "/a/b/c" (.num 1))⟩

/-- Destination of the witness of C9: `{"a": 1}`. -/
def destC9 : Val :=
  .map .iface [("a", .iface (.float64 1))]

/-- Watch of the witness of C10: two keep-alive events, a put event, a further event. -/
def watchC10 : Watch :=
  ⟨⟨[⟨"keep-alive", none⟩, ⟨"keep-alive", none⟩, putEvent "/a" (.num 1),
      ⟨"keep-alive", none⟩], false, none⟩, none⟩

/-- Values the pointer loop stops at. -/
def notPtr : Val → Bool
  | .ptr _ => false
  | .nilPtr _ => false
  | _ => true

/-- Values the preparation steps leave as they are when the cursor stands on them. -/
def settled : Val → Bool
  | .ptr _ => false
  | .nilPtr _ => false
  | .nilMap _ => false
  | _ => true

/-- Values of a kind other than interface. -/
def notIface : Val → Bool
  | .nilIface => false
  | .iface _ => false
  | _ => true

/-- Non-nil maps and structs: the targets the navigation and the field loop rewrite. -/
def isContainer : Val → Bool
  | .map _ _ => true
  | .struct _ _ _ => true
  | _ => false

/-- Two calls of `applyPatch` one after the other on the same key sequence and field
mapping; the second call is not made when the first one panics. -/
def applyPatchTwice (d : Val) (keys : List String) (fields : List (String × Raw)) :
    Val × Res :=
  match applyPatch d keys fields with
  | (d1, .panic) => (d1, .panic)
  | (d1, _) => applyPatch d1 keys fields

/-- Every key sequence `take i ks` with `0 < i ≤ length ks` is absent from the value or
resolves to a non-nil `map[string]interface{}`. -/
def prefixesOpen (v : Val) (ks : List String) : Prop :=
  ∀ i, 0 < i → i ≤ ks.length →
    lookupPath v (ks.take i) = none ∨
      ∃ es, lookupPath v (ks.take i) = some (.iface (.map .iface es))

/-- Destination of the counterexample of C1 with a keyed container of another type:
`{"m": map[string]int{}}`. -/
def destIntMapC1 : Val :=
  .map .iface [("m", .iface (.map .int []))]

/-- Destination of the witness of C1: `{"outer": {"inner": {"a": 0, "b": 1}}}`. -/
def destC1 : Val :=
  .map .iface [("outer", .iface (.map .iface [("inner", .iface (.map .iface
    [("a", .iface (.float64 0)), ("b", .iface (.float64 1))]))]))]

/-- Value bound to a key in a value seen as a keyed container. -/
def lookupKey (v : Val) (k : String) : Option Val :=
  match entriesOf v with
  | none => none
  | some es => mapLookup k es

/-- Value bound to a key in the target of the navigation when it is a map. -/
def targetLookup (t : Val) (k : String) : Option Val :=
  match t with
  | .map _ es => mapLookup k es
  | _ => none

/-- Layers through which `lookupPath` sees a map: none, or one interface. -/
def visible : List Layer → Bool
  | [] => true
  | [.iface] => true
  | _ => false

/-- Locations that lie neither on the navigated path nor on a field named in the
mapping: the key sequence leaves the path at some key, or it continues below the target
with a key that the mapping does not name. -/
def offPath (fields : List (String × Raw)) : List String → List String → Prop
  | _, [] => False
  | [], k :: _ => k ∉ fields.map Prod.fst
  | key :: keys, k :: q => k ≠ key ∨ offPath fields keys q

/-- Destination of the failing input of C4: `{"a": 1}`. -/
def destC4 : Val :=
  .map .iface [("a", .iface (.float64 1))]

/-- Destination of the failing input of C6: `{"x": 0}`. -/
def destC6 : Val :=
  .map .iface [("x", .iface (.float64 0))]

/-- The method `WaitForChange` called `n` times in a row: the final state of the watch
and the errors the calls returned, `none` when one of the calls blocks. -/
def waitRepeated : Nat → Watch → Option (Watch × List (Option GoError))
  | 0, w => some (w, [])
  | n + 1, w =>
    match WaitForChange w with
    | none => none
    | some (w2, err) =>
      match waitRepeated n w2 with
      | none => none
      | some (w3, errs) => some (w3, err :: errs)

/-- Watch of the witness of C11: a put event is buffered and two events are queued. -/
def watchC11 : Watch :=
  ⟨⟨[⟨"keep-alive", none⟩, putEvent "/b" (.num 2)], false, none⟩,
    some (putEvent "/a" (.num 1))⟩

/-- The test of `fieldByKey` on one field (line 267): the name of the field is `name`, or
its lower-cased name is `name`. -/
def fieldMatches (name : String) (f : StructField) : Prop :=
  f.name = name ∨ stringsToLower f.name = name

/-- Fields of the counterexample of C12: `struct { Outer int; outer int }`. -/
def fieldsC12 : List StructField :=
  [.mk "Outer" true "Outer" .int, .mk "outer" false "outer" .int]

/-- Fields of the record of the witness of C17 and of the failing input of C20:
`struct { A int; B int }` with the JSON names `a` and `b`. -/
def fieldsAB : List StructField :=
  [.mk "A" true "a" .int, .mk "B" true "b" .int]

/-- Destination of the failing input of C20: the record `{A: 1, B: 2}`. -/
def destC20 : Val :=
  .struct "Inner" fieldsAB [.int 1, .int 2]

/-- Model of `sort.Strings`: the strings in ascending order. -/
def sortStrings (keys : List String) : List String :=
  keys.insertionSort strLe

/-- Keys of a map as `reflect.Value.MapKeys` yields them, here in the order in which the
entries are stored; `none` is the panic of `MapKeys` on a value that is not a map. -/
def mapKeys : Val → Option (List String)
  | .map _ es => some (es.map Prod.fst)
  | .nilMap _ => some []
  | _ => none

/-- Function `OrderedKeys` (lines 274-282).  The run time returns the keys of the map in
an order of its own choosing: `order` rearranges the stored keys into that order. -/
def OrderedKeys (data : Val) (order : List String → List String) : Option (List String) :=
  match mapKeys data with
  | none => none
  | some keys => some (sortStrings (order keys))

/-- Map of the witness of C18: `{"b": 1, "a": 2, "c": 3}`. -/
def dataC18 : Val :=
  .map .iface [("b", .iface (.float64 1)), ("a", .iface (.float64 2)),
    ("c", .iface (.float64 3))]

/-- Location the navigation loop stands on when it has consumed the keys: the value as it
is before the preparation steps of the next round, and its permission bits.  A key that
is absent from a map leads to the empty map the loop inserts.  `none` when the navigation
ends before it has consumed the keys. -/
def locationAt : List String → Flags → Val → Option (Flags × Val)
  | [], fl, v => some (fl, v)
  | key :: keys, fl, v =>
    match normalize fl v with
    | none => none
    | some f =>
      match f.target with
      | .map e entries =>
        match mapLookup key entries with
        | none =>
          if f.flags.ro then none
          else
            match storeFreshMap e (.map .iface []) with
            | none => none
            | some _ => locationAt keys ⟨false, false⟩ (.map .iface [])
        | some x => locationAt keys ⟨false, f.flags.ro⟩ x
      | .struct _ fs vals =>
        match fieldByKey key fs with
        | none => none
        | some i =>
          locationAt keys ⟨f.flags.addr, f.flags.ro || !fieldExported fs i⟩
            (vals.getD i .nilIface)
      | _ => none

/-- Destination of the witness of C13:
`{"n": 1, "s": "x", "l": [], "m": {"b": true}}`. -/
def destC13 : Val :=
  .map .iface [("n", .iface (.float64 1)), ("s", .iface (.str "x")),
    ("l", .iface (.slice .iface [])),
    ("m", .iface (.map .iface [("b", .iface (.bool true))]))]

/-- Numbers, strings, booleans and lists: the values below which no key can be
addressed. -/
def isLeaf : Val → Bool
  | .bool _ => true
  | .int _ => true
  | .float64 _ => true
  | .str _ => true
  | .nilSlice _ => true
  | .slice _ _ => true
  | _ => false

/-- Struct type `struct { A int; B int }` behind a pointer, the type of the field `Inner`
of the record of the counterexample of C15. -/
def innerType : GoType :=
  .struct "Inner" fieldsAB

/-- Fields of the record of the counterexample of C15:
`struct { Inner *struct { A int; B int } }`. -/
def fieldsOuter : List StructField :=
  [.mk "Inner" true "inner" (.ptr innerType)]

/-- Destination of the counterexample of C15: the record above with the empty
slot `Inner`. -/
def destOuter : Val :=
  .struct "Outer" fieldsOuter [.nilPtr innerType]

/-- The chain of containers along a key sequence: every container holds the next key
only, the innermost value is `t`. -/
def chainMaps : List String → Val → Val
  | [], t => t
  | k :: ks, t => .map .iface [(k, .iface (chainMaps ks t))]

/-- Destination of the failing input of C16: `{"a": nil}`, the value a put at the root
with the payload `{"a": null}` leaves. -/
def destC16 : Val :=
  .map .iface [("a", .nilIface)]

/-- Destination of the counterexample and of the witness of C14: `{"a": 1}`. -/
def destC14 : Val :=
  .map .iface [("a", .iface (.float64 1))]

/-- The store `s2` has the maps of `s` at their addresses, with the same slot under every
key except the pairs listed in `T`. -/
def agreeExcept (T : List (Nat × String)) (s s2 : Store) : Prop :=
  s.length ≤ s2.length ∧
    ∀ b k, b < s.length → (b, k) ∉ T →
      slotLookup k (s2.getD b []) = slotLookup k (s.getD b [])

/-- Store of the counterexample of C2: the destination `{"a": m, "b": m}` at address 0,
in which the map `m = {"x": 0}` at address 1 is stored under two keys. -/
def storeC2 : Store :=
  [[("a", .ref 1), ("b", .ref 1)], [("x", .own (.iface (.float64 0)))]]

/-- Destination of the witness of C2: `{"outer": {"inner": {"a": 1}}, "other": 7}`. -/
def destC2 : Val :=
  .map .iface [("outer", .iface (.map .iface [("inner", .iface (.map .iface
    [("a", .iface (.float64 1))]))])), ("other", .iface (.float64 7))]

/-- Destination of the witness of C2 with a record behind a pointer:
`{"rec": &struct{ A int; B int }{1, 2}}`. -/
def destRecC2 : Val :=
  .map .iface [("rec", .iface (.ptr (.struct "Inner" fieldsAB [.int 1, .int 2])))]

/-- The target the field loop works on: the location the navigation reaches with the key
sequence, after the preparation steps of the last round.  `none` when the navigation ends
before that. -/
def targetAt (keys : List String) (fl : Flags) (v : Val) : Option Focus :=
  match locationAt keys fl v with
  | none => none
  | some (fl1, v1) => normalize fl1 v1

/-- Struct type of the counterexample of C3: `type S struct { A int }`. -/
def fieldsC3 : List StructField :=
  [.mk "A" true "A" .int]

/-- Destination of the counterexample of C3: `map[string]S{"x": S{A: 1}}`. -/
def destC3 : Val :=
  .map (.struct "S" fieldsC3) [("x", .struct "S" fieldsC3 [.int 1])]

/-- Struct type of the counterexample of C3 with an unexported map field:
`type T struct { cache map[string]int }`. -/
def fieldsCacheC3 : List StructField :=
  [.mk "cache" false "cache" (.map .int)]

/-- Destination of the counterexample of C3: `T{cache: map[string]int{"a": 1}}`. -/
def destCacheC3 : Val :=
  .struct "T" fieldsCacheC3 [.map .int [("a", .int 1)]]

/-- Struct type of the counterexample of C3 with an unexported field:
`type U struct { a int }`. -/
def fieldsLowerC3 : List StructField :=
  [.mk "a" false "a" .int]

/-- Destination of the counterexample of C3: `U{a: 1}`. -/
def destLowerC3 : Val :=
  .struct "U" fieldsLowerC3 [.int 1]

/-- The permission bits of the target allow the null branch to write the entry `f`: a
keyed container was not reached through an unexported field; a record is addressable,
was not reached through an unexported field, and `f` resolves to an exported field. -/
def nullAllowed (F : Focus) (f : String) : Prop :=
  match F.target with
  | .map _ _ => F.flags.ro = false
  | .struct _ fs _ =>
    F.flags.addr = true ∧ F.flags.ro = false ∧
      ∃ i, fieldByKey f fs = some i ∧ fieldExported fs i = true
  | _ => False

/-- The entry `f` of the container is cleared: it is absent from a keyed container; in a
record, `f` resolves to a field, which holds the zero value of its type if none of the
other names in `names` resolves to the same field. -/
def cleared (t : Val) (f : String) (names : List String) : Prop :=
  match t with
  | .map _ es => mapLookup f es = none
  | .struct _ fs vals =>
    ∃ i, fieldByKey f fs = some i ∧
      ((∀ g ∈ names, g ≠ f → fieldByKey g fs ≠ some i) →
        vals.get? i = some (zero (fieldType fs i)))
  | _ => False

/-- Destination of the witness of C3, the one of `TestRemoveKey`:
`{"outer": {"inner": {"a": 1, "b": 1, "c": 1}}}`. -/
def destRemoveC3 : Val :=
  .map .iface [("outer", .iface (.map .iface [("inner", .iface (.map .iface
    [("a", .iface (.float64 1)), ("b", .iface (.float64 1)),
      ("c", .iface (.float64 1))]))]))]

/-- Destination of the witness of C3 with a record: `S{A: 1}`, behind the pointer that is
handed to `applyPatch`. -/
def recordC3 : Val :=
  .struct "S" fieldsC3 [.int 1]

/-! ## The event consumer: proofs -/

theorem drainLoop_of_allSucceed (c : Client) (es : List Event) (d : Val)
    (h : allSucceed d es) :
    drainLoop c es d =
      ([], applyInOrder d es, if c.closed then .err (closedErr c) else .ok) := by
  induction es generalizing d with
  | nil => simp only [drainLoop, applyInOrder]; split <;> rfl
  | cons e es ih =>
    obtain ⟨h1, h2⟩ := h
    have := ih _ h2
    simp only [drainLoop, applyInOrder]
    generalize processChange d e = r at *
    obtain ⟨d2, res⟩ := r
    simp only at h1
    subst h1
    simpa using this

theorem ApplyChanges_of_allSucceed (w : Watch) (d : Val)
    (h : allSucceed d (w.bufferedChange.toList ++ w.client.Stream)) :
    ApplyChanges w d =
      (⟨⟨[], w.client.closed, w.client.Err⟩, none⟩,
        applyInOrder d (w.bufferedChange.toList ++ w.client.Stream),
        if w.client.closed then .err (closedErr w.client) else .ok) := by
  obtain ⟨c, buf⟩ := w
  cases buf with
  | none =>
    simp only [Option.toList, List.nil_append] at h ⊢
    simp only [ApplyChanges, drainLoop_of_allSucceed c _ d h]
  | some b =>
    simp only [Option.toList, List.singleton_append] at h ⊢
    obtain ⟨h1, h2⟩ := h
    simp only [ApplyChanges, applyInOrder]
    generalize processChange d b = r at *
    obtain ⟨d2, res⟩ := r
    simp only at h1
    subst h1
    simp only [drainLoop_of_allSucceed c _ d2 h2]

/-- C8: when `processChange` succeeds on the buffered event (if any) and on each queued
event in turn, `ApplyChanges` leaves the destination that results from processing the
buffered event first and then the queued events in their order, empties the queue and the
buffer, and returns nil on an open stream, `io.EOF` on a stream closed without failure and
the failure of the client on a stream closed with one. -/
theorem ApplyChanges_delivery_order (w : Watch) (d : Val)
    (h : allSucceed d (w.bufferedChange.toList ++ w.client.Stream)) :
    (ApplyChanges w d).2.1 = applyInOrder d (w.bufferedChange.toList ++ w.client.Stream) ∧
    (ApplyChanges w d).1.client.Stream = [] ∧
    (ApplyChanges w d).1.bufferedChange = none ∧
    (w.client.closed = false → (ApplyChanges w d).2.2 = .ok) ∧
    (w.client.closed = true → w.client.Err = none → (ApplyChanges w d).2.2 = .err .eof) ∧
    (∀ e, w.client.closed = true → w.client.Err = some e →
      (ApplyChanges w d).2.2 = .err e) := by
  rw [ApplyChanges_of_allSucceed w d h]
  refine ⟨rfl, rfl, rfl, ?_, ?_, ?_⟩
  · intro hc; simp [hc]
  · intro hc he; simp [hc, closedErr, he]
  · intro e hc he; simp [hc, closedErr, he]

theorem ApplyChanges_delivery_order_witness :
    allSucceed (.nilMap .iface) (watchC8.bufferedChange.toList ++ watchC8.client.Stream) ∧
    (ApplyChanges watchC8 (.nilMap .iface)).2.1 =
      applyInOrder (.nilMap .iface)
        (watchC8.bufferedChange.toList ++ watchC8.client.Stream) ∧
    (ApplyChanges watchC8 (.nilMap .iface)).2.2 = .err .eof :=
  ⟨⟨rfl, rfl, trivial⟩,
    (ApplyChanges_delivery_order watchC8 (.nilMap .iface) ⟨rfl, rfl, trivial⟩).1,
    (ApplyChanges_delivery_order watchC8 (.nilMap .iface) ⟨rfl, rfl, trivial⟩).2.2.2.2.1
      rfl rfl⟩

/-- C9: when `processChange` returns an error on the buffered event, `ApplyChanges`
returns that error, the buffer is empty afterwards, and the stream is as it was: no
queued event has been received. -/
theorem ApplyChanges_failed_buffered (w : Watch) (d : Val) (b : Event) (err : GoError)
    (hb : w.bufferedChange = some b) (herr : (processChange d b).2 = .err err) :
    (ApplyChanges w d).2.2 = .err err ∧
    (ApplyChanges w d).1.bufferedChange = none ∧
    (ApplyChanges w d).1.client = w.client ∧
    (ApplyChanges w d).2.1 = (processChange d b).1 := by
  obtain ⟨c, buf⟩ := w
  simp only at hb
  subst hb
  simp only [ApplyChanges]
  generalize processChange d b = r at *
  obtain ⟨d2, res⟩ := r
  simp only at herr
  subst herr
  exact ⟨rfl, rfl, rfl, rfl⟩

theorem ApplyChanges_failed_buffered_witness :
    watchC9.bufferedChange = some (putEvent "/a/b/c" (.num 1)) ∧
    (processChange destC9 (putEvent "/a/b/c" (.num 1))).2 =
      .err (.fmtErrorf "invalid type: float64") ∧
    (ApplyChanges watchC9 destC9).2.2 = .err (.fmtErrorf "invalid type: float64") ∧
    (ApplyChanges watchC9 destC9).1.bufferedChange = none ∧
    (ApplyChanges watchC9 destC9).1.client = watchC9.client ∧
    (ApplyChanges watchC9 destC9).2.1 =
      (processChange destC9 (putEvent "/a/b/c" (.num 1))).1 :=
  ⟨rfl, rfl, ApplyChanges_failed_buffered watchC9 destC9 _ _ rfl rfl⟩

theorem waitLoop_skip (c : Client) (pre : List Event) (rest : List Event)
    (hpre : ∀ x ∈ pre, x.Typ = "keep-alive") :
    waitLoop c (pre ++ rest) = waitLoop c rest := by
  induction pre with
  | nil => rfl
  | cons x xs ih =>
    have hx : x.Typ = "keep-alive" := hpre x (List.mem_cons_self _ _)
    simp only [List.cons_append, waitLoop, hx, if_true]
    exact ih (fun y hy => hpre y (List.mem_cons_of_mem _ hy))

/-- C10: with an empty buffer, `WaitForChange` skips the keep-alive events at the head of
the stream.  If an event of another type follows, the call returns nil, that event is
buffered, the events up to and including it are consumed and the later events stay queued
in their order.  If the stream holds keep-alive events only and is closed, nothing is
buffered and the call returns the failure of the client when there is one and `io.EOF`
otherwise. -/
theorem WaitForChange_filters_keep_alive (w : Watch) (hbuf : w.bufferedChange = none) :
    (∀ pre e post, w.client.Stream = pre ++ e :: post →
      (∀ x ∈ pre, x.Typ = "keep-alive") → e.Typ ≠ "keep-alive" →
      WaitForChange w = some (⟨⟨post, w.client.closed, w.client.Err⟩, some e⟩, none)) ∧
    ((∀ x ∈ w.client.Stream, x.Typ = "keep-alive") → w.client.closed = true →
      (∀ err, w.client.Err = some err →
        WaitForChange w = some (⟨⟨[], true, some err⟩, none⟩, some err)) ∧
      (w.client.Err = none →
        WaitForChange w = some (⟨⟨[], true, none⟩, none⟩, some .eof))) := by
  obtain ⟨c, buf⟩ := w
  simp only at hbuf
  subst hbuf
  refine ⟨?_, ?_⟩
  · intro pre e post hs hpre he
    simp only at hs
    simp only [WaitForChange, hs, waitLoop_skip c pre _ hpre, waitLoop, he, if_false]
  · intro hall hclosed
    simp only at hall hclosed
    have hw : waitLoop c c.Stream = some ([], none, some (closedErr c)) := by
      have := waitLoop_skip c c.Stream [] hall
      rw [List.append_nil] at this
      rw [this]
      simp [waitLoop, hclosed]
    refine ⟨?_, ?_⟩
    · intro err herr
      simp only at herr
      simp only [WaitForChange, hw, hclosed, herr, closedErr]
    · intro herr
      simp only at herr
      simp only [WaitForChange, hw, hclosed, herr, closedErr]

theorem WaitForChange_filters_keep_alive_witness :
    watchC10.bufferedChange = none ∧
    WaitForChange watchC10 =
      some (⟨⟨[⟨"keep-alive", none⟩], false, none⟩, some (putEvent "/a" (.num 1))⟩, none) :=
  ⟨rfl, (WaitForChange_filters_keep_alive watchC10 rfl).1
    [⟨"keep-alive", none⟩, ⟨"keep-alive", none⟩] (putEvent "/a" (.num 1))
    [⟨"keep-alive", none⟩] rfl (by simp) (by decide)⟩

/-! ## Association lists -/

theorem mapLookup_mapInsert_self (k : String) (v : Val) (es : List (String × Val)) :
    mapLookup k (mapInsert k v es) = some v := by
  induction es with
  | nil => simp [mapInsert, mapLookup]
  | cons kv rest ih =>
    obtain ⟨k2, v2⟩ := kv
    by_cases h : k2 = k
    · simp [mapInsert, mapLookup, h]
    · simp [mapInsert, mapLookup, h, ih]

theorem mapLookup_mapInsert_ne (k q : String) (v : Val) (es : List (String × Val))
    (h : q ≠ k) : mapLookup q (mapInsert k v es) = mapLookup q es := by
  induction es with
  | nil => simp [mapInsert, mapLookup, Ne.symm h]
  | cons kv rest ih =>
    obtain ⟨k2, v2⟩ := kv
    by_cases h2 : k2 = k
    · subst h2
      simp [mapInsert, mapLookup, Ne.symm h]
    · by_cases h3 : k2 = q
      · subst h3
        simp [mapInsert, mapLookup, h]
      · simp [mapInsert, mapLookup, h2, h3, ih]

theorem mapLookup_mapDelete_self (k : String) (es : List (String × Val)) :
    mapLookup k (mapDelete k es) = none := by
  induction es with
  | nil => simp [mapDelete, mapLookup]
  | cons kv rest ih =>
    obtain ⟨k2, v2⟩ := kv
    by_cases h : k2 = k
    · simp [mapDelete, h, ih]
    · simp [mapDelete, mapLookup, h, ih]

theorem mapLookup_mapDelete_ne (k q : String) (es : List (String × Val)) (h : q ≠ k) :
    mapLookup q (mapDelete k es) = mapLookup q es := by
  induction es with
  | nil => simp [mapDelete, mapLookup]
  | cons kv rest ih =>
    obtain ⟨k2, v2⟩ := kv
    by_cases h2 : k2 = k
    · subst h2
      simp [mapDelete, mapLookup, Ne.symm h, ih]
    · by_cases h3 : k2 = q
      · subst h3
        simp [mapDelete, mapLookup, h]
      · simp [mapDelete, mapLookup, h2, h3, ih]

theorem mapDelete_mapDelete (k : String) (es : List (String × Val)) :
    mapDelete k (mapDelete k es) = mapDelete k es := by
  induction es with
  | nil => simp [mapDelete]
  | cons kv rest ih =>
    obtain ⟨k2, v2⟩ := kv
    by_cases h : k2 = k
    · simp [mapDelete, h, ih]
    · simp [mapDelete, h, ih]

theorem mapInsert_mapInsert (k : String) (v w : Val) (es : List (String × Val)) :
    mapInsert k v (mapInsert k w es) = mapInsert k v es := by
  induction es with
  | nil => simp [mapInsert]
  | cons kv rest ih =>
    obtain ⟨k2, v2⟩ := kv
    by_cases h : k2 = k
    · simp [mapInsert, h]
    · simp [mapInsert, h, ih]

/-! ## The preparation steps on a value that has been prepared before -/

theorem derefPtrs_of_notPtr (fl : Flags) (t : Val) (h : notPtr t = true) :
    derefPtrs fl t = some ⟨[], t, fl⟩ := by
  cases t <;> simp_all [derefPtrs, notPtr]

theorem allocPtrs_notPtr (e : GoType) : notPtr (allocPtrs e).2 = true := by
  induction e using allocPtrs.induct with
  | case1 e ih => simpa [allocPtrs] using ih
  | case2 t h =>
    rw [allocPtrs]
    · cases t <;> simp_all [zero, notPtr]
    · exact h

theorem derefPtrs_target_notPtr (fl : Flags) (v : Val) (f : Focus)
    (h : derefPtrs fl v = some f) : notPtr f.target = true := by
  induction fl, v using derefPtrs.induct generalizing f with
  | case1 fl p g hp ih =>
    simp only [derefPtrs, hp, Option.some.injEq] at h
    subst h
    exact ih g hp
  | case2 fl p hp =>
    simp [derefPtrs, hp] at h
  | case3 fl e ha =>
    simp only [derefPtrs, ha, if_true, Option.some.injEq] at h
    subst h
    exact allocPtrs_notPtr e
  | case4 fl e ha =>
    simp [derefPtrs, ha] at h
  | case5 fl v h1 h2 =>
    rw [derefPtrs] at h
    · simp only [Option.some.injEq] at h
      subst h
      cases v <;> simp_all [notPtr]
    · exact h1
    · exact h2

theorem allocPtrs_plug (e : GoType) (t : Val) (ht : notPtr t = true) :
    derefPtrs ⟨true, false⟩ (plug (allocPtrs e).1 t) =
      some ⟨(allocPtrs e).1, t, ⟨true, false⟩⟩ := by
  induction e using allocPtrs.induct with
  | case1 e ih => simp only [allocPtrs, plug, derefPtrs, ih]
  | case2 u h =>
    rw [allocPtrs]
    · exact derefPtrs_of_notPtr _ t ht
    · exact h

theorem derefPtrs_plug (fl : Flags) (v : Val) (f : Focus) (h : derefPtrs fl v = some f)
    (t : Val) (ht : notPtr t = true) :
    derefPtrs fl (plug f.layers t) = some ⟨f.layers, t, f.flags⟩ := by
  induction fl, v using derefPtrs.induct generalizing f with
  | case1 fl p g hp ih =>
    simp only [derefPtrs, hp, Option.some.injEq] at h
    subst h
    simp only [plug, derefPtrs, ih g hp]
  | case2 fl p hp =>
    simp [derefPtrs, hp] at h
  | case3 fl e ha =>
    simp only [derefPtrs, ha, if_true, Option.some.injEq] at h
    subst h
    have hro : fl.ro = false := by
      simp only [Flags.assignable, Bool.and_eq_true, Bool.not_eq_true'] at ha
      exact ha.2
    simp only [plug, derefPtrs, hro, allocPtrs_plug e t ht]
  | case4 fl e ha =>
    simp [derefPtrs, ha] at h
  | case5 fl v h1 h2 =>
    rw [derefPtrs] at h
    · simp only [Option.some.injEq] at h
      subst h
      exact derefPtrs_of_notPtr _ t ht
    · exact h1
    · exact h2

theorem derefPtrs_layers (fl : Flags) (v : Val) (f : Focus) (h : derefPtrs fl v = some f) :
    (f.layers = [] ∧ f.target = v ∧ f.flags = fl) ∨ ∃ ls, f.layers = .ptr :: ls := by
  cases v with
  | ptr p =>
    simp only [derefPtrs] at h
    split at h
    · simp only [Option.some.injEq] at h
      subst h
      exact Or.inr ⟨_, rfl⟩
    · simp at h
  | nilPtr e =>
    simp only [derefPtrs] at h
    split at h
    · simp only [Option.some.injEq] at h
      subst h
      exact Or.inr ⟨_, rfl⟩
    · simp at h
  | _ =>
    simp only [derefPtrs, Option.some.injEq] at h
    subst h
    exact Or.inl ⟨rfl, rfl, rfl⟩

theorem initMap_settled (fl : Flags) (v t : Val) (h : initMap fl v = some t)
    (hv : notPtr v = true) : settled t = true := by
  cases v with
  | nilMap e =>
    simp only [initMap] at h
    split at h
    · simp only [Option.some.injEq] at h
      subst h
      rfl
    · simp at h
  | ptr p => simp [notPtr] at hv
  | nilPtr e => simp [notPtr] at hv
  | _ =>
    simp only [initMap, Option.some.injEq] at h
    subst h
    rfl

theorem initMap_of_settled (fl : Flags) (t : Val) (h : settled t = true) :
    initMap fl t = some t := by
  cases t <;> simp_all [initMap, settled]

theorem initMap_notIface (fl : Flags) (v t : Val) (h : initMap fl v = some t)
    (hv : notIface v = true) : notIface t = true := by
  cases v with
  | nilMap e =>
    simp only [initMap] at h
    split at h
    · simp only [Option.some.injEq] at h
      subst h
      rfl
    · simp at h
  | nilIface => simp [notIface] at hv
  | iface x => simp [notIface] at hv
  | _ =>
    simp only [initMap, Option.some.injEq] at h
    subst h
    rfl

theorem settled_notPtr (t : Val) (h : settled t = true) : notPtr t = true := by
  cases t <;> simp_all [settled, notPtr]

theorem enterIface_of_notIface (fl : Flags) (v : Val) (h : notIface v = true) :
    enterIface fl v = some ⟨[], v, fl⟩ := by
  cases v <;> simp_all [enterIface, notIface]

/-- What the preparation steps return, taken apart. -/
theorem normalize_cases (fl : Flags) (v : Val) (f : Focus) (h : normalize fl v = some f) :
    ∃ f1 f2, enterIface fl v = some f1 ∧ derefPtrs f1.flags f1.target = some f2 ∧
      initMap f2.flags f2.target = some f.target ∧ f.layers = f1.layers ++ f2.layers ∧
      f.flags = f2.flags := by
  simp only [normalize] at h
  cases h1 : enterIface fl v with
  | none => simp [h1] at h
  | some f1 =>
    simp only [h1] at h
    cases h2 : derefPtrs f1.flags f1.target with
    | none => simp [h2] at h
    | some f2 =>
      simp only [h2] at h
      cases h3 : initMap f2.flags f2.target with
      | none => simp [h3] at h
      | some t =>
        simp only [h3, Option.some.injEq] at h
        subst h
        exact ⟨f1, f2, rfl, h2, h3, rfl, rfl⟩

theorem plug_append (l1 l2 : List Layer) (t : Val) :
    plug (l1 ++ l2) t = plug l1 (plug l2 t) := by
  induction l1 with
  | nil => rfl
  | cons l ls ih => cases l <;> simp [plug, ih]

theorem normalize_target_settled (fl : Flags) (v : Val) (f : Focus)
    (h : normalize fl v = some f) : settled f.target = true := by
  obtain ⟨f1, f2, _, h2, h3, _, _⟩ := normalize_cases fl v f h
  exact initMap_settled _ _ _ h3 (derefPtrs_target_notPtr _ _ _ h2)

theorem normalize_target_notIface (fl : Flags) (v : Val) (f : Focus)
    (h : normalize fl v = some f) (hl : f.layers = []) : notIface f.target = true := by
  obtain ⟨f1, f2, h1, h2, h3, h4, _⟩ := normalize_cases fl v f h
  rw [hl] at h4
  have hl1 : f1.layers = [] := (List.append_eq_nil.mp h4.symm).1
  have hl2 : f2.layers = [] := (List.append_eq_nil.mp h4.symm).2
  have hv : notIface v = true ∧ f1.target = v ∧ f1.flags = fl := by
    cases v with
    | nilIface =>
      simp only [enterIface] at h1
      split at h1
      · simp only [Option.some.injEq] at h1
        subst h1
        simp at hl1
      · simp at h1
    | iface x =>
      simp only [enterIface, Option.some.injEq] at h1
      subst h1
      simp at hl1
    | _ =>
      simp only [enterIface, Option.some.injEq] at h1
      subst h1
      exact ⟨rfl, rfl, rfl⟩
  rcases derefPtrs_layers _ _ _ h2 with ⟨_, ht, _⟩ | ⟨ls, hls⟩
  · rw [ht, hv.2.1] at h3
    exact initMap_notIface _ _ _ h3 hv.1
  · rw [hl2] at hls
    cases hls

theorem normalize_plug (fl : Flags) (v : Val) (f : Focus) (h : normalize fl v = some f)
    (t : Val) (hs : settled t = true) (hi : f.layers = [] → notIface t = true) :
    normalize fl (plug f.layers t) = some ⟨f.layers, t, f.flags⟩ := by
  obtain ⟨f1, f2, h1, h2, h3, h4, h5⟩ := normalize_cases fl v f h
  have hd := derefPtrs_plug _ _ _ h2 t (settled_notPtr t hs)
  rw [h4, h5, plug_append]
  cases v with
  | nilIface =>
    simp only [enterIface] at h1
    split at h1
    · simp only [Option.some.injEq] at h1
      subst h1
      simp only [plug, normalize, enterIface] at hd ⊢
      simp only [hd, initMap_of_settled _ t hs]
    · simp at h1
  | iface x =>
    simp only [enterIface, Option.some.injEq] at h1
    subst h1
    simp only [plug, normalize, enterIface] at hd ⊢
    simp only [hd, initMap_of_settled _ t hs]
  | _ =>
    simp only [enterIface, Option.some.injEq] at h1
    subst h1
    simp only [plug] at hd ⊢
    rcases derefPtrs_layers _ _ _ h2 with ⟨hl, _, _⟩ | ⟨ls, hls⟩
    · have hti : notIface t = true := hi (by rw [h4, hl]; rfl)
      rw [hl] at hd ⊢
      simp only [plug] at hd ⊢
      simp only [normalize, enterIface_of_notIface _ t hti, hd,
        initMap_of_settled _ t hs, List.nil_append]
    · rw [hls] at hd ⊢
      simp only [plug] at hd ⊢
      simp only [normalize, enterIface, hd, initMap_of_settled _ t hs, List.nil_append]

theorem normalize_plug_self (fl : Flags) (v : Val) (f : Focus)
    (h : normalize fl v = some f) : normalize fl (plug f.layers f.target) = some f :=
  normalize_plug fl v f h f.target (normalize_target_settled fl v f h)
    (normalize_target_notIface fl v f h)

theorem isContainer_settled (t : Val) (h : isContainer t = true) : settled t = true := by
  cases t <;> simp_all [isContainer, settled]

theorem isContainer_notIface (t : Val) (h : isContainer t = true) : notIface t = true := by
  cases t <;> simp_all [isContainer, notIface]

theorem normalize_plug_container (fl : Flags) (v : Val) (f : Focus)
    (h : normalize fl v = some f) (t : Val) (ht : isContainer t = true) :
    normalize fl (plug f.layers t) = some ⟨f.layers, t, f.flags⟩ :=
  normalize_plug fl v f h t (isContainer_settled t ht) (fun _ => isContainer_notIface t ht)

/-! ## The field loop -/

theorem applyFields_single (fl : Flags) (t : Val) (f : String) (d : Raw) :
    applyFields fl t [(f, d)] = applyField fl t f d := by
  simp only [applyFields]
  generalize applyField fl t f d = r
  obtain ⟨t2, res⟩ := r
  cases res <;> rfl

theorem applyField_shape (fl : Flags) (t : Val) (f : String) (d : Raw) :
    (isContainer t = true ∧ isContainer (applyField fl t f d).1 = true) ∨
      (applyField fl t f d).1 = t := by
  unfold applyField
  split <;> split <;> (repeat' split) <;> simp [isContainer]

theorem applyFields_shape (fl : Flags) (t : Val) (fields : List (String × Raw)) :
    (isContainer t = true ∧ isContainer (applyFields fl t fields).1 = true) ∨
      (applyFields fl t fields).1 = t := by
  induction fields generalizing t with
  | nil => exact Or.inr rfl
  | cons fd rest ih =>
    obtain ⟨f, d⟩ := fd
    have h1 := applyField_shape fl t f d
    simp only [applyFields]
    generalize applyField fl t f d = r at h1
    obtain ⟨t2, res⟩ := r
    cases res with
    | ok =>
      simp only at h1 ⊢
      rcases h1 with ⟨ht, ht2⟩ | h1
      · rcases ih t2 with ⟨_, h3⟩ | h3
        · exact Or.inl ⟨ht, h3⟩
        · exact Or.inl ⟨ht, by rw [h3]; exact ht2⟩
      · subst h1
        exact ih t2
    | err e => exact h1
    | panic => exact h1

theorem normalize_plug_shape (fl : Flags) (v : Val) (f : Focus)
    (h : normalize fl v = some f) (t : Val)
    (ht : (isContainer f.target = true ∧ isContainer t = true) ∨ t = f.target) :
    normalize fl (plug f.layers t) = some ⟨f.layers, t, f.flags⟩ := by
  rcases ht with ⟨_, ht⟩ | ht
  · exact normalize_plug_container fl v f h t ht
  · subst ht
    exact normalize_plug_self fl v f h

theorem applyField_null_idem (fl : Flags) (t : Val) (f : String)
    (h : (applyField fl t f (some .null)).2 ≠ .panic) :
    applyField fl (applyField fl t f (some .null)).1 f (some .null) =
      applyField fl t f (some .null) := by
  cases t with
  | map e entries =>
    cases hro : fl.ro with
    | true => simp [applyField, hro] at h
    | false => simp [applyField, hro, mapDelete_mapDelete]
  | nilMap e =>
    cases hro : fl.ro with
    | true => simp [applyField, hro] at h
    | false => simp [applyField, hro]
  | struct n fs vals =>
    cases hf : fieldByKey f fs with
    | none => simp [applyField, hf] at h
    | some i =>
      cases hset : (fl.addr && !(fl.ro || !fieldExported fs i)) with
      | true =>
        have e1 : applyField fl (.struct n fs vals) f (some .null) =
            (.struct n fs (vals.set i (zero (fieldType fs i))), .ok) := by
          simp only [applyField, hf, hset, if_true]
        rw [e1]
        simp only [applyField, hf, hset, if_true, List.set_set]
      | false =>
        have e1 : applyField fl (.struct n fs vals) f (some .null) =
            (.struct n fs vals, .panic) := by
          simp only [applyField, hf, hset]
          rfl
        rw [e1] at h
        exact absurd rfl h
  | _ => simp only [applyField]

theorem normalize_map (fl : Flags) (e : GoType) (es : List (String × Val)) :
    normalize fl (.map e es) = some ⟨[], .map e es, fl⟩ := by
  simp [normalize, enterIface, derefPtrs, initMap]

theorem normalize_iface_map (fl : Flags) (e : GoType) (es : List (String × Val)) :
    normalize fl (.iface (.map e es)) = some ⟨[.iface], .map e es, ⟨false, fl.ro⟩⟩ := by
  simp [normalize, enterIface, derefPtrs, initMap]

theorem applyField_map_shape (fl : Flags) (e : GoType) (es : List (String × Val))
    (f : String) (d : Raw) : ∃ es2, (applyField fl (.map e es) f d).1 = .map e es2 := by
  unfold applyField
  split <;> (repeat' split) <;> simp_all

theorem applyFields_map_shape (fl : Flags) (e : GoType) (es : List (String × Val))
    (fields : List (String × Raw)) : ∃ es2, (applyFields fl (.map e es) fields).1 = .map e es2 := by
  induction fields generalizing es with
  | nil => exact ⟨es, rfl⟩
  | cons fd rest ih =>
    obtain ⟨f, d⟩ := fd
    obtain ⟨es1, h1⟩ := applyField_map_shape fl e es f d
    simp only [applyFields]
    generalize applyField fl (.map e es) f d = r at h1
    obtain ⟨t2, res⟩ := r
    simp only at h1
    subst h1
    cases res with
    | ok => exact ih es1
    | err x => exact ⟨es1, rfl⟩
    | panic => exact ⟨es1, rfl⟩

theorem applyPatchLoop_map_shape (keys : List String) (fl : Flags) (e : GoType)
    (es : List (String × Val)) (fields : List (String × Raw)) :
    ∃ es2, (applyPatchLoop keys fl (.map e es) fields).1 = .map e es2 := by
  cases keys with
  | nil =>
    simp only [applyPatchLoop, normalize_map, plug]
    exact applyFields_map_shape fl e es fields
  | cons key keys =>
    simp only [applyPatchLoop, normalize_map, plug]
    split
    · split
      · exact ⟨_, rfl⟩
      · split <;> exact ⟨_, rfl⟩
    · exact ⟨_, rfl⟩

theorem applyPatchLoop_iface_map (keys : List String) (fl : Flags) (e : GoType)
    (es : List (String × Val)) (fields : List (String × Raw)) :
    applyPatchLoop keys fl (.iface (.map e es)) fields =
      (.iface (applyPatchLoop keys ⟨false, fl.ro⟩ (.map e es) fields).1,
        (applyPatchLoop keys ⟨false, fl.ro⟩ (.map e es) fields).2) := by
  cases keys with
  | nil => simp only [applyPatchLoop, normalize_map, normalize_iface_map, plug]
  | cons key keys =>
    simp only [applyPatchLoop, normalize_map, normalize_iface_map, plug]
    split
    · split
      · rfl
      · split <;> rfl
    · rfl

/-! ## Idempotence of the Null Sentinel -/

theorem applyPatchLoop_null_idem (f : String) (keys : List String) :
    ∀ (fl : Flags) (v : Val),
      (applyPatchLoop keys fl v [(f, some .null)]).2 ≠ .panic →
      applyPatchLoop keys fl (applyPatchLoop keys fl v [(f, some .null)]).1
          [(f, some .null)] =
        applyPatchLoop keys fl v [(f, some .null)] := by
  induction keys with
  | nil =>
    intro fl v hne
    cases hn : normalize fl v with
    | none => simp [applyPatchLoop, hn] at hne
    | some F =>
      simp only [applyPatchLoop, hn, applyFields_single] at hne ⊢
      have hs := normalize_plug_shape fl v F hn _
        (applyField_shape F.flags F.target f (some .null))
      simp only [hs, applyField_null_idem _ _ _ hne]
  | cons key keys ih =>
    intro fl v hne
    cases hn : normalize fl v with
    | none => simp [applyPatchLoop, hn] at hne
    | some F =>
      obtain ⟨ls, t, fl2⟩ := F
      cases t with
      | map e es =>
        cases hl : mapLookup key es with
        | none =>
          cases hro : fl2.ro with
          | true => simp [applyPatchLoop, hn, hl, hro] at hne
          | false =>
            obtain ⟨es2, hm⟩ := applyPatchLoop_map_shape keys ⟨false, false⟩ .iface []
              [(f, some .null)]
            have ih0 := ih ⟨false, false⟩ (.map .iface [])
            simp only [applyPatchLoop, hn, hl, hro] at hne ⊢
            simp only [Bool.false_eq_true, if_false] at hne ⊢
            generalize applyPatchLoop keys ⟨false, false⟩ (.map .iface [])
              [(f, some .null)] = r0 at hm ih0 hne ⊢
            obtain ⟨m, res0⟩ := r0
            simp only at hm ih0 hne ⊢
            subst hm
            cases hst : storeFreshMap e (.map .iface es2) with
            | none => simp [hst] at hne
            | some entry =>
              simp only [hst] at hne ⊢
              specialize ih0 hne
              have hnorm := normalize_plug_container fl v _ hn
                (.map e (mapInsert key entry es)) rfl
              simp only at hnorm
              simp only [hnorm, mapLookup_mapInsert_self, hro, mapInsert_mapInsert]
              have hent : applyPatchLoop keys ⟨false, false⟩ entry [(f, some .null)] =
                  (entry, res0) := by
                cases e with
                | iface =>
                  simp only [storeFreshMap, Option.some.injEq] at hst
                  subst hst
                  rw [applyPatchLoop_iface_map, ih0]
                | map e2 =>
                  cases e2 with
                  | iface =>
                    simp only [storeFreshMap, Option.some.injEq] at hst
                    subst hst
                    rw [ih0]
                  | _ => simp [storeFreshMap] at hst
                | _ => simp [storeFreshMap] at hst
              simp only [hent]
        | some x =>
          simp only [applyPatchLoop, hn, hl] at hne ⊢
          have hnorm := normalize_plug_container fl v _ hn
            (.map e (mapInsert key
              (applyPatchLoop keys ⟨false, fl2.ro⟩ x [(f, some .null)]).1 es)) rfl
          simp only at hnorm
          simp only [hnorm, mapLookup_mapInsert_self, mapInsert_mapInsert, ih _ _ hne]
      | nilMap e => simp [applyPatchLoop, hn] at hne
      | struct n fs vals =>
        cases hf : fieldByKey key fs with
        | none => simp [applyPatchLoop, hn, hf] at hne
        | some i =>
          simp only [applyPatchLoop, hn, hf] at hne ⊢
          have hnorm := normalize_plug_container fl v _ hn
            (.struct n fs (vals.set i
              (applyPatchLoop keys ⟨fl2.addr, fl2.ro || !fieldExported fs i⟩
                (vals.getD i .nilIface) [(f, some .null)]).1)) rfl
          simp only at hnorm
          simp only [hnorm, hf, List.set_set]
          by_cases hi : i < vals.length
          · have hg : ∀ y, (vals.set i y).getD i .nilIface = y := by
              intro y
              simp [List.getD_eq_getElem?_getD, List.getElem?_set, hi]
            simp only [hg, ih _ _ hne]
          · have hs : ∀ y, vals.set i y = vals := by
              intro y
              exact List.set_eq_of_length_le (Nat.le_of_not_lt hi)
            simp only [hs]
      | _ =>
        simp only [applyPatchLoop, hn] at hne ⊢
        have hnorm := normalize_plug_self fl v _ hn
        simp only at hnorm
        simp only [hnorm]

/-- C7: applying `applyPatch(D, K, {f: null})` twice yields the same destination and the
same result as applying it once, for every destination, key sequence and field name. -/
theorem applyPatch_null_idempotent (d : Val) (keys : List String) (f : String) :
    applyPatchTwice d keys [(f, some .null)] = applyPatch d keys [(f, some .null)] := by
  have h := applyPatchLoop_null_idem f keys ⟨true, false⟩ d
  simp only [applyPatchTwice, applyPatch] at h ⊢
  generalize applyPatchLoop keys ⟨true, false⟩ d [(f, some .null)] = r at h
  obtain ⟨d1, res⟩ := r
  cases res with
  | ok => exact h (by simp)
  | err e => exact h (by simp)
  | panic => rfl

/-! ## Path strings -/

theorem splitOn_path (keys : List String) (hs : ∀ k ∈ keys, '/' ∉ k.data)
    (xs : List Char) (hx : '/' ∉ xs) :
    (xs ++ (pathOf keys).data).splitOn '/' = xs :: keys.map String.data := by
  induction keys generalizing xs with
  | nil =>
    simp only [pathOf, List.append_nil, List.map_nil]
    refine List.splitOnP_eq_single _ _ (fun c hc => ?_)
    intro h
    have : c = '/' := by simpa using h
    exact hx (this ▸ hc)
  | cons k ks ih =>
    have hk : '/' ∉ k.data := hs k (List.mem_cons_self _ _)
    have hks : ∀ q ∈ ks, '/' ∉ q.data := fun q hq => hs q (List.mem_cons_of_mem _ hq)
    have e : xs ++ (pathOf (k :: ks)).data = xs ++ '/' :: (k.data ++ (pathOf ks).data) := by
      simp [pathOf, String.data_append]
    rw [e, List.map_cons]
    unfold List.splitOn
    rw [List.splitOnP_first]
    · exact congrArg _ (ih hks k.data hk)
    · intro c hc h
      have : c = '/' := by simpa using h
      exact hx (this ▸ hc)
    · simp

theorem pathKeys_pathOf (keys : List String) (hs : ∀ k ∈ keys, '/' ∉ k.data) :
    pathKeys (pathOf keys) = keys := by
  have h := splitOn_path keys hs [] (by simp)
  simp only [List.nil_append] at h
  simp only [pathKeys, stringsSplit, h, List.map_cons, List.tail_cons, List.map_map]
  have hid : (String.mk ∘ String.data) = id := by
    funext s
    rfl
  rw [hid, List.map_id]

theorem pathOf_ne_root (keys : List String) (hs : ∀ k ∈ keys, '/' ∉ k.data)
    (hroot : keys ≠ [""]) : pathOf keys ≠ "/" := by
  intro h
  have h2 := pathKeys_pathOf keys hs
  rw [h] at h2
  exact hroot (h2.symm.trans (by decide))

/-! ## Put below the root of a keyed-container destination -/

theorem unmarshalValue_nilIface (p : JSON) :
    unmarshalValue p .nilIface = (decodeIface p, decodeIfaceErr p) := by
  cases p with
  | num n =>
    cases h : parseFloat64 n <;>
      simp [unmarshalValue, indirect, decodeIface, decodeIfaceErr, h]
  | _ => simp [unmarshalValue, indirect, decodeIface, decodeIfaceErr, unmarshalNull]

theorem applyField_put_map (fl : Flags) (es : List (String × Val)) (k : String) (p : JSON)
    (hp : p ≠ .null) (hfit : decodeIfaceErr p = none) (hro : fl.ro = false) :
    applyField fl (.map .iface es) k (some p) =
      (.map .iface (mapInsert k (decodeIface p) es), .ok) := by
  cases p with
  | null => exact absurd rfl hp
  | _ => simp [applyField, jsonUnmarshal, zero, unmarshalValue_nilIface, hro, hfit]

theorem lookupPath_iface_map (e : GoType) (es : List (String × Val)) (q : String)
    (qs : List String) :
    lookupPath (.iface (.map e es)) (q :: qs) = lookupPath (.map e es) (q :: qs) := rfl

theorem decodePut_putEvent (path : String) (p : JSON) :
    decodePut (putEvent path p).Data = (⟨path, some p⟩, none) := by
  have h1 : memberIs "Path" "path" = true := by decide
  have h2 : memberIs "Path" "data" = false := by decide
  have h3 : memberIs "Data" "data" = true := by decide
  simp [putEvent, decodePut, decodePutMembers, h1, h2, h3, decodePath, firstErr]

theorem prefixesOpen_empty (ks : List String) : prefixesOpen (.map .iface []) ks := by
  intro i hi hle
  left
  cases ks with
  | nil => simp at hle; omega
  | cons q qs =>
    cases i with
    | zero => omega
    | succ j => simp [lookupPath, entriesOf, mapLookup]

theorem lookupPath_iface_map_of_ne (e : GoType) (es : List (String × Val))
    (qs : List String) (h : qs ≠ []) :
    lookupPath (.iface (.map e es)) qs = lookupPath (.map e es) qs := by
  cases qs with
  | nil => exact absurd rfl h
  | cons a b => rfl

theorem prefixesOpen_step (es es2 : List (String × Val)) (q : String) (qs : List String)
    (h : prefixesOpen (.map .iface es) (q :: qs))
    (hl : mapLookup q es = some (.iface (.map .iface es2))) :
    prefixesOpen (.map .iface es2) qs := by
  intro i hi hle
  cases i with
  | zero => omega
  | succ j =>
    cases qs with
    | nil => simp at hle
    | cons a b =>
      have := h (j + 2) (by omega) (by simp at hle ⊢; omega)
      simp only [List.take_succ_cons, lookupPath, entriesOf, hl] at this ⊢
      exact this

theorem put_loop_map (k : String) (p : JSON) (hp : p ≠ .null)
    (hfit : decodeIfaceErr p = none) (ks : List String) :
    ∀ (fl : Flags) (es : List (String × Val)), fl.ro = false →
      prefixesOpen (.map .iface es) ks →
      ∃ es2, applyPatchLoop ks fl (.map .iface es) [(k, some p)] = (.map .iface es2, .ok) ∧
        lookupPath (.map .iface es2) (ks ++ [k]) = some (decodeIface p) := by
  induction ks with
  | nil =>
    intro fl es hro _
    refine ⟨mapInsert k (decodeIface p) es, ?_, ?_⟩
    · simp only [applyPatchLoop, normalize_map, plug, applyFields_single,
        applyField_put_map fl es k p hp hfit hro]
    · simp [lookupPath, entriesOf, mapLookup_mapInsert_self]
  | cons q qs ih =>
    intro fl es hro hopen
    cases hl : mapLookup q es with
    | none =>
      obtain ⟨es2, hrun, hlook⟩ := ih ⟨false, false⟩ [] rfl (prefixesOpen_empty qs)
      refine ⟨mapInsert q (.iface (.map .iface es2)) es, ?_, ?_⟩
      · simp only [applyPatchLoop, normalize_map, plug, hl, hro, hrun, storeFreshMap]
        simp
      · simp only [List.cons_append, lookupPath, entriesOf, mapLookup_mapInsert_self]
        rw [lookupPath_iface_map_of_ne _ _ _ (by simp)]
        exact hlook
    | some x =>
      have h1 := hopen 1 (by omega) (by simp)
      simp only [List.take_succ_cons, List.take_zero, lookupPath, entriesOf, hl] at h1
      rcases h1 with h1 | ⟨es1, h1⟩
      · simp at h1
      · simp only [Option.some.injEq] at h1
        subst h1
        obtain ⟨es2, hrun, hlook⟩ := ih ⟨false, false⟩ es1 rfl
          (prefixesOpen_step es es1 q qs hopen hl)
        refine ⟨mapInsert q (.iface (.map .iface es2)) es, ?_, ?_⟩
        · simp only [applyPatchLoop, normalize_map, plug, hl, hro,
            applyPatchLoop_iface_map, hrun]
        · simp only [List.cons_append, lookupPath, entriesOf, mapLookup_mapInsert_self]
          rw [lookupPath_iface_map_of_ne _ _ _ (by simp)]
          exact hlook

theorem applyPatchLoop_nilMap_root (ks : List String) (e : GoType)
    (fields : List (String × Raw)) :
    applyPatchLoop ks ⟨true, false⟩ (.nilMap e) fields =
      applyPatchLoop ks ⟨true, false⟩ (.map e []) fields := by
  have h : normalize ⟨true, false⟩ (.nilMap e) = some ⟨[], .map e [], ⟨true, false⟩⟩ := by
    simp [normalize, enterIface, derefPtrs, initMap, Flags.assignable]
  cases ks <;> simp only [applyPatchLoop, h, normalize_map]

theorem processChange_putEvent (d : Val) (path : String) (p : JSON) (ks : List String)
    (k : String) (hroot : path ≠ "/") (hkeys : pathKeys path = ks ++ [k]) :
    processChange d (putEvent path p) = applyPatch d ks [(k, some p)] := by
  have ht : (putEvent path p).Typ = "put" := rfl
  have hl : (ks ++ [k]).getLast? = some k := by simp
  simp only [processChange, ht, if_true, decodePut_putEvent, hroot, if_false, hkeys,
    hl, List.dropLast_concat]

set_option maxRecDepth 100000 in
/-- C1, counterexample, four put events with a payload other than null on a destination
of type `map[string]interface{}`.  (1) The key sequence that consists of the empty key
has the path string `/`, which the put branch decodes into the destination itself: the
number 1 cannot be decoded into a map, an error is returned and the empty key is absent.
(2) The key `a/b` holds a slash: its path string is split into the keys `a` and `b`, the
call returns nil and the key `a/b` is absent.  (3) The payload is the number literal
`10^400`, which is out of the range of `float64`: an error is returned and the key `a` is
absent.  (4) The prefix `m` resolves to a keyed container of type `map[string]int`, into
which the string payload cannot be decoded: an error is returned. -/
theorem processChange_put_not_always_get :
    (pathOf [""] = "/" ∧
      processChange (.map .iface []) (putEvent (pathOf [""]) (.num 1)) =
        (.map .iface [], .err (.unmarshalType "number" "map[string]interface {}")) ∧
      lookupPath (.map .iface []) [""] = none) ∧
    (processChange (.map .iface []) (putEvent (pathOf ["a/b"]) (.num 1)) =
        (.map .iface [("a", .iface (.map .iface [("b", .iface (.float64 1))]))], .ok) ∧
      lookupPath (.map .iface [("a", .iface (.map .iface [("b", .iface (.float64 1))]))])
        ["a/b"] = none) ∧
    (processChange (.map .iface []) (putEvent (pathOf ["a"]) (.num (10 ^ 200 * 10 ^ 200))) =
        (.map .iface [], .err (numberRangeError (10 ^ 200 * 10 ^ 200) "float64")) ∧
      lookupPath (.map .iface []) ["a"] = none) ∧
    (lookupPath destIntMapC1 ["m"] = some (.iface (.map .int [])) ∧
      processChange destIntMapC1 (putEvent (pathOf ["m", "x"]) (.str "s")) =
        (destIntMapC1, .err (.unmarshalType "string" "int"))) :=
  ⟨⟨by decide, rfl, rfl⟩, ⟨rfl, rfl⟩, ⟨rfl, rfl⟩, ⟨rfl, rfl⟩⟩

/-- C1, amended: for a destination of type `map[string]interface{}`, a non-empty key
sequence `k1..kn` in which no key contains a slash and which is not the single empty key
(so that the path string `/k1/.../kn` denotes it and is not the root path `/`), in which
every proper prefix is absent from the destination or resolves to a non-nil
`map[string]interface{}`, and a payload other than null in which every number literal is
in the range of `float64`, `processChange` on the put event returns nil, and looking up
`k1..kn` in the destination afterwards yields the decoded payload. -/
theorem processChange_put_then_get (d : Val) (keys : List String) (p : JSON)
    (hd : d.typeOf = .map .iface) (hne : keys ≠ [])
    (hslash : ∀ k ∈ keys, '/' ∉ k.data) (hroot : keys ≠ [""])
    (hopen : ∀ i, 0 < i → i < keys.length →
      lookupPath d (keys.take i) = none ∨
        ∃ es, lookupPath d (keys.take i) = some (.iface (.map .iface es)))
    (hp : p ≠ .null) (hfit : decodeIfaceErr p = none) :
    (processChange d (putEvent (pathOf keys) p)).2 = .ok ∧
      lookupPath (processChange d (putEvent (pathOf keys) p)).1 keys =
        some (decodeIface p) := by
  have hk : keys.dropLast ++ [keys.getLast hne] = keys := List.dropLast_append_getLast hne
  have hrun := processChange_putEvent d (pathOf keys) p keys.dropLast (keys.getLast hne)
    (pathOf_ne_root keys hslash hroot) ((pathKeys_pathOf keys hslash).trans hk.symm)
  rw [hrun, applyPatch]
  have htake : ∀ i, i ≤ keys.dropLast.length → keys.dropLast.take i = keys.take i := by
    intro i hi
    rw [List.dropLast_eq_take, List.take_take]
    simp only [List.length_dropLast] at hi
    rw [Nat.min_eq_left hi]
  have hlen : keys.dropLast.length < keys.length := by
    have := List.length_pos_of_ne_nil hne
    simp only [List.length_dropLast]
    omega
  have key : ∀ es, (d = .map .iface es ∨ (d = .nilMap .iface ∧ es = [])) →
      (applyPatchLoop keys.dropLast ⟨true, false⟩ d [(keys.getLast hne, some p)]).2 = .ok ∧
      lookupPath (applyPatchLoop keys.dropLast ⟨true, false⟩ d
        [(keys.getLast hne, some p)]).1 keys = some (decodeIface p) := by
    intro es hes
    have hopen2 : prefixesOpen (.map .iface es) keys.dropLast := by
      intro i hi hle
      rw [htake i hle]
      rcases hes with hes | ⟨hes, he⟩
      · subst hes
        exact hopen i hi (by omega)
      · subst he
        exact prefixesOpen_empty keys i hi (by omega)
    obtain ⟨es2, h1, h2⟩ := put_loop_map (keys.getLast hne) p hp hfit keys.dropLast
      ⟨true, false⟩ es rfl hopen2
    rw [hk] at h2
    rcases hes with hes | ⟨hes, he⟩
    · subst hes
      rw [h1]
      exact ⟨rfl, h2⟩
    · subst hes he
      rw [applyPatchLoop_nilMap_root, h1]
      exact ⟨rfl, h2⟩
  cases d with
  | map e es =>
    simp only [Val.typeOf, GoType.map.injEq] at hd
    subst hd
    exact key es (Or.inl rfl)
  | nilMap e =>
    simp only [Val.typeOf, GoType.map.injEq] at hd
    subst hd
    exact key [] (Or.inr ⟨rfl, rfl⟩)
  | ptr x => simp [Val.typeOf] at hd
  | _ => simp [Val.typeOf] at hd

theorem processChange_put_then_get_witness :
    ((processChange destC1 (putEvent (pathOf ["outer", "fresh", "a"]) (.num 1))).2 = .ok ∧
      lookupPath (processChange destC1
        (putEvent (pathOf ["outer", "fresh", "a"]) (.num 1))).1 ["outer", "fresh", "a"] =
        some (decodeIface (.num 1))) ∧
    decodeIface (.obj [("n", .num (2 ^ 53 + 1))]) =
      .iface (.map .iface [("n", .iface (.float64 (2 ^ 53)))]) :=
  ⟨processChange_put_then_get destC1 ["outer", "fresh", "a"] (.num 1) rfl (by simp)
    (by decide) (by decide)
    (by
      intro i h0 h3
      have hi : i = 1 ∨ i = 2 := by simp at h3; omega
      rcases hi with rfl | rfl
      · exact Or.inr ⟨_, rfl⟩
      · exact Or.inl rfl)
    (by simp) rfl, rfl⟩

/-! ## The frame of applyPatch -/

theorem lookupPath_cons (v : Val) (k : String) (q : List String) :
    lookupPath v (k :: q) =
      match lookupKey v k with
      | none => none
      | some x => lookupPath x q := by
  simp only [lookupPath, lookupKey]
  cases entriesOf v <;> rfl

theorem lookupKey_plug (ls : List Layer) (t : Val) (k : String)
    (hi : ls = [] → notIface t = true) :
    lookupKey (plug ls t) k = if visible ls then targetLookup t k else none := by
  cases ls with
  | nil =>
    have := hi rfl
    cases t <;> simp_all [plug, lookupKey, entriesOf, visible, targetLookup, notIface]
  | cons l ls =>
    cases l with
    | ptr => simp [plug, lookupKey, entriesOf, visible]
    | iface =>
      cases ls with
      | nil => cases t <;> simp [plug, lookupKey, entriesOf, visible, targetLookup]
      | cons l2 ls2 => cases l2 <;> simp [plug, lookupKey, entriesOf, visible]

theorem lookupKey_of_normalize (fl : Flags) (v : Val) (f : Focus)
    (h : normalize fl v = some f) (k : String) :
    lookupKey v k = if visible f.layers then targetLookup f.target k else none := by
  obtain ⟨f1, f2, h1, h2, h3, h4, h5⟩ := normalize_cases fl v f h
  have hl2 := derefPtrs_layers _ _ _ h2
  cases v with
  | nilIface =>
    simp only [enterIface] at h1
    split at h1
    · simp only [Option.some.injEq] at h1
      subst h1
      simp only [derefPtrs, Option.some.injEq] at h2
      subst h2
      simp only [initMap, Option.some.injEq] at h3
      rw [h4, ← h3]
      simp [lookupKey, entriesOf, visible, targetLookup, mapLookup]
    · simp at h1
  | iface x =>
    simp only [enterIface, Option.some.injEq] at h1
    subst h1
    rcases hl2 with ⟨hl, ht, hf⟩ | ⟨ls, hls⟩
    · simp only at ht hf
      rw [h4, hl]
      rw [ht, hf] at h3
      cases x with
      | nilMap e => simp [initMap, Flags.assignable] at h3
      | _ =>
        simp only [initMap, Option.some.injEq] at h3
        rw [← h3]
        simp [lookupKey, entriesOf, visible, targetLookup]
    · rw [h4, hls]
      cases x with
      | ptr p => simp [lookupKey, entriesOf, visible]
      | nilPtr e => simp [lookupKey, entriesOf, visible]
      | _ =>
        simp only [derefPtrs, Option.some.injEq] at h2
        subst h2
        simp at hls
  | ptr p =>
    simp only [enterIface, Option.some.injEq] at h1
    subst h1
    rcases hl2 with ⟨hl, _, _⟩ | ⟨ls, hls⟩
    · simp only [derefPtrs] at h2
      split at h2
      · simp only [Option.some.injEq] at h2
        subst h2
        simp at hl
      · simp at h2
    · rw [h4, hls]
      simp [lookupKey, entriesOf, visible]
  | nilPtr e =>
    simp only [enterIface, Option.some.injEq] at h1
    subst h1
    rcases hl2 with ⟨hl, _, _⟩ | ⟨ls, hls⟩
    · simp only [derefPtrs] at h2
      split at h2
      · simp only [Option.some.injEq] at h2
        subst h2
        simp at hl
      · simp at h2
    · rw [h4, hls]
      simp [lookupKey, entriesOf, visible]
  | nilMap e =>
    simp only [enterIface, Option.some.injEq] at h1
    subst h1
    simp only [derefPtrs, Option.some.injEq] at h2
    subst h2
    simp only [initMap] at h3
    split at h3
    · simp only [Option.some.injEq] at h3
      rw [h4, ← h3]
      simp [lookupKey, entriesOf, visible, targetLookup, mapLookup]
    · simp at h3
  | _ =>
    simp only [enterIface, Option.some.injEq] at h1
    subst h1
    simp only [derefPtrs, Option.some.injEq] at h2
    subst h2
    simp only [initMap, Option.some.injEq] at h3
    rw [h4, ← h3]
    simp [lookupKey, entriesOf, visible, targetLookup]

theorem lookupKey_plug_of_normalize (fl : Flags) (v : Val) (f : Focus)
    (h : normalize fl v = some f) (t : Val) (hi : f.layers = [] → notIface t = true)
    (k : String) (hk : targetLookup t k = targetLookup f.target k) :
    lookupKey (plug f.layers t) k = lookupKey v k := by
  rw [lookupKey_plug f.layers t k hi, lookupKey_of_normalize fl v f h k, hk]

theorem lookupPath_plug_of_normalize (fl : Flags) (v : Val) (f : Focus)
    (h : normalize fl v = some f) (t : Val) (hi : f.layers = [] → notIface t = true)
    (k : String) (q : List String) (hk : targetLookup t k = targetLookup f.target k) :
    lookupPath (plug f.layers t) (k :: q) = lookupPath v (k :: q) := by
  rw [lookupPath_cons, lookupPath_cons, lookupKey_plug_of_normalize fl v f h t hi k hk]

theorem lookupPath_plug_self (fl : Flags) (v : Val) (f : Focus)
    (h : normalize fl v = some f) (k : String) (q : List String) :
    lookupPath (plug f.layers f.target) (k :: q) = lookupPath v (k :: q) :=
  lookupPath_plug_of_normalize fl v f h f.target (normalize_target_notIface fl v f h) k q rfl

theorem applyField_targetLookup (fl : Flags) (t : Val) (f : String) (d : Raw) (k : String)
    (hk : k ≠ f) : targetLookup (applyField fl t f d).1 k = targetLookup t k := by
  unfold applyField
  split <;> split <;> (repeat' split) <;>
    simp [targetLookup, mapLookup_mapDelete_ne _ _ _ hk, mapLookup_mapInsert_ne _ _ _ _ hk]

theorem applyFields_targetLookup (fl : Flags) (fields : List (String × Raw)) (k : String)
    (hk : k ∉ fields.map Prod.fst) (t : Val) :
    targetLookup (applyFields fl t fields).1 k = targetLookup t k := by
  induction fields generalizing t with
  | nil => rfl
  | cons fd rest ih =>
    obtain ⟨f, d⟩ := fd
    simp only [List.map_cons, List.mem_cons, not_or] at hk
    have h1 := applyField_targetLookup fl t f d k hk.1
    simp only [applyFields]
    generalize applyField fl t f d = r at h1
    obtain ⟨t2, res⟩ := r
    cases res with
    | ok =>
      simp only at h1 ⊢
      rw [ih hk.2 t2, h1]
    | err e => exact h1
    | panic => exact h1

theorem applyFields_notIface (fl : Flags) (v : Val) (f : Focus)
    (h : normalize fl v = some f) (fields : List (String × Raw)) :
    f.layers = [] → notIface (applyFields f.flags f.target fields).1 = true := by
  intro hl
  rcases applyFields_shape f.flags f.target fields with ⟨_, hc⟩ | he
  · exact isContainer_notIface _ hc
  · rw [he]
    exact normalize_target_notIface fl v f h hl

theorem lookupPath_empty_map (e : GoType) (k : String) (q : List String) :
    lookupPath (.map e []) (k :: q) = none := by
  simp [lookupPath, entriesOf, mapLookup]

theorem offPath_ne_nil (fields : List (String × Raw)) (keys q : List String)
    (h : offPath fields keys q) : q ≠ [] := by
  intro hq
  subst hq
  cases keys <;> simp [offPath] at h

theorem applyPatchLoop_frame (fields : List (String × Raw)) (keys : List String) :
    ∀ (fl : Flags) (v : Val) (q : List String), offPath fields keys q →
      lookupPath (applyPatchLoop keys fl v fields).1 q = lookupPath v q := by
  induction keys with
  | nil =>
    intro fl v q hoff
    cases q with
    | nil => simp [offPath] at hoff
    | cons k q =>
      simp only [offPath] at hoff
      cases hn : normalize fl v with
      | none => simp only [applyPatchLoop, hn]
      | some F =>
        simp only [applyPatchLoop, hn]
        exact lookupPath_plug_of_normalize fl v F hn _ (applyFields_notIface fl v F hn fields)
          k q (applyFields_targetLookup _ fields k hoff _)
  | cons key keys ih =>
    intro fl v q hoff
    cases q with
    | nil => simp [offPath] at hoff
    | cons k q =>
      simp only [offPath] at hoff
      cases hn : normalize fl v with
      | none => simp only [applyPatchLoop, hn]
      | some F =>
        obtain ⟨ls, t, fl2⟩ := F
        have hself := lookupPath_plug_self fl v _ hn k q
        simp only at hself
        cases t with
        | map e es =>
          cases hl : mapLookup key es with
          | none =>
            cases hro : fl2.ro with
            | true =>
              simp only [applyPatchLoop, hn, hl, hro, if_true]
              exact hself
            | false =>
              simp only [applyPatchLoop, hn, hl, hro]
              simp only [Bool.false_eq_true, if_false]
              obtain ⟨es2, hm⟩ := applyPatchLoop_map_shape keys ⟨false, false⟩ .iface []
                fields
              have ih0 := ih ⟨false, false⟩ (.map .iface [])
              generalize applyPatchLoop keys ⟨false, false⟩ (.map .iface []) fields = r0
                at hm ih0 ⊢
              obtain ⟨m, res0⟩ := r0
              simp only at hm ih0 ⊢
              subst hm
              cases hst : storeFreshMap e (.map .iface es2) with
              | none => exact hself
              | some entry =>
                simp only
                by_cases hk : k = key
                · subst hk
                  have hoff2 : offPath fields keys q := by
                    rcases hoff with h | h
                    · exact absurd rfl h
                    · exact h
                  have hq := offPath_ne_nil fields keys q hoff2
                  have hent : lookupPath entry q = none := by
                    have h0 := ih0 q hoff2
                    cases q with
                    | nil => exact absurd rfl hq
                    | cons a b =>
                      rw [lookupPath_empty_map] at h0
                      cases e with
                      | iface =>
                        simp only [storeFreshMap, Option.some.injEq] at hst
                        subst hst
                        rw [lookupPath_iface_map]
                        exact h0
                      | map e2 =>
                        cases e2 with
                        | iface =>
                          simp only [storeFreshMap, Option.some.injEq] at hst
                          subst hst
                          exact h0
                        | _ => simp [storeFreshMap] at hst
                      | _ => simp [storeFreshMap] at hst
                  rw [lookupPath_cons, lookupPath_cons,
                    lookupKey_plug ls (.map e (mapInsert k entry es)) k (fun _ => rfl),
                    lookupKey_of_normalize fl v _ hn k]
                  simp only [targetLookup, mapLookup_mapInsert_self, hl]
                  cases visible ls with
                  | true => simp only [if_true, hent]
                  | false => rfl
                · exact lookupPath_plug_of_normalize fl v _ hn
                    (.map e (mapInsert key entry es)) (fun _ => rfl) k q
                    (by simp only [targetLookup, mapLookup_mapInsert_ne _ _ _ _ hk])
          | some x =>
            simp only [applyPatchLoop, hn, hl]
            by_cases hk : k = key
            · subst hk
              have hoff2 : offPath fields keys q := by
                rcases hoff with h | h
                · exact absurd rfl h
                · exact h
              rw [lookupPath_cons, lookupPath_cons,
                lookupKey_plug ls (.map e (mapInsert k
                  (applyPatchLoop keys ⟨false, fl2.ro⟩ x fields).1 es)) k (fun _ => rfl),
                lookupKey_of_normalize fl v _ hn k]
              simp only [targetLookup, mapLookup_mapInsert_self, hl]
              cases visible ls with
              | true => simp only [if_true, ih _ _ _ hoff2]
              | false => rfl
            · exact lookupPath_plug_of_normalize fl v _ hn
                (.map e (mapInsert key
                  (applyPatchLoop keys ⟨false, fl2.ro⟩ x fields).1 es)) (fun _ => rfl) k q
                (by simp only [targetLookup, mapLookup_mapInsert_ne _ _ _ _ hk])
        | nilMap e =>
          simp only [applyPatchLoop, hn]
          exact hself
        | struct n fs vals =>
          cases hf : fieldByKey key fs with
          | none =>
            simp only [applyPatchLoop, hn, hf]
            exact hself
          | some i =>
            simp only [applyPatchLoop, hn, hf]
            exact lookupPath_plug_of_normalize fl v _ hn
              (.struct n fs (vals.set i
                (applyPatchLoop keys ⟨fl2.addr, fl2.ro || !fieldExported fs i⟩
                  (vals.getD i .nilIface) fields).1)) (fun _ => rfl) k q rfl
        | _ =>
          simp only [applyPatchLoop, hn]
          exact hself

/-! ## Put and patch below a parent other than the root -/

theorem decodePatch_patchEvent (path : String) (fields : List (String × JSON)) :
    decodePatch (patchEvent path fields).Data =
      (⟨path, some (decodeRawMap fields [])⟩, none) := by
  have h1 : memberIs "Path" "path" = true := by decide
  have h2 : memberIs "Path" "data" = false := by decide
  have h3 : memberIs "Data" "data" = true := by decide
  simp [patchEvent, decodePatch, decodePatchMembers, h1, h2, h3, decodePath, firstErr,
    decodePatchData]

/-- A put event at `parent/lastKey` and the patch event at `parent` with the single field
`lastKey` are processed alike when the parent has at least one key. -/
theorem processChange_put_eq_patch_of_parent (d : Val) (ks : List String) (k : String)
    (data : JSON) (hks : ks ≠ []) (hs : ∀ q ∈ ks ++ [k], '/' ∉ q.data) :
    processChange d (putEvent (pathOf (ks ++ [k])) data) =
      processChange d (patchEvent (pathOf ks) [(k, data)]) := by
  have hroot : ks ++ [k] ≠ [""] := by
    intro h
    have := congrArg List.length h
    cases ks with
    | nil => exact hks rfl
    | cons a b => simp at this
  have hs2 : ∀ q ∈ ks, '/' ∉ q.data := fun q hq => hs q (List.mem_append_left _ hq)
  rw [processChange_putEvent d _ data ks k (pathOf_ne_root _ hs hroot)
    (pathKeys_pathOf _ hs)]
  have ht : (patchEvent (pathOf ks) [(k, data)]).Typ = "patch" := rfl
  have hne : ¬ ("patch" = "put") := by decide
  simp only [processChange, ht, hne, if_false, if_true, decodePatch_patchEvent,
    pathKeys_pathOf ks hs2, decodeRawMap, rawInsert, Option.getD]

theorem offPath_sibling (fields : List (String × Raw)) (keys : List String) (k : String)
    (hk : k ∉ fields.map Prod.fst) : offPath fields keys (keys ++ [k]) := by
  induction keys with
  | nil => simpa [offPath] using hk
  | cons key keys ih =>
    simp only [List.cons_append, offPath]
    exact Or.inr ih

theorem offPath_diverge (fields : List (String × Raw)) (keys q : List String)
    (h1 : ¬ q <+: keys) (h2 : ¬ keys <+: q) : offPath fields keys q := by
  induction keys generalizing q with
  | nil => exact absurd List.nil_prefix h2
  | cons key keys ih =>
    cases q with
    | nil => exact absurd List.nil_prefix h1
    | cons k q =>
      simp only [offPath]
      by_cases hk : k = key
      · subst hk
        right
        apply ih
        · intro h
          exact h1 ((List.prefix_cons_inj k).mpr h)
        · intro h
          exact h2 ((List.prefix_cons_inj k).mpr h)
      · exact Or.inl hk

/-! ## Put and patch at the root -/

/-- C4, the code at the failing input: a put at `/` with the payload `{"b": 2}` on the
destination `{"a": 1}` returns nil and leaves `{"a": 1, "b": 2}`; the key `a`, which does
not occur in the payload, is still there. -/
theorem processChange_put_root_keeps_prior_keys :
    processChange destC4 (putEvent "/" (.obj [("b", .num 2)])) =
      (.map .iface [("a", .iface (.float64 1)), ("b", .iface (.float64 2))], .ok) ∧
    lookupPath (processChange destC4 (putEvent "/" (.obj [("b", .num 2)]))).1 ["a"] =
      some (.iface (.float64 1)) ∧
    lookupPath (decodeIface (.obj [("b", .num 2)])) ["a"] = none :=
  ⟨rfl, rfl, rfl⟩

/-- C5, the code at the failing input: on the empty destination the put event
`{"/outer", 1}` leaves `{"outer": 1}`, the patch event `{"/", {"outer": 1}}` leaves
`{"": {"outer": 1}}`. -/
theorem processChange_put_patch_differ_below_root :
    processChange (.map .iface []) (putEvent "/outer" (.num 1)) =
      (.map .iface [("outer", .iface (.float64 1))], .ok) ∧
    processChange (.map .iface []) (patchEvent "/" [("outer", .num 1)]) =
      (.map .iface [("", .iface (.map .iface [("outer", .iface (.float64 1))]))], .ok) ∧
    lookupPath (processChange (.map .iface []) (putEvent "/outer" (.num 1))).1 ["outer"] ≠
      lookupPath (processChange (.map .iface [])
        (patchEvent "/" [("outer", .num 1)])).1 ["outer"] :=
  ⟨rfl, rfl, by
    intro h
    have h1 : lookupPath (processChange (.map .iface []) (putEvent "/outer" (.num 1))).1
        ["outer"] = some (.iface (.float64 1)) := rfl
    have h2 : lookupPath (processChange (.map .iface [])
        (patchEvent "/" [("outer", .num 1)])).1 ["outer"] = none := rfl
    rw [h1, h2] at h
    cases h⟩

/-- C6, the code at the failing input: the patch event `{"/", {"a": 1}}` is navigated
with the key sequence `[""]`; on `{"x": 0}` it leaves `{"x": 0, "": {"a": 1}}`, so `a`
is no top-level key and the top-level key `""` has been created. -/
theorem processChange_patch_root_empty_key :
    pathKeys "/" = [""] ∧
    processChange destC6 (patchEvent "/" [("a", .num 1)]) =
      (.map .iface [("x", .iface (.float64 0)),
        ("", .iface (.map .iface [("a", .iface (.float64 1))]))], .ok) ∧
    lookupPath (processChange destC6 (patchEvent "/" [("a", .num 1)])).1 ["a"] = none :=
  ⟨rfl, rfl, rfl⟩

/-! ## WaitForChange on a buffered event -/

/-- C11: on a watch whose buffer holds an event, `WaitForChange` returns nil and leaves
the watch as it is, buffer and stream included; the same holds for any number of calls in
a row. -/
theorem WaitForChange_buffered_idempotent (w : Watch) (b : Event)
    (hb : w.bufferedChange = some b) :
    WaitForChange w = some (w, none) ∧
    ∀ n, waitRepeated n w = some (w, List.replicate n none) := by
  have h1 : WaitForChange w = some (w, none) := by
    simp only [WaitForChange, hb]
  refine ⟨h1, ?_⟩
  intro n
  induction n with
  | zero => rfl
  | succ n ih => simp only [waitRepeated, h1, ih, List.replicate_succ]

theorem WaitForChange_buffered_idempotent_witness :
    watchC11.bufferedChange = some (putEvent "/a" (.num 1)) ∧
    WaitForChange watchC11 = some (watchC11, none) ∧
    waitRepeated 3 watchC11 = some (watchC11, [none, none, none]) :=
  ⟨rfl, (WaitForChange_buffered_idempotent watchC11 _ rfl).1,
    (WaitForChange_buffered_idempotent watchC11 _ rfl).2 3⟩

/-! ## Field resolution -/

/-- C12, counterexample.  (1) In `struct { Outer int; outer int }` the key `outer` equals
the name of the second field exactly, yet `fieldByKey` returns the first field, whose
name matches only up to letter case.  (2) The key `OUTER` equals the field name `Outer`
up to letter case, yet `fieldByKey` returns no field. -/
theorem fieldByKey_not_exact_first :
    (fieldByKey "outer" fieldsC12 = some 0 ∧
      (fieldsC12.get? 1).map StructField.name = some "outer" ∧
      (fieldsC12.get? 0).map StructField.name = some "Outer") ∧
    (fieldByKey "OUTER" [StructField.mk "Outer" true "Outer" .int] = none ∧
      stringsToLower "Outer" = stringsToLower "OUTER") := by
  refine ⟨⟨?_, rfl, rfl⟩, ?_, ?_⟩ <;> decide

theorem fieldByKey_some (name : String) (fs : List StructField) (i : Nat)
    (h : fieldByKey name fs = some i) :
    ∃ f, fs.get? i = some f ∧ fieldMatches name f ∧
      ∀ j g, j < i → fs.get? j = some g → ¬ fieldMatches name g := by
  induction fs generalizing i with
  | nil => simp [fieldByKey] at h
  | cons f fs ih =>
    by_cases hm : f.name = name ∨ stringsToLower f.name = name
    · simp only [fieldByKey, hm, if_true, Option.some.injEq] at h
      subst h
      exact ⟨f, rfl, hm, fun j g hj => absurd hj (Nat.not_lt_zero j)⟩
    · simp only [fieldByKey, hm, if_false, Option.map_eq_some'] at h
      obtain ⟨i2, hi2, rfl⟩ := h
      obtain ⟨g, hg, hgm, hmin⟩ := ih i2 hi2
      refine ⟨g, by simpa using hg, hgm, ?_⟩
      intro j g2 hj hg2
      cases j with
      | zero =>
        simp only [List.get?_cons_zero, Option.some.injEq] at hg2
        subst hg2
        exact hm
      | succ j2 =>
        exact hmin j2 g2 (by omega) (by simpa using hg2)

theorem fieldByKey_none (name : String) (fs : List StructField) :
    fieldByKey name fs = none ↔ ∀ f ∈ fs, ¬ fieldMatches name f := by
  induction fs with
  | nil => simp [fieldByKey]
  | cons f fs ih =>
    by_cases hm : f.name = name ∨ stringsToLower f.name = name
    · simp only [fieldByKey, hm, if_true]
      constructor
      · intro h
        cases h
      · intro h
        exact absurd hm (h f (List.mem_cons_self _ _))
    · simp only [fieldByKey, hm, if_false, Option.map_eq_none', ih, List.mem_cons,
        forall_eq_or_imp]
      constructor
      · intro h
        exact ⟨hm, h⟩
      · intro h
        exact h.2

/-- C12, amended: `fieldByKey` returns the first field in declaration order whose name
equals `name` or whose lower-cased name equals `name`; no earlier field passes that test;
and it returns no field exactly when no field passes it. -/
theorem fieldByKey_first_match (name : String) (fs : List StructField) :
    (∀ i, fieldByKey name fs = some i →
      ∃ f, fs.get? i = some f ∧ fieldMatches name f ∧
        ∀ j g, j < i → fs.get? j = some g → ¬ fieldMatches name g) ∧
    (fieldByKey name fs = none ↔ ∀ f ∈ fs, ¬ fieldMatches name f) :=
  ⟨fun i h => fieldByKey_some name fs i h, fieldByKey_none name fs⟩

theorem fieldByKey_first_match_witness :
    fieldByKey "outer" fieldsC12 = some 0 ∧
    ∃ f, fieldsC12.get? 0 = some f ∧ fieldMatches "outer" f ∧
      ∀ j g, j < 0 → fieldsC12.get? j = some g → ¬ fieldMatches "outer" g :=
  ⟨by decide, (fieldByKey_first_match "outer" fieldsC12).1 0 (by decide)⟩

/-! ## Unknown record fields -/

theorem applyField_struct_shape (fl : Flags) (n : String) (fs : List StructField)
    (vals : List Val) (f : String) (d : Raw) :
    ∃ vals2, (applyField fl (.struct n fs vals) f d).1 = .struct n fs vals2 := by
  unfold applyField
  split <;> (repeat' split) <;> simp_all

theorem applyField_unknown (fl : Flags) (n : String) (fs : List StructField)
    (vals : List Val) (f : String) (d : Raw) (hf : fieldByKey f fs = none)
    (hd : d ≠ some .null) :
    applyField fl (.struct n fs vals) f d = (.struct n fs vals, .ok) := by
  unfold applyField
  split
  · exact absurd rfl hd
  · simp only [hf]

theorem applyFields_skip_unknown (fl : Flags) (n : String) (fs : List StructField)
    (f : String) (d : Raw) (hf : fieldByKey f fs = none) (hd : d ≠ some .null)
    (pre post : List (String × Raw)) :
    ∀ vals, applyFields fl (.struct n fs vals) (pre ++ (f, d) :: post) =
      applyFields fl (.struct n fs vals) (pre ++ post) := by
  induction pre with
  | nil =>
    intro vals
    simp only [List.nil_append, applyFields, applyField_unknown fl n fs vals f d hf hd]
  | cons p pre ih =>
    intro vals
    obtain ⟨f2, d2⟩ := p
    obtain ⟨vals2, h2⟩ := applyField_struct_shape fl n fs vals f2 d2
    simp only [List.cons_append, applyFields]
    generalize applyField fl (.struct n fs vals) f2 d2 = r at h2
    obtain ⟨t2, res⟩ := r
    simp only at h2
    subst h2
    cases res with
    | ok => exact ih vals2
    | err e => rfl
    | panic => rfl

/-- C17: on a record target, a field name that `fieldByKey` resolves to no field and
that carries a payload other than null is skipped: the round of the field loop returns
no error and leaves the record as it is, and the whole field loop gives the same record
and the same result as it gives without that field, wherever the field stands in the
mapping. -/
theorem applyFields_unknown_field_tolerated (fl : Flags) (n : String)
    (fs : List StructField) (vals : List Val) (f : String) (d : Raw)
    (hf : fieldByKey f fs = none) (hd : d ≠ some .null) :
    applyField fl (.struct n fs vals) f d = (.struct n fs vals, .ok) ∧
    ∀ pre post, applyFields fl (.struct n fs vals) (pre ++ (f, d) :: post) =
      applyFields fl (.struct n fs vals) (pre ++ post) :=
  ⟨applyField_unknown fl n fs vals f d hf hd,
    fun pre post => applyFields_skip_unknown fl n fs f d hf hd pre post vals⟩

theorem applyFields_unknown_field_tolerated_witness :
    fieldByKey "zzz" fieldsAB = none ∧
    applyFields ⟨true, false⟩ (.struct "Inner" fieldsAB [.int 0, .int 0])
        [("a", some (.num 1)), ("zzz", some (.num 5)), ("b", some (.num 2))] =
      (.struct "Inner" fieldsAB [.int 1, .int 2], .ok) :=
  ⟨by decide,
    ((applyFields_unknown_field_tolerated ⟨true, false⟩ "Inner" fieldsAB [.int 0, .int 0]
      "zzz" (some (.num 5)) (by decide) (by simp)).2 [("a", some (.num 1))]
      [("b", some (.num 2))]).trans rfl⟩

/-! ## Panics on the empty key sequence and on unresolved names -/

/-- C19, the code at the failing input: a put event whose data decodes, with the `path`
member missing or with a path that holds no slash, has the empty key sequence; the slice
expression `keys[:len(keys)-1]` is evaluated on it and panics, whatever the destination
is. -/
theorem processChange_put_empty_keys_panics (d : Val) :
    decodePut (some (.obj [("data", .num 1)])) = (⟨"", some (.num 1)⟩, none) ∧
    pathKeys "" = [] ∧
    processChange d ⟨"put", some (.obj [("data", .num 1)])⟩ = (d, .panic) ∧
    pathKeys "outer" = [] ∧
    processChange d (putEvent "outer" (.num 1)) = (d, .panic) := by
  refine ⟨rfl, by decide, ?_, by decide, ?_⟩
  · have h : decodePut (some (.obj [("data", .num 1)])) = (⟨"", some (.num 1)⟩, none) :=
      rfl
    have h2 : ¬ ("" = "/") := by decide
    have h3 : pathKeys "" = [] := by decide
    simp only [processChange, if_true, h, h2, if_false, h3, List.getLast?_nil]
  · have h2 : ¬ ("outer" = "/") := by decide
    have h3 : pathKeys "outer" = [] := by decide
    have ht : (putEvent "outer" (.num 1)).Typ = "put" := rfl
    simp only [processChange, ht, if_true, decodePut_putEvent, h2, if_false, h3,
      List.getLast?_nil]

/-- C20, the code at the failing input: on the record `{A: 1, B: 2}` the name `zzz`
resolves to no field.  As a navigation key it makes the next round of the loop call
`Type` on the zero `reflect.Value`, as a field name with the payload null it makes the
null branch call `Type` on it: both calls panic.  With a payload other than null the
field is skipped and nil is returned. -/
theorem applyPatch_unresolved_name_panics :
    fieldByKey "zzz" fieldsAB = none ∧
    applyPatch destC20 ["zzz"] [("a", some (.num 1))] = (destC20, .panic) ∧
    applyPatch destC20 [] [("zzz", some .null)] = (destC20, .panic) ∧
    applyPatch destC20 [] [("zzz", some (.num 1))] = (destC20, .ok) :=
  ⟨by decide, rfl, rfl, rfl⟩

/-! ## OrderedKeys -/

theorem strLe_iff (a b : String) : strLe a b ↔ a ≤ b :=
  String.le_iff_toList_le.symm

theorem strLt_iff (a b : String) : strLt a b ↔ a < b :=
  String.lt_iff_toList_lt.symm

theorem sortStrings_perm (keys : List String) : (sortStrings keys).Perm keys :=
  List.perm_insertionSort strLe keys

theorem sortStrings_sorted (keys : List String) : (sortStrings keys).Sorted (· ≤ ·) := by
  haveI : IsTotal String strLe :=
    ⟨fun a b => by simpa only [strLe_iff] using le_total a b⟩
  haveI : IsTrans String strLe :=
    ⟨fun a b c hab hbc => by
      rw [strLe_iff] at hab hbc ⊢
      exact le_trans hab hbc⟩
  exact (List.sorted_insertionSort strLe keys).imp (fun h => (strLe_iff _ _).mp h)

/-- C18: for a map with string keys, `OrderedKeys` returns a sequence in ascending
lexicographic order that is a rearrangement of the keys of the map: every key occurs in
it exactly once and nothing else occurs, its length is the number of keys, and the result
is the same for every order in which the run time hands out the keys. -/
theorem OrderedKeys_sorted_perm (data : Val) (keys : List String)
    (order : List String → List String) (hmap : mapKeys data = some keys)
    (hnodup : keys.Nodup) (horder : (order keys).Perm keys) :
    ∃ r, OrderedKeys data order = some r ∧
      r.Sorted strLt ∧ r.Perm keys ∧ r.Nodup ∧ (∀ k, k ∈ r ↔ k ∈ keys) ∧
      r.length = keys.length ∧
      ∀ order2 : List String → List String, (order2 keys).Perm keys →
        OrderedKeys data order2 = some r := by
  have hperm : (sortStrings (order keys)).Perm keys :=
    (sortStrings_perm (order keys)).trans horder
  have hsorted := sortStrings_sorted (order keys)
  have hnd : (sortStrings (order keys)).Nodup := hperm.nodup_iff.mpr hnodup
  refine ⟨sortStrings (order keys), ?_,
    (hsorted.lt_of_le hnd).imp (fun h => (strLt_iff _ _).mpr h), hperm, hnd,
    fun k => hperm.mem_iff, hperm.length_eq, ?_⟩
  · simp only [OrderedKeys, hmap]
  · intro order2 h2
    simp only [OrderedKeys, hmap, Option.some.injEq]
    have hperm2 : (sortStrings (order2 keys)).Perm keys :=
      (sortStrings_perm (order2 keys)).trans h2
    exact List.eq_of_perm_of_sorted (hperm2.trans hperm.symm)
      (sortStrings_sorted (order2 keys)) hsorted

theorem OrderedKeys_sorted_perm_witness :
    mapKeys dataC18 = some ["b", "a", "c"] ∧ ["b", "a", "c"].Nodup ∧
    (List.reverse ["b", "a", "c"]).Perm ["b", "a", "c"] ∧
    ∃ r, OrderedKeys dataC18 List.reverse = some r ∧
      r.Sorted strLt ∧ r.Perm ["b", "a", "c"] ∧ r.Nodup ∧
      (∀ k, k ∈ r ↔ k ∈ ["b", "a", "c"]) ∧ r.length = ["b", "a", "c"].length ∧
      ∀ order2 : List String → List String, (order2 ["b", "a", "c"]).Perm ["b", "a", "c"] →
        OrderedKeys dataC18 order2 = some r :=
  ⟨rfl, by decide, List.reverse_perm _,
    OrderedKeys_sorted_perm dataC18 ["b", "a", "c"] List.reverse rfl (by decide)
      (List.reverse_perm _)⟩

theorem OrderedKeys_example : OrderedKeys dataC18 List.reverse = some ["a", "b", "c"] := by
  decide

/-! ## Navigation errors -/

theorem applyPatchLoop_of_focus (keys : List String) (fl fl2 : Flags) (v v2 : Val)
    (fields : List (String × Raw)) (l1 ls : List Layer) (t : Val) (flt : Flags)
    (h1 : normalize fl v = some ⟨l1 ++ ls, t, flt⟩)
    (h2 : normalize fl2 v2 = some ⟨ls, t, flt⟩) :
    applyPatchLoop keys fl v fields =
      (plug l1 (applyPatchLoop keys fl2 v2 fields).1,
        (applyPatchLoop keys fl2 v2 fields).2) := by
  cases keys with
  | nil => simp only [applyPatchLoop, h1, h2, plug_append]
  | cons key keys =>
    simp only [applyPatchLoop, h1, h2, plug_append]
    split
    · split
      · split
        · rfl
        · split <;> rfl
      · rfl
    · rfl
    · split <;> rfl
    · rfl

theorem storeFreshMap_isSome (e : GoType) (a b : Val) :
    (storeFreshMap e a).isSome = (storeFreshMap e b).isSome := by
  unfold storeFreshMap
  split <;> rfl

theorem applyPatchLoop_result_of_locationAt (fields : List (String × Raw))
    (k1 k2 : List String) :
    ∀ (fl : Flags) (v : Val) (fl1 : Flags) (v1 : Val),
      locationAt k1 fl v = some (fl1, v1) →
      (applyPatchLoop (k1 ++ k2) fl v fields).2 = (applyPatchLoop k2 fl1 v1 fields).2 := by
  induction k1 with
  | nil =>
    intro fl v fl1 v1 h
    simp only [locationAt, Option.some.injEq, Prod.mk.injEq] at h
    obtain ⟨rfl, rfl⟩ := h
    rfl
  | cons key keys ih =>
    intro fl v fl1 v1 h
    simp only [locationAt] at h
    cases hn : normalize fl v with
    | none => simp [hn] at h
    | some F =>
      obtain ⟨ls, t, fl2⟩ := F
      simp only [hn] at h
      cases t with
      | map e es =>
        simp only at h
        cases hl : mapLookup key es with
        | none =>
          simp only [hl] at h
          cases hro : fl2.ro with
          | true => simp [hro] at h
          | false =>
            simp only [hro, Bool.false_eq_true, if_false] at h
            cases hs : storeFreshMap e (.map .iface []) with
            | none => simp [hs] at h
            | some x =>
              simp only [hs] at h
              have hs2 := storeFreshMap_isSome e
                (applyPatchLoop (keys ++ k2) ⟨false, false⟩ (.map .iface []) fields).1
                (.map .iface [])
              rw [hs, Option.isSome_some] at hs2
              obtain ⟨y, hy⟩ := Option.isSome_iff_exists.mp hs2
              simp only [List.cons_append, applyPatchLoop, hn, hl, hro, Bool.false_eq_true,
                if_false, List.append_eq, hy]
              exact ih _ _ _ _ h
        | some x =>
          simp only [hl] at h
          simp only [List.cons_append, applyPatchLoop, hn, hl, List.append_eq]
          exact ih _ _ _ _ h
      | struct n fs vals =>
        simp only at h
        cases hf : fieldByKey key fs with
        | none => simp [hf] at h
        | some i =>
          simp only [hf] at h
          simp only [List.cons_append, applyPatchLoop, hn, hf, List.append_eq]
          exact ih _ _ _ _ h
      | _ => simp at h

theorem applyField_invalid_type (fl : Flags) (t : Val) (f : String) (d : Raw)
    (hc : isContainer t = false) (hs : settled t = true) :
    applyField fl t f d = (t, .err (.fmtErrorf ("invalid type: " ++ t.typeOf.toStr))) := by
  cases t <;> simp_all [isContainer, settled] <;> (unfold applyField; split <;> rfl)

theorem applyPatchLoop_invalid_type (fl : Flags) (v : Val) (F : Focus)
    (hn : normalize fl v = some F) (hc : isContainer F.target = false) :
    (∀ key keys fields, applyPatchLoop (key :: keys) fl v fields =
      (plug F.layers F.target,
        .err (.fmtErrorf ("invalid type: " ++ F.target.typeOf.toStr)))) ∧
    (∀ fields, fields ≠ [] → applyPatchLoop [] fl v fields =
      (plug F.layers F.target,
        .err (.fmtErrorf ("invalid type: " ++ F.target.typeOf.toStr)))) := by
  have hs := normalize_target_settled fl v F hn
  obtain ⟨ls, t, fl2⟩ := F
  simp only at hc hs ⊢
  refine ⟨?_, ?_⟩
  · intro key keys fields
    cases t <;> simp_all [isContainer, settled, applyPatchLoop]
  · intro fields hne
    cases fields with
    | nil => exact absurd rfl hne
    | cons fd rest =>
      obtain ⟨f, d⟩ := fd
      simp only [applyPatchLoop, hn, applyFields,
        applyField_invalid_type fl2 t f d hc hs]

/-- C13: when the navigation of a key sequence reaches a location that, after the
preparation steps at the head of the loop, is neither a non-nil map nor a struct, then
`applyPatch` returns the error `invalid type: <type>` with the type of that location for
every key sequence that goes on below the location, and it returns the same error for
the key sequence that ends there when the field mapping is not empty. -/
theorem applyPatch_navigation_error (d : Val) (k1 : List String) (fl1 : Flags) (v1 : Val)
    (F : Focus) (hloc : locationAt k1 ⟨true, false⟩ d = some (fl1, v1))
    (hn : normalize fl1 v1 = some F) (hc : isContainer F.target = false) :
    (∀ key k2 fields, (applyPatch d (k1 ++ key :: k2) fields).2 =
      .err (.fmtErrorf ("invalid type: " ++ F.target.typeOf.toStr))) ∧
    (∀ fields, fields ≠ [] → (applyPatch d k1 fields).2 =
      .err (.fmtErrorf ("invalid type: " ++ F.target.typeOf.toStr))) := by
  have hl := applyPatchLoop_invalid_type fl1 v1 F hn hc
  refine ⟨?_, ?_⟩
  · intro key k2 fields
    rw [applyPatch, applyPatchLoop_result_of_locationAt fields k1 (key :: k2) _ _ _ _ hloc,
      hl.1 key k2 fields]
  · intro fields hne
    have h := applyPatchLoop_result_of_locationAt fields k1 [] _ _ _ _ hloc
    rw [List.append_nil] at h
    rw [applyPatch, h, hl.2 fields hne]

theorem applyPatch_navigation_error_witness :
    locationAt ["m", "b"] ⟨true, false⟩ destC13 =
      some (⟨false, false⟩, .iface (.bool true)) ∧
    normalize ⟨false, false⟩ (.iface (.bool true)) =
      some ⟨[.iface], .bool true, ⟨false, false⟩⟩ ∧
    (applyPatch destC13 (["m", "b"] ++ "x" :: ["y"]) [("f", some (.num 1))]).2 =
      .err (.fmtErrorf ("invalid type: " ++ (Val.bool true).typeOf.toStr)) ∧
    (applyPatch destC13 ["m", "b"] [("f", some .null)]).2 =
      .err (.fmtErrorf ("invalid type: " ++ (Val.bool true).typeOf.toStr)) :=
  ⟨rfl, rfl,
    (applyPatch_navigation_error destC13 ["m", "b"] _ _ _ rfl rfl rfl).1 "x" ["y"] _,
    (applyPatch_navigation_error destC13 ["m", "b"] _ _
      ⟨[.iface], .bool true, ⟨false, false⟩⟩ rfl rfl rfl).2 [("f", some .null)] (by simp)⟩

theorem navigation_error_examples :
    (applyPatch destC13 ["n", "x"] [("f", some (.num 1))]).2 =
      .err (.fmtErrorf "invalid type: float64") ∧
    (applyPatch destC13 ["s", "x"] [("f", some (.num 1))]).2 =
      .err (.fmtErrorf "invalid type: string") ∧
    (applyPatch destC13 ["l", "x"] [("f", some (.num 1))]).2 =
      .err (.fmtErrorf "invalid type: []interface {}") ∧
    (applyPatch destC13 ["m", "b"] [("f", some (.num 1))]).2 =
      .err (.fmtErrorf "invalid type: bool") :=
  ⟨rfl, rfl, rfl, rfl⟩

/-! ## What a failed call leaves behind -/

/-- C15, counterexample, three calls that return an error.  (1) On the empty
`map[string]interface{}` with the key sequence `a` and a field whose raw message is nil
(a put event without the `data` member), the container inserted under `a` remains.
(2) On a record with the empty slot `Inner`, the instance allocated in the slot remains
when the payload of the field does not decode.  (3) On a record, the field `a` applied
before the failing field `b` remains committed. -/
theorem applyPatch_error_leaves_changes :
    applyPatch (.map .iface []) ["a"] [("b", none)] =
      (.map .iface [("a", .iface (.map .iface []))], .err .jsonInput) ∧
    applyPatch destOuter ["inner"] [("a", some (.str "x"))] =
      (.struct "Outer" fieldsOuter [.ptr (.struct "Inner" fieldsAB [.int 0, .int 0])],
        .err (.unmarshalType "string" "int")) ∧
    applyPatch (.struct "Inner" fieldsAB [.int 0, .int 0]) []
        [("a", some (.num 1)), ("b", some (.str "x"))] =
      (.struct "Inner" fieldsAB [.int 1, .int 0], .err (.unmarshalType "string" "int")) :=
  ⟨rfl, rfl, rfl⟩

theorem mapInsert_of_mapLookup (k : String) (x : Val) (es : List (String × Val))
    (h : mapLookup k es = some x) : mapInsert k x es = es := by
  induction es with
  | nil => simp [mapLookup] at h
  | cons kv rest ih =>
    obtain ⟨k2, v2⟩ := kv
    by_cases hk : k2 = k
    · subst hk
      simp only [mapLookup, if_true, Option.some.injEq] at h
      subst h
      simp [mapInsert]
    · simp only [mapLookup, hk, if_false] at h
      simp [mapInsert, hk, ih h]

theorem normalize_iface_leaf (fl : Flags) (x : Val) (hx : isLeaf x = true) :
    normalize fl (.iface x) = some ⟨[.iface], x, ⟨false, fl.ro⟩⟩ := by
  cases x <;> simp_all [isLeaf, normalize, enterIface, derefPtrs, initMap]

theorem isLeaf_not_container (x : Val) (hx : isLeaf x = true) : isContainer x = false := by
  cases x <;> simp_all [isLeaf, isContainer]

theorem applyPatchLoop_leaf_unchanged (x : Val) (hx : isLeaf x = true) (key : String)
    (k2 : List String) (fields : List (String × Raw)) (k1 : List String) :
    ∀ (fl : Flags) (v : Val), lookupPath v k1 = some (.iface x) →
      applyPatchLoop (k1 ++ key :: k2) fl v fields =
        (v, .err (.fmtErrorf ("invalid type: " ++ x.typeOf.toStr))) := by
  induction k1 with
  | nil =>
    intro fl v h
    simp only [lookupPath, Option.some.injEq] at h
    subst h
    have hn := normalize_iface_leaf fl x hx
    exact (applyPatchLoop_invalid_type fl _ _ hn (isLeaf_not_container x hx)).1 key k2
      fields
  | cons q qs ih =>
    intro fl v h
    rw [lookupPath_cons] at h
    cases hk : lookupKey v q with
    | none => simp [hk] at h
    | some y =>
      simp only [hk] at h
      have hy := ih ⟨false, fl.ro⟩ y h
      simp only [lookupKey] at hk
      cases v with
      | map e es =>
        simp only [entriesOf] at hk
        simp only [List.cons_append, applyPatchLoop, normalize_map, hk, List.append_eq, hy,
          plug, mapInsert_of_mapLookup q y es hk]
      | iface w =>
        cases w with
        | map e es =>
          simp only [entriesOf] at hk
          simp only [List.cons_append, applyPatchLoop, normalize_iface_map, hk,
            List.append_eq, hy, plug, mapInsert_of_mapLookup q y es hk]
        | _ => simp [entriesOf] at hk
      | _ => simp [entriesOf] at hk

/-! ## Materialization at unset locations -/

theorem applyPatchLoop_nil_entry (keys : List String) (fields : List (String × Raw))
    (fl : Flags) (es : List (String × Val)) (k : String)
    (h : mapLookup k es = some .nilIface) :
    applyPatchLoop (k :: keys) fl (.map .iface es) fields = (.map .iface es, .panic) := by
  have h1 : ∀ ro, applyPatchLoop keys ⟨false, ro⟩ .nilIface fields = (.nilIface, .panic) := by
    intro ro
    cases keys <;> simp [applyPatchLoop, normalize, enterIface, Flags.assignable]
  simp only [applyPatchLoop, normalize_map, h, h1, plug, mapInsert_of_mapLookup k _ es h]

/-- C16, the code at the failing input.  A nil interface that is an entry of a keyed
container is reached through `MapIndex`, whose result is not addressable: `Set` (line
187) panics, so `applyPatch` with a key sequence that starts at such an entry panics and
leaves the container as it is, whatever the remaining keys and the fields are.  The put
event `{"/", {"a": null}}` leaves `{"a": nil}`, on which the put event `{"/a/b", 1}`
panics; on a destination whose root is the nil interface the same event materializes the
chain `{"a": {"b": 1}}`. -/
theorem applyPatch_nil_entry_panics :
    (∀ es k keys fields, mapLookup k es = some .nilIface →
      applyPatch (.map .iface es) (k :: keys) fields = (.map .iface es, .panic)) ∧
    processChange (.nilMap .iface) (putEvent "/" (.obj [("a", .null)])) = (destC16, .ok) ∧
    lookupPath destC16 ["a"] = some .nilIface ∧
    processChange destC16 (putEvent "/a/b" (.num 1)) = (destC16, .panic) ∧
    processChange .nilIface (putEvent "/a/b" (.num 1)) =
      (.iface (.map .iface [("a", .iface (.map .iface [("b", .iface (.float64 1))]))]),
        .ok) :=
  ⟨fun es k keys fields h => applyPatchLoop_nil_entry keys fields _ es k h,
    rfl, rfl, rfl, rfl⟩

theorem applyPatch_nil_entry_panics_witness :
    mapLookup "a" [("a", Val.nilIface)] = some .nilIface ∧
    applyPatch (.map .iface [("a", .nilIface)]) ("a" :: ["b"]) [("c", some (.num 1))] =
      (.map .iface [("a", .nilIface)], .panic) :=
  ⟨rfl, applyPatch_nil_entry_panics.1 [("a", .nilIface)] "a" ["b"] [("c", some (.num 1))]
    rfl⟩

theorem applyPatchLoop_empty_map_chain (fields : List (String × Raw))
    (keys : List String) :
    applyPatchLoop keys ⟨false, false⟩ (.map .iface []) fields =
      (chainMaps keys (applyFields ⟨false, false⟩ (.map .iface []) fields).1,
        (applyFields ⟨false, false⟩ (.map .iface []) fields).2) := by
  induction keys with
  | nil => simp only [applyPatchLoop, normalize_map, plug, chainMaps]
  | cons k ks ih =>
    simp only [applyPatchLoop, normalize_map, plug, chainMaps, mapLookup, ih,
      storeFreshMap, mapInsert, Bool.false_eq_true, if_false]

theorem assignable_ro (fl : Flags) (h : fl.assignable = true) : fl.ro = false := by
  simp only [Flags.assignable, Bool.and_eq_true, Bool.not_eq_true'] at h
  exact h.2

theorem applyPatchLoop_nilIface (keys : List String) (fl : Flags)
    (fields : List (String × Raw)) (ha : fl.assignable = true) :
    applyPatchLoop keys fl .nilIface fields =
      (.iface (applyPatchLoop keys ⟨false, false⟩ (.map .iface []) fields).1,
        (applyPatchLoop keys ⟨false, false⟩ (.map .iface []) fields).2) := by
  have h1 : normalize fl .nilIface =
      some ⟨[.iface] ++ [], .map .iface [], ⟨false, false⟩⟩ := by
    simp [normalize, enterIface, derefPtrs, initMap, ha, assignable_ro fl ha]
  exact applyPatchLoop_of_focus keys fl ⟨false, false⟩ _ _ fields [.iface] [] _ _ h1
    (normalize_map _ _ _)

theorem derefPtrs_zero (e : GoType) (he : e ≠ .iface) :
    enterIface ⟨true, false⟩ (zero e) = some ⟨[], zero e, ⟨true, false⟩⟩ ∧
    derefPtrs ⟨true, false⟩ (zero e) =
      some ⟨(allocPtrs e).1, (allocPtrs e).2, ⟨true, false⟩⟩ := by
  cases e with
  | iface => exact absurd rfl he
  | ptr e2 => simp [zero, enterIface, derefPtrs, allocPtrs, Flags.assignable]
  | _ => simp [zero, enterIface, derefPtrs, allocPtrs]

theorem initMap_assignable (t : Val) : ∃ t2, initMap ⟨true, false⟩ t = some t2 := by
  cases t <;> simp [initMap, Flags.assignable]

theorem applyPatchLoop_nilPtr (keys : List String) (fl : Flags) (e : GoType)
    (fields : List (String × Raw)) (ha : fl.assignable = true) (he : e ≠ .iface) :
    applyPatchLoop keys fl (.nilPtr e) fields =
      (.ptr (applyPatchLoop keys ⟨true, false⟩ (zero e) fields).1,
        (applyPatchLoop keys ⟨true, false⟩ (zero e) fields).2) := by
  obtain ⟨hz1, hz2⟩ := derefPtrs_zero e he
  obtain ⟨t2, ht2⟩ := initMap_assignable (allocPtrs e).2
  have h1 : normalize fl (.nilPtr e) =
      some ⟨[.ptr] ++ (allocPtrs e).1, t2, ⟨true, false⟩⟩ := by
    simp [normalize, enterIface, derefPtrs, ha, ht2]
  have h2 : normalize ⟨true, false⟩ (zero e) = some ⟨(allocPtrs e).1, t2, ⟨true, false⟩⟩ := by
    simp [normalize, hz1, hz2, ht2]
  exact applyPatchLoop_of_focus keys fl ⟨true, false⟩ _ _ fields [.ptr] _ _ _ h1 h2

theorem applyPatchLoop_nilMap (keys : List String) (fl : Flags) (e : GoType)
    (fields : List (String × Raw)) (ha : fl.assignable = true) :
    applyPatchLoop keys fl (.nilMap e) fields =
      applyPatchLoop keys fl (.map e []) fields := by
  have h1 : normalize fl (.nilMap e) = some ⟨[] ++ [], .map e [], fl⟩ := by
    simp [normalize, enterIface, derefPtrs, initMap, ha]
  exact applyPatchLoop_of_focus keys fl fl _ _ fields [] [] _ _ h1 (normalize_map _ _ _)

/-- Materialization where `Set` is allowed.  At a location that is assignable
(addressable and not reached through an unexported field) a nil interface is set to an
empty `map[string]interface{}`, a nil pointer to a new zero instance and a nil map to an
empty map, and the call goes on exactly as it does on that new value, which takes the
place of the unset one.  For a destination whose root is a nil interface, `applyPatch`
leaves exactly the chain of maps along `k1..kn`, each holding the next key only and the
innermost holding what the field loop makes of the empty map, and returns what the field
loop returns. -/
theorem applyPatch_materializes (keys : List String) (fields : List (String × Raw)) :
    (applyPatch .nilIface keys fields =
      (.iface (chainMaps keys (applyFields ⟨false, false⟩ (.map .iface []) fields).1),
        (applyFields ⟨false, false⟩ (.map .iface []) fields).2)) ∧
    (∀ fl, fl.assignable = true →
      applyPatchLoop keys fl .nilIface fields =
        (.iface (applyPatchLoop keys ⟨false, false⟩ (.map .iface []) fields).1,
          (applyPatchLoop keys ⟨false, false⟩ (.map .iface []) fields).2)) ∧
    (∀ fl e, fl.assignable = true → e ≠ .iface →
      applyPatchLoop keys fl (.nilPtr e) fields =
        (.ptr (applyPatchLoop keys ⟨true, false⟩ (zero e) fields).1,
          (applyPatchLoop keys ⟨true, false⟩ (zero e) fields).2)) ∧
    (∀ fl e, fl.assignable = true →
      applyPatchLoop keys fl (.nilMap e) fields =
        applyPatchLoop keys fl (.map e []) fields) := by
  refine ⟨?_, fun fl ha => applyPatchLoop_nilIface keys fl fields ha,
    fun fl e ha he => applyPatchLoop_nilPtr keys fl e fields ha he,
    fun fl e ha => applyPatchLoop_nilMap keys fl e fields ha⟩
  rw [applyPatch, applyPatchLoop_nilIface keys ⟨true, false⟩ fields rfl,
    applyPatchLoop_empty_map_chain]

theorem applyPatch_materializes_witness :
    applyPatch .nilIface ["outer", "inner"] [("a", some (.num 1))] =
      (.iface (.map .iface [("outer", .iface (.map .iface [("inner", .iface (.map .iface
        [("a", .iface (.float64 1))]))]))]), .ok) ∧
    applyPatchLoop ["a"] ⟨true, false⟩ (.nilPtr innerType) [("f", some .null)] =
      (.ptr (applyPatchLoop ["a"] ⟨true, false⟩ (zero innerType) [("f", some .null)]).1,
        (applyPatchLoop ["a"] ⟨true, false⟩ (zero innerType) [("f", some .null)]).2) :=
  ⟨(applyPatch_materializes ["outer", "inner"] [("a", some (.num 1))]).1.trans rfl,
    (applyPatch_materializes ["a"] [("f", some .null)]).2.2.1 ⟨true, false⟩ innerType rfl
      (by simp [innerType])⟩

/-! ## Well-formed values -/

theorem zeroFields_length (fs : List StructField) : (zeroFields fs).length = fs.length := by
  induction fs with
  | nil => rfl
  | cons f fs ih =>
    cases f
    simp [zeroFields, ih]

mutual
theorem zero_wellFormed : ∀ t : GoType, (zero t).wellFormed = true
  | .bool => rfl
  | .int => rfl
  | .float64 => rfl
  | .string => rfl
  | .iface => rfl
  | .slice _ => rfl
  | .map _ => rfl
  | .ptr _ => rfl
  | .struct n fs => by
    simp [zero, Val.wellFormed, zeroFields_length fs, zeroFields_wellFormed fs]
theorem zeroFields_wellFormed : ∀ fs : List StructField,
    wellFormedList (zeroFields fs) = true
  | [] => rfl
  | .mk _ _ _ t :: fs => by
    simp [zeroFields, wellFormedList, zero_wellFormed t, zeroFields_wellFormed fs]
end

theorem allocPtrs_wellFormed (e : GoType) : (allocPtrs e).2.wellFormed = true := by
  induction e using allocPtrs.induct with
  | case1 e ih => simpa [allocPtrs] using ih
  | case2 t h =>
    rw [allocPtrs]
    · exact zero_wellFormed t
    · exact h

theorem derefPtrs_wellFormed (fl : Flags) (v : Val) (f : Focus)
    (h : derefPtrs fl v = some f) (hw : v.wellFormed = true) :
    f.target.wellFormed = true := by
  induction fl, v using derefPtrs.induct generalizing f with
  | case1 fl p g hp ih =>
    simp only [derefPtrs, hp, Option.some.injEq] at h
    subst h
    exact ih g hp (by simpa [Val.wellFormed] using hw)
  | case2 fl p hp =>
    simp [derefPtrs, hp] at h
  | case3 fl e ha =>
    simp only [derefPtrs, ha, if_true, Option.some.injEq] at h
    subst h
    exact allocPtrs_wellFormed e
  | case4 fl e ha =>
    simp [derefPtrs, ha] at h
  | case5 fl v h1 h2 =>
    rw [derefPtrs] at h
    · simp only [Option.some.injEq] at h
      subst h
      exact hw
    · exact h1
    · exact h2

theorem normalize_wellFormed (fl : Flags) (v : Val) (f : Focus)
    (h : normalize fl v = some f) (hw : v.wellFormed = true) :
    f.target.wellFormed = true := by
  obtain ⟨f1, f2, h1, h2, h3, _, _⟩ := normalize_cases fl v f h
  have hw1 : f1.target.wellFormed = true := by
    cases v with
    | nilIface =>
      simp only [enterIface] at h1
      split at h1
      · simp only [Option.some.injEq] at h1
        subst h1
        rfl
      · simp at h1
    | iface x =>
      simp only [enterIface, Option.some.injEq] at h1
      subst h1
      simpa [Val.wellFormed] using hw
    | _ =>
      simp only [enterIface, Option.some.injEq] at h1
      subst h1
      exact hw
  have hw2 := derefPtrs_wellFormed _ _ _ h2 hw1
  generalize f2.target = t2 at h3 hw2
  cases t2 with
  | nilMap e =>
    simp only [initMap] at h3
    split at h3
    · simp only [Option.some.injEq] at h3
      rw [← h3]
      rfl
    · simp at h3
  | _ =>
    simp only [initMap, Option.some.injEq] at h3
    rw [← h3]
    exact hw2

theorem wellFormedEntries_lookup (es : List (String × Val)) (k : String) (x : Val)
    (hw : wellFormedEntries es = true) (h : mapLookup k es = some x) :
    x.wellFormed = true := by
  induction es with
  | nil => simp [mapLookup] at h
  | cons kv rest ih =>
    obtain ⟨k2, v2⟩ := kv
    simp only [wellFormedEntries, Bool.and_eq_true] at hw
    by_cases hk : k2 = k
    · simp only [mapLookup, hk, if_true, Option.some.injEq] at h
      subst h
      exact hw.1
    · simp only [mapLookup, hk, if_false] at h
      exact ih hw.2 h

theorem wellFormedList_getD (vals : List Val) (i : Nat)
    (hw : wellFormedList vals = true) : (vals.getD i .nilIface).wellFormed = true := by
  induction vals generalizing i with
  | nil => rfl
  | cons x xs ih =>
    simp only [wellFormedList, Bool.and_eq_true] at hw
    cases i with
    | zero => simpa using hw.1
    | succ j => simpa using ih j hw.2

/-! ## The prefixes of the navigated path -/

theorem allocPtrs_layers (e : GoType) : ∀ l ∈ (allocPtrs e).1, l = Layer.ptr := by
  induction e using allocPtrs.induct with
  | case1 e ih =>
    intro l hl
    simp only [allocPtrs, List.mem_cons] at hl
    rcases hl with hl | hl
    · exact hl
    · exact ih l hl
  | case2 t h =>
    rw [allocPtrs]
    · simp
    · exact h

theorem derefPtrs_layers_ptr (fl : Flags) (v : Val) (f : Focus)
    (h : derefPtrs fl v = some f) : ∀ l ∈ f.layers, l = Layer.ptr := by
  induction fl, v using derefPtrs.induct generalizing f with
  | case1 fl p g hp ih =>
    simp only [derefPtrs, hp, Option.some.injEq] at h
    subst h
    intro l hl
    simp only [List.mem_cons] at hl
    rcases hl with hl | hl
    · exact hl
    · exact ih g hp l hl
  | case2 fl p hp =>
    simp [derefPtrs, hp] at h
  | case3 fl e ha =>
    simp only [derefPtrs, ha, if_true, Option.some.injEq] at h
    subst h
    intro l hl
    simp only [List.mem_cons] at hl
    rcases hl with hl | hl
    · exact hl
    · exact allocPtrs_layers e l hl
  | case4 fl e ha =>
    simp [derefPtrs, ha] at h
  | case5 fl v h1 h2 =>
    rw [derefPtrs] at h
    · simp only [Option.some.injEq] at h
      subst h
      simp
    · exact h1
    · exact h2

theorem peelPtrs_of_notPtr (t : Val) (ht : notPtr t = true) : peelPtrs t = t := by
  cases t <;> simp_all [notPtr, peelPtrs]

theorem peelPtrs_plug (ls : List Layer) (t : Val) (hl : ∀ l ∈ ls, l = Layer.ptr)
    (ht : notPtr t = true) : peelPtrs (plug ls t) = t := by
  induction ls with
  | nil => exact peelPtrs_of_notPtr t ht
  | cons l ls ih =>
    have h1 : l = Layer.ptr := hl l (List.mem_cons_self _ _)
    subst h1
    simp only [plug, peelPtrs]
    exact ih (fun l2 h2 => hl l2 (List.mem_cons_of_mem _ h2))

theorem peel_of_notIface (t : Val) (ht : notIface t = true) : peel t = peelPtrs t := by
  cases t <;> simp_all [notIface, peel]

theorem peel_plug_of_normalize (fl : Flags) (v : Val) (f : Focus)
    (h : normalize fl v = some f) (t : Val) (ht : isContainer t = true) :
    peel (plug f.layers t) = t := by
  obtain ⟨f1, f2, h1, h2, _, h4, _⟩ := normalize_cases fl v f h
  have hp := derefPtrs_layers_ptr _ _ _ h2
  have hnp : notPtr t = true := settled_notPtr t (isContainer_settled t ht)
  have hni : notIface t = true := isContainer_notIface t ht
  have hpp := peelPtrs_plug f2.layers t hp hnp
  rw [h4, plug_append]
  have hl1 : f1.layers = [] ∨ f1.layers = [.iface] := by
    cases v with
    | nilIface =>
      simp only [enterIface] at h1
      split at h1
      · simp only [Option.some.injEq] at h1
        subst h1
        exact Or.inr rfl
      · simp at h1
    | iface x =>
      simp only [enterIface, Option.some.injEq] at h1
      subst h1
      exact Or.inr rfl
    | _ =>
      simp only [enterIface, Option.some.injEq] at h1
      subst h1
      exact Or.inl rfl
  rcases hl1 with hl1 | hl1
  · rw [hl1]
    simp only [plug]
    cases hls : f2.layers with
    | nil =>
      simp only [plug]
      rw [peel_of_notIface t hni, peelPtrs_of_notPtr t hnp]
    | cons l ls =>
      have hl : l = Layer.ptr := hp l (by rw [hls]; exact List.mem_cons_self _ _)
      subst hl
      rw [hls] at hpp
      simp only [plug, peel] at hpp ⊢
      exact hpp
  · rw [hl1]
    simp only [plug, peel]
    exact hpp

theorem resolve_of_peel (a b : Val) (q : List String) (h : peel a = peel b) :
    resolve a q = resolve b q := by
  cases q with
  | nil => simp only [resolve, h]
  | cons k ks => simp only [resolve, h]

theorem resolvesToContainer_iff (v : Val) (q : List String) :
    resolvesToContainer v q ↔ ∃ t, resolve v q = some t ∧ isContainer t = true := by
  unfold resolvesToContainer
  constructor
  · rintro ⟨t, h1, h2⟩
    refine ⟨t, h1, ?_⟩
    cases t <;> simp_all [isContainer]
  · rintro ⟨t, h1, h2⟩
    refine ⟨t, h1, ?_⟩
    cases t <;> simp_all [isContainer]

theorem applyFields_ok_container (fl : Flags) (t : Val) (fields : List (String × Raw))
    (hne : fields ≠ []) (hs : settled t = true)
    (hok : (applyFields fl t fields).2 = .ok) :
    isContainer t = true ∧ isContainer (applyFields fl t fields).1 = true := by
  have hc : isContainer t = true := by
    cases hc : isContainer t with
    | true => rfl
    | false =>
      cases fields with
      | nil => exact absurd rfl hne
      | cons fd rest =>
        obtain ⟨f, d⟩ := fd
        simp [applyFields, applyField_invalid_type fl t f d hc hs] at hok
  refine ⟨hc, ?_⟩
  rcases applyFields_shape fl t fields with ⟨_, h⟩ | h
  · exact h
  · rw [h]
    exact hc

theorem fieldByKey_lt (name : String) (fs : List StructField) (i : Nat)
    (h : fieldByKey name fs = some i) : i < fs.length := by
  obtain ⟨f, hf, _⟩ := fieldByKey_some name fs i h
  exact (List.get?_eq_some.mp hf).1

theorem applyPatchLoop_resolves (fields : List (String × Raw)) (keys : List String) :
    ∀ (fl : Flags) (v : Val), v.wellFormed = true →
      (applyPatchLoop keys fl v fields).2 = .ok →
      (∀ i, i < keys.length →
        resolvesToContainer (applyPatchLoop keys fl v fields).1 (keys.take i)) ∧
      (fields ≠ [] → resolvesToContainer (applyPatchLoop keys fl v fields).1 keys) := by
  induction keys with
  | nil =>
    intro fl v hw hok
    refine ⟨fun i hi => absurd hi (Nat.not_lt_zero i), ?_⟩
    intro hne
    cases hn : normalize fl v with
    | none => simp [applyPatchLoop, hn] at hok
    | some F =>
      simp only [applyPatchLoop, hn] at hok ⊢
      obtain ⟨_, hc2⟩ := applyFields_ok_container F.flags F.target fields hne
        (normalize_target_settled fl v F hn) hok
      rw [resolvesToContainer_iff]
      exact ⟨_, by simp only [resolve, peel_plug_of_normalize fl v F hn _ hc2], hc2⟩
  | cons key keys ih =>
    intro fl v hw hok
    cases hn : normalize fl v with
    | none => simp [applyPatchLoop, hn] at hok
    | some F =>
      have hwt := normalize_wellFormed fl v F hn hw
      obtain ⟨ls, t, fl2⟩ := F
      simp only at hwt
      have key_step : ∀ (t2 x2 : Val), isContainer t2 = true →
          (∀ q, resolve (plug ls t2) (key :: q) = resolve x2 q) →
          ((∀ i, i < keys.length → resolvesToContainer x2 (keys.take i)) ∧
            (fields ≠ [] → resolvesToContainer x2 keys)) →
          (∀ i, i < (key :: keys).length →
            resolvesToContainer (plug ls t2) ((key :: keys).take i)) ∧
          (fields ≠ [] → resolvesToContainer (plug ls t2) (key :: keys)) := by
        intro t2 x2 hc hres hx
        have hpeel := peel_plug_of_normalize fl v _ hn t2 hc
        simp only at hpeel
        refine ⟨?_, ?_⟩
        · intro i hi
          cases i with
          | zero =>
            rw [resolvesToContainer_iff]
            exact ⟨t2, by simp only [List.take_zero, resolve, hpeel], hc⟩
          | succ j =>
            have hj : j < keys.length := by simpa using hi
            have := hx.1 j hj
            rw [resolvesToContainer_iff] at this ⊢
            simpa only [List.take_succ_cons, hres] using this
        · intro hne
          have := hx.2 hne
          rw [resolvesToContainer_iff] at this ⊢
          simpa only [hres] using this
      have hpl : ∀ t2, isContainer t2 = true → peel (plug ls t2) = t2 := fun t2 hc =>
        peel_plug_of_normalize fl v _ hn t2 hc
      cases t with
      | map e es =>
        simp only [Val.wellFormed] at hwt
        cases hl : mapLookup key es with
        | none =>
          cases hro : fl2.ro with
          | true => simp [applyPatchLoop, hn, hl, hro] at hok
          | false =>
            simp only [applyPatchLoop, hn, hl, hro, Bool.false_eq_true, if_false] at hok ⊢
            obtain ⟨es2, hm⟩ := applyPatchLoop_map_shape keys ⟨false, false⟩ .iface []
              fields
            have ih0 := ih ⟨false, false⟩ (.map .iface []) rfl
            generalize applyPatchLoop keys ⟨false, false⟩ (.map .iface []) fields = r0
              at hm ih0 hok ⊢
            obtain ⟨m, res0⟩ := r0
            simp only at hm ih0 hok ⊢
            subst hm
            cases hst : storeFreshMap e (.map .iface es2) with
            | none => simp [hst] at hok
            | some entry =>
              simp only [hst] at hok ⊢
              have hent : ∀ q, resolve entry q = resolve (.map .iface es2) q := by
                intro q
                apply resolve_of_peel
                cases e with
                | iface =>
                  simp only [storeFreshMap, Option.some.injEq] at hst
                  subst hst
                  rfl
                | map e2 =>
                  cases e2 with
                  | iface =>
                    simp only [storeFreshMap, Option.some.injEq] at hst
                    subst hst
                    rfl
                  | _ => simp [storeFreshMap] at hst
                | _ => simp [storeFreshMap] at hst
              apply key_step (.map e (mapInsert key entry es)) (.map .iface es2) rfl
              · intro q
                simp only [resolve, hpl (.map e (mapInsert key entry es)) rfl,
                  mapLookup_mapInsert_self, hent]
              · exact ih0 hok
        | some x =>
          simp only [applyPatchLoop, hn, hl] at hok ⊢
          apply key_step (.map e (mapInsert key
            (applyPatchLoop keys ⟨false, fl2.ro⟩ x fields).1 es))
            (applyPatchLoop keys ⟨false, fl2.ro⟩ x fields).1 rfl
          · intro q
            simp only [resolve, hpl (.map e (mapInsert key
              (applyPatchLoop keys ⟨false, fl2.ro⟩ x fields).1 es)) rfl,
              mapLookup_mapInsert_self]
          · exact ih _ x (wellFormedEntries_lookup es key x hwt hl) hok
      | nilMap e => simp [applyPatchLoop, hn] at hok
      | struct n fs vals =>
        simp only [Val.wellFormed, Bool.and_eq_true, beq_iff_eq] at hwt
        cases hf : fieldByKey key fs with
        | none => simp [applyPatchLoop, hn, hf] at hok
        | some i =>
          simp only [applyPatchLoop, hn, hf] at hok ⊢
          have hi : i < vals.length := by
            rw [hwt.1]
            exact fieldByKey_lt key fs i hf
          apply key_step (.struct n fs (vals.set i (applyPatchLoop keys
            ⟨fl2.addr, fl2.ro || !fieldExported fs i⟩ (vals.getD i .nilIface) fields).1))
            (applyPatchLoop keys
            ⟨fl2.addr, fl2.ro || !fieldExported fs i⟩ (vals.getD i .nilIface) fields).1 rfl
          · intro q
            simp only [resolve, hpl (.struct n fs (vals.set i (applyPatchLoop keys
              ⟨fl2.addr, fl2.ro || !fieldExported fs i⟩
              (vals.getD i .nilIface) fields).1)) rfl, hf]
            congr 1
            simp [List.getD_eq_getElem?_getD, List.getElem?_set, hi]
          · exact ih _ _ (wellFormedList_getD vals i hwt.2) hok
      | _ => simp [applyPatchLoop, hn] at hok

theorem applyPatch_resolves (d d2 : Val) (keys : List String)
    (fields : List (String × Raw)) (hwf : d.wellFormed = true)
    (hok : applyPatch d keys fields = (d2, .ok)) :
    ∀ q, q <+: keys → (q ≠ keys ∨ fields ≠ []) → resolvesToContainer d2 q := by
  have h2 : (applyPatchLoop keys ⟨true, false⟩ d fields).2 = .ok := by
    rw [applyPatch] at hok
    rw [hok]
  have hd2 : d2 = (applyPatchLoop keys ⟨true, false⟩ d fields).1 := by
    rw [applyPatch] at hok
    rw [hok]
  obtain ⟨hp1, hp2⟩ := applyPatchLoop_resolves fields keys ⟨true, false⟩ d hwf h2
  intro q hq hor
  have hqt : q = keys.take q.length := List.prefix_iff_eq_take.mp hq
  have hle : q.length ≤ keys.length := hq.length_le
  by_cases hlt : q.length < keys.length
  · rw [hd2, hqt]
    exact hp1 q.length hlt
  · have hqk : q = keys := by
      rw [hqt]
      exact List.take_of_length_le (by omega)
    rcases hor with hne | hne
    · exact absurd hqk hne
    · rw [hd2, hqk]
      exact hp2 hne

/-- C14, counterexample: the patch event `{"/a", {}}` has no field to apply; on the
destination `{"a": 1}` `processChange` returns nil, the navigated key sequence is `a`,
and it resolves to the number 1, which is neither a keyed container nor a record. -/
theorem processChange_empty_patch_on_number :
    processChange destC14 (patchEvent "/a" []) = (destC14, .ok) ∧
    pathKeys "/a" = ["a"] ∧
    resolve destC14 ["a"] = some (.float64 1) ∧
    ¬ resolvesToContainer destC14 ["a"] := by
  refine ⟨rfl, by decide, rfl, ?_⟩
  rintro ⟨t, h1, h2⟩
  have h : resolve destC14 ["a"] = some (.float64 1) := rfl
  rw [h] at h1
  cases h1
  exact h2

/-- C14, amended: when `processChange` returns nil on a put event below the root, every
prefix of the path without its last key resolves in the resulting destination to a
non-nil keyed container or to a record; when it returns nil on a patch event, so does
every proper prefix of the patch path, and the patch path itself when the field mapping
is not empty.  The destination is one whose structs have a value for every field. -/
theorem processChange_prefixes_resolve (d d2 : Val) (e : Event)
    (hwf : d.wellFormed = true) (hok : processChange d e = (d2, .ok)) :
    (e.Typ = "put" → (decodePut e.Data).1.Path ≠ "/" →
      ∀ q, q <+: (pathKeys (decodePut e.Data).1.Path).dropLast →
        resolvesToContainer d2 q) ∧
    (e.Typ = "patch" →
      ∀ q, q <+: pathKeys (decodePatch e.Data).1.Path →
        (q ≠ pathKeys (decodePatch e.Data).1.Path ∨
          (decodePatch e.Data).1.Data.getD [] ≠ []) →
        resolvesToContainer d2 q) := by
  refine ⟨?_, ?_⟩
  · intro ht hroot q hq
    simp only [processChange, ht, if_true, hroot, if_false] at hok
    cases hde : (decodePut e.Data).2 with
    | some err =>
      simp only [hde, Prod.mk.injEq] at hok
      cases hok.2
    | none =>
      simp only [hde] at hok
      cases hlast : (pathKeys (decodePut e.Data).1.Path).getLast? with
      | none =>
        simp only [hlast, Prod.mk.injEq] at hok
        cases hok.2
      | some last =>
        simp only [hlast] at hok
        exact applyPatch_resolves d d2 _ _ hwf hok q hq (Or.inr (by simp))
  · intro ht q hq hor
    have hne : ¬ ("patch" = "put") := by decide
    simp only [processChange, ht, hne, if_true, if_false] at hok
    cases hde : (decodePatch e.Data).2 with
    | some err =>
      simp only [hde, Prod.mk.injEq] at hok
      cases hok.2
    | none =>
      simp only [hde] at hok
      exact applyPatch_resolves d d2 _ _ hwf hok q hq hor

theorem processChange_prefixes_resolve_witness :
    destC14.wellFormed = true ∧
    processChange destC14 (putEvent "/b/c/d" (.num 2)) =
      (.map .iface [("a", .iface (.float64 1)), ("b", .iface (.map .iface
        [("c", .iface (.map .iface [("d", .iface (.float64 2))]))]))], .ok) ∧
    resolvesToContainer (.map .iface [("a", .iface (.float64 1)), ("b", .iface (.map .iface
        [("c", .iface (.map .iface [("d", .iface (.float64 2))]))]))]) ["b", "c"] :=
  ⟨rfl, rfl, (processChange_prefixes_resolve destC14 _ (putEvent "/b/c/d" (.num 2)) rfl
    rfl).1 rfl (by decide) ["b", "c"] (by decide)⟩

/-! ## The frame of applyPatch, seen through records and pointers -/

theorem derefPtrs_target_of_peelPtrs (fl : Flags) (v : Val) (f : Focus)
    (h : derefPtrs fl v = some f) (hc : isContainer (peelPtrs v) = true) :
    f.target = peelPtrs v := by
  induction fl, v using derefPtrs.induct generalizing f with
  | case1 fl p f2 hf2 ih =>
    simp only [derefPtrs, hf2, Option.some.injEq] at h
    subst h
    exact ih f2 hf2 hc
  | case2 fl p hnone => simp [derefPtrs, hnone] at h
  | case3 fl e ha => simp [peelPtrs, isContainer] at hc
  | case4 fl e ha => simp [peelPtrs, isContainer] at hc
  | case5 fl v h1 h2 =>
    cases v with
    | ptr p => exact absurd rfl (h1 p)
    | nilPtr e => exact absurd rfl (h2 e)
    | _ =>
      simp only [derefPtrs, Option.some.injEq] at h
      subst h
      rfl

theorem normalize_target_of_peel (fl : Flags) (v : Val) (f : Focus)
    (h : normalize fl v = some f) (hc : isContainer (peel v) = true) :
    f.target = peel v := by
  obtain ⟨f1, f2, h1, h2, h3, _, _⟩ := normalize_cases fl v f h
  have key : ∀ x, f1.target = x → peelPtrs x = peel v → f.target = peel v := by
    intro x hx hp
    rw [hx] at h2
    rw [← hp] at hc ⊢
    have ht := derefPtrs_target_of_peelPtrs _ x f2 h2 hc
    rw [ht, initMap_of_settled _ _ (isContainer_settled _ hc)] at h3
    simp only [Option.some.injEq] at h3
    exact h3.symm
  cases v with
  | nilIface => simp [peel, peelPtrs, isContainer] at hc
  | iface x =>
    simp only [enterIface, Option.some.injEq] at h1
    subst h1
    exact key x rfl rfl
  | _ =>
    simp only [enterIface, Option.some.injEq] at h1
    subst h1
    exact key _ rfl rfl

theorem locate_cons_of_peel (a b : Val) (k : String) (q : List String)
    (h : peel a = peel b) : locate a (k :: q) = locate b (k :: q) := by
  simp only [locate, h]

theorem getD_set_ne (vals : List Val) (i j : Nat) (x d : Val) (h : j ≠ i) :
    (vals.set i x).getD j d = vals.getD j d := by
  simp [List.getD_eq_getElem?_getD, List.getElem?_set, Ne.symm h]

theorem applyField_entryOf (fl : Flags) (t : Val) (f : String) (d : Raw) (k : String) :
    entryOf (applyField fl t f d).1 k = entryOf t k := by
  unfold applyField
  split <;> split <;> (repeat' split) <;> simp [entryOf]

theorem applyField_entryVal (fl : Flags) (t : Val) (f : String) (d : Raw) (k : String)
    (h : entryOf t f ≠ entryOf t k) :
    entryVal (applyField fl t f d).1 k = entryVal t k := by
  cases t with
  | map e es =>
    have hk : k ≠ f := by
      intro hk
      subst hk
      exact h rfl
    unfold applyField
    split <;> (repeat' split) <;>
      simp_all [entryVal, mapLookup_mapDelete_ne _ _ _ hk, mapLookup_mapInsert_ne _ _ _ _ hk]
  | struct n fs vals =>
    simp only [entryOf] at h
    cases hf : fieldByKey f fs with
    | none =>
      unfold applyField
      split <;> simp [hf]
    | some i =>
      cases hj : fieldByKey k fs with
      | none =>
        unfold applyField
        split <;> (repeat' split) <;> simp_all [entryVal]
      | some j =>
        have hji : j ≠ i := by
          intro hji
          subst hji
          rw [hf, hj] at h
          exact h rfl
        unfold applyField
        split <;> (repeat' split) <;> simp_all [entryVal, getD_set_ne _ _ _ _ _ hji]
  | _ =>
    unfold applyField
    split <;> (repeat' split) <;> simp_all [entryVal]

theorem applyFields_entryOf (fl : Flags) (fields : List (String × Raw)) (k : String)
    (t : Val) : entryOf (applyFields fl t fields).1 k = entryOf t k := by
  induction fields generalizing t with
  | nil => rfl
  | cons fd rest ih =>
    obtain ⟨f, d⟩ := fd
    have h1 := applyField_entryOf fl t f d k
    simp only [applyFields]
    generalize applyField fl t f d = r at h1
    obtain ⟨t2, res⟩ := r
    cases res with
    | ok =>
      simp only at h1 ⊢
      rw [ih t2, h1]
    | err e => exact h1
    | panic => exact h1

theorem applyFields_entryVal (fl : Flags) (fields : List (String × Raw)) (k : String)
    (t : Val) (hk : ∀ f ∈ fields.map Prod.fst, entryOf t f ≠ entryOf t k) :
    entryVal (applyFields fl t fields).1 k = entryVal t k := by
  induction fields generalizing t with
  | nil => rfl
  | cons fd rest ih =>
    obtain ⟨f, d⟩ := fd
    have h1 := applyField_entryVal fl t f d k (hk f (by simp))
    have h2 : ∀ g, entryOf (applyField fl t f d).1 g = entryOf t g :=
      fun g => applyField_entryOf fl t f d g
    simp only [applyFields]
    generalize applyField fl t f d = r at h1 h2
    obtain ⟨t2, res⟩ := r
    cases res with
    | ok =>
      simp only at h1 h2 ⊢
      rw [ih t2, h1]
      intro g hg
      rw [h2, h2]
      exact hk g (by simp only [List.map_cons, List.mem_cons]; exact Or.inr hg)
    | err e => exact h1
    | panic => exact h1

theorem locate_plug (fl : Flags) (v : Val) (F : Focus) (hn : normalize fl v = some F)
    (t2 : Val) (hc2 : isContainer t2 = true) (k : String) (q : List String) :
    locate (plug F.layers t2) (k :: q) =
      match entryVal t2 k with
      | none => none
      | some y => locate y q := by
  simp only [locate, peel_plug_of_normalize fl v F hn t2 hc2]

theorem locate_cons_some (v : Val) (k : String) (q : List String) (x : Val)
    (h : locate v (k :: q) = some x) :
    isContainer (peel v) = true ∧
      ∃ y, entryVal (peel v) k = some y ∧ locate y q = some x := by
  simp only [locate] at h
  cases hy : entryVal (peel v) k with
  | none => simp [hy] at h
  | some y =>
    simp only [hy] at h
    refine ⟨?_, y, rfl, h⟩
    cases hp : peel v <;> simp [hp, entryVal] at hy <;> rfl

theorem offLoc_ne_nil (fields : List (String × Raw)) (v : Val) (keys q : List String)
    (h : offLoc fields v keys q) : q ≠ [] := by
  intro hq
  subst hq
  cases keys <;> simp [offLoc] at h

theorem locate_nilIface (q : List String) (x : Val) (hq : q ≠ [])
    (h : locate .nilIface q = some x) : False := by
  cases q with
  | nil => exact hq rfl
  | cons k q => simp [locate, peel, peelPtrs, entryVal] at h

theorem applyPatchLoop_frame_locate (fields : List (String × Raw)) (keys : List String) :
    ∀ (fl : Flags) (v : Val) (q : List String) (x : Val), offLoc fields v keys q →
      locate v q = some x → locate (applyPatchLoop keys fl v fields).1 q = some x := by
  induction keys with
  | nil =>
    intro fl v q x hoff hloc
    cases q with
    | nil => simp [offLoc] at hoff
    | cons k q =>
      simp only [offLoc] at hoff
      obtain ⟨hc, y, hy, hyq⟩ := locate_cons_some v k q x hloc
      cases hn : normalize fl v with
      | none =>
        simp only [applyPatchLoop, hn]
        exact hloc
      | some F =>
        have ht := normalize_target_of_peel fl v F hn hc
        rw [← ht] at hc hy hoff
        simp only [applyPatchLoop, hn]
        have hc2 : isContainer (applyFields F.flags F.target fields).1 = true := by
          rcases applyFields_shape F.flags F.target fields with ⟨_, h⟩ | h
          · exact h
          · rw [h]
            exact hc
        rw [locate_plug fl v F hn _ hc2, applyFields_entryVal F.flags fields k F.target hoff,
          hy]
        exact hyq
  | cons key keys ih =>
    intro fl v q x hoff hloc
    cases q with
    | nil => simp [offLoc] at hoff
    | cons k q =>
      simp only [offLoc] at hoff
      obtain ⟨hc, y, hy, hyq⟩ := locate_cons_some v k q x hloc
      cases hn : normalize fl v with
      | none =>
        simp only [applyPatchLoop, hn]
        exact hloc
      | some F =>
        have ht := normalize_target_of_peel fl v F hn hc
        rw [← ht] at hc hy hoff
        have hplug : ∀ t2, isContainer t2 = true → entryVal t2 k = some y →
            locate (plug F.layers t2) (k :: q) = some x := by
          intro t2 hc2 h2
          rw [locate_plug fl v F hn t2 hc2, h2]
          exact hyq
        have hplug2 : ∀ t2 r, isContainer t2 = true → entryVal t2 k = some r →
            locate r q = some x → locate (plug F.layers t2) (k :: q) = some x := by
          intro t2 r hc2 h2 h3
          rw [locate_plug fl v F hn t2 hc2, h2]
          exact h3
        have hself := hplug F.target hc hy
        obtain ⟨ls, t, fl2⟩ := F
        simp only at hc hy hoff hplug hplug2 hself
        cases t with
        | map e es =>
          simp only [entryVal] at hy
          cases hl : mapLookup key es with
          | none =>
            have hk : k ≠ key := by
              intro hk
              subst hk
              rw [hl] at hy
              cases hy
            cases hro : fl2.ro with
            | true =>
              simp only [applyPatchLoop, hn, hl, hro, if_true]
              exact hself
            | false =>
              simp only [applyPatchLoop, hn, hl, hro, Bool.false_eq_true, if_false]
              split
              · exact hself
              · refine hplug _ ?_ ?_
                · rfl
                · simp only [entryVal, mapLookup_mapInsert_ne _ _ _ _ hk, hy]
          | some x0 =>
            simp only [applyPatchLoop, hn, hl]
            by_cases hk : k = key
            · subst hk
              rw [hl] at hy
              simp only [Option.some.injEq] at hy
              subst hy
              have hoff2 : offLoc fields x0 keys q := by
                rcases hoff with h | h
                · exact absurd rfl h
                · simpa only [entryVal, hl] using h
              refine hplug2 _ _ ?_ ?_ (ih ⟨false, fl2.ro⟩ x0 q x hoff2 hyq)
              · rfl
              · simp only [entryVal, mapLookup_mapInsert_self]
            · refine hplug _ ?_ ?_
              · rfl
              · simp only [entryVal, mapLookup_mapInsert_ne _ _ _ _ hk, hy]
        | struct n fs vals =>
          simp only [entryVal] at hy
          cases hj : fieldByKey k fs with
          | none => simp [hj] at hy
          | some j =>
            simp only [hj, Option.some.injEq] at hy
            cases hf : fieldByKey key fs with
            | none =>
              simp only [applyPatchLoop, hn, hf]
              exact hself
            | some i =>
              simp only [applyPatchLoop, hn, hf]
              by_cases hji : j = i
              · subst hji
                have hoff2 : offLoc fields (vals.getD j .nilIface) keys q := by
                  rcases hoff with h | h
                  · simp [entryOf, hj, hf] at h
                  · simpa only [entryVal, hf] using h
                subst hy
                have hlt : j < vals.length := by
                  by_contra hge
                  have h0 : vals.getD j .nilIface = .nilIface := by
                    simp [List.getD_eq_getElem?_getD, List.getElem?_eq_none (Nat.le_of_not_lt hge)]
                  rw [h0] at hyq
                  exact locate_nilIface q x (offLoc_ne_nil fields _ keys q hoff2) hyq
                refine hplug2 _ _ ?_ ?_ (ih ⟨fl2.addr, fl2.ro || !fieldExported fs j⟩
                  (vals.getD j .nilIface) q x hoff2 hyq)
                · rfl
                · simp [entryVal, hj, List.getD_eq_getElem?_getD, List.getElem?_set, hlt]
              · refine hplug _ ?_ ?_
                · rfl
                · simp only [entryVal, hj, getD_set_ne _ _ _ _ _ hji, hy]
        | _ => simp [isContainer] at hc

/-! ## The frame of applyPatch on shared maps -/

theorem slotLookup_slotInsert_ne (k q : String) (x : Slot) (es : List (String × Slot))
    (h : q ≠ k) : slotLookup q (slotInsert k x es) = slotLookup q es := by
  induction es with
  | nil => simp [slotInsert, slotLookup, Ne.symm h]
  | cons p rest ih =>
    obtain ⟨k2, x2⟩ := p
    by_cases h2 : k2 = k
    · subst h2
      simp [slotInsert, slotLookup, Ne.symm h]
    · by_cases h3 : k2 = q
      · subst h3
        simp [slotInsert, slotLookup, h]
      · simp [slotInsert, slotLookup, h2, h3, ih]

theorem slotLookup_slotDelete_ne (k q : String) (es : List (String × Slot)) (h : q ≠ k) :
    slotLookup q (slotDelete k es) = slotLookup q es := by
  induction es with
  | nil => rfl
  | cons p rest ih =>
    obtain ⟨k2, x2⟩ := p
    by_cases h2 : k2 = k
    · subst h2
      simp [slotDelete, slotLookup, Ne.symm h, ih]
    · by_cases h3 : k2 = q
      · subst h3
        simp [slotDelete, slotLookup, h]
      · simp [slotDelete, slotLookup, h2, h3, ih]

theorem getD_set_store (s : Store) (a b : Nat) (es : List (String × Slot)) :
    (s.set a es).getD b [] = if a = b ∧ a < s.length then es else s.getD b [] := by
  simp only [List.getD_eq_getElem?_getD, List.getElem?_set]
  by_cases h : a = b
  · subst h
    by_cases h2 : a < s.length
    · simp [h2]
    · simp [h2, List.getElem?_eq_none (Nat.le_of_not_lt h2)]
  · simp [h]

theorem agreeExcept_trans (T : List (Nat × String)) (s1 s2 s3 : Store)
    (h12 : agreeExcept T s1 s2) (h23 : agreeExcept T s2 s3) : agreeExcept T s1 s3 := by
  refine ⟨Nat.le_trans h12.1 h23.1, ?_⟩
  intro b k hb hT
  rw [h23.2 b k (Nat.lt_of_lt_of_le hb h12.1) hT, h12.2 b k hb hT]

theorem agreeExcept_mono (T T2 : List (Nat × String)) (s s2 : Store)
    (hT : ∀ p ∈ T, p ∈ T2) (h : agreeExcept T s s2) : agreeExcept T2 s s2 :=
  ⟨h.1, fun b k hb hk => h.2 b k hb (fun hm => hk (hT _ hm))⟩

theorem applyFieldShared_agree (s : Store) (a : Nat) (f : String) (d : Raw) :
    agreeExcept [(a, f)] s (applyFieldShared s a f d).1 := by
  have key : ∀ es2 : List (String × Slot),
      (∀ k, k ≠ f → slotLookup k es2 = slotLookup k (s.getD a [])) →
      agreeExcept [(a, f)] s (s.set a es2) := by
    intro es2 h
    refine ⟨by simp, ?_⟩
    intro b k hb hT
    rw [getD_set_store]
    split
    · rename_i hab
      obtain ⟨rfl, _⟩ := hab
      apply h
      intro hk
      subst hk
      exact hT (by simp)
    · rfl
  have hrefl : agreeExcept [(a, f)] s s := ⟨Nat.le_refl _, fun _ _ _ _ => rfl⟩
  unfold applyFieldShared
  split
  · exact key _ (fun k hk => slotLookup_slotDelete_ne f k _ hk)
  · split
    · exact hrefl
    · exact key _ (fun k hk => slotLookup_slotInsert_ne f k _ _ hk)

theorem applyFieldsShared_agree (a : Nat) (fields : List (String × Raw)) :
    ∀ s, agreeExcept (fields.map (fun f => (a, f.1))) s (applyFieldsShared a s fields).1 := by
  induction fields with
  | nil => exact fun s => ⟨Nat.le_refl _, fun _ _ _ _ => rfl⟩
  | cons fd rest ih =>
    intro s
    obtain ⟨f, d⟩ := fd
    have h1 := applyFieldShared_agree s a f d
    have h1m : agreeExcept (((f, d) :: rest).map (fun f => (a, f.1))) s
        (applyFieldShared s a f d).1 :=
      agreeExcept_mono _ _ _ _ (fun p hp => by
        simp only [List.mem_singleton] at hp
        subst hp
        simp) h1
    simp only [applyFieldsShared]
    generalize applyFieldShared s a f d = r at h1m
    obtain ⟨s2, res⟩ := r
    cases res with
    | ok =>
      simp only at h1m ⊢
      exact agreeExcept_trans _ _ _ _ h1m
        (agreeExcept_mono _ _ _ _ (fun p hp => by
          simp only [List.map_cons, List.mem_cons]
          exact Or.inr hp) (ih s2))
    | err e => exact h1m
    | panic => exact h1m

theorem touched_address (keys : List String) (s : Store) (a : Nat)
    (fields : List (String × Raw)) (h : s.getD a [] = []) :
    ∀ p ∈ touched keys s a fields, p.1 = a := by
  intro p hp
  cases keys with
  | nil =>
    simp only [touched, List.mem_map] at hp
    obtain ⟨f, _, rfl⟩ := hp
    rfl
  | cons key keys =>
    simp only [touched, h, slotLookup, List.mem_singleton] at hp
    subst hp
    rfl

theorem applyPatchShared_agree (fields : List (String × Raw)) (keys : List String) :
    ∀ (s : Store) (a : Nat),
      agreeExcept (touched keys s a fields) s (applyPatchShared keys s a fields).1 := by
  induction keys with
  | nil =>
    intro s a
    exact applyFieldsShared_agree a fields s
  | cons key keys ih =>
    intro s a
    cases hl : slotLookup key (s.getD a []) with
    | none =>
      simp only [applyPatchShared, touched, hl]
      have hnew : (s.set a (slotInsert key (.ref s.length) (s.getD a [])) ++ [[]]).getD
          s.length [] = [] := by
        simp [List.getD_eq_getElem?_getD, List.getElem?_append_right]
      have h2 := ih (s.set a (slotInsert key (.ref s.length) (s.getD a [])) ++ [[]]) s.length
      have ht := touched_address keys _ s.length fields hnew
      refine ⟨?_, ?_⟩
      · have := h2.1
        simp only [List.length_append, List.length_set, List.length_singleton] at this
        omega
      · intro b k hb hT
        rw [h2.2 b k (by simp; omega) (fun hm => by
          have := ht _ hm
          simp only at this
          omega)]
        have hb2 : b < (s.set a (slotInsert key (.ref s.length) (s.getD a []))).length := by
          simpa using hb
        rw [List.getD_eq_getElem?_getD, List.getElem?_append_left hb2,
          ← List.getD_eq_getElem?_getD, getD_set_store]
        split
        · rename_i hab
          obtain ⟨rfl, _⟩ := hab
          apply slotLookup_slotInsert_ne
          intro hk
          subst hk
          exact hT (by simp)
        · rfl
    | some x =>
      cases x with
      | ref b0 =>
        simp only [applyPatchShared, touched, hl]
        exact ih s b0
      | own v =>
        simp only [applyPatchShared, touched, hl]
        refine ⟨by simp, ?_⟩
        intro b k hb hT
        rw [getD_set_store]
        split
        · rename_i hab
          obtain ⟨rfl, _⟩ := hab
          apply slotLookup_slotInsert_ne
          intro hk
          subst hk
          exact hT (by simp)
        · rfl

theorem lookupShared_agree (T : List (Nat × String)) (s s2 : Store)
    (h : agreeExcept T s s2) (q : List String) :
    ∀ x0, (∀ p ∈ reads q s x0, p.1 < s.length ∧ p ∉ T) →
      lookupShared q s2 x0 = lookupShared q s x0 := by
  induction q with
  | nil => intro x0 _; rfl
  | cons k ks ih =>
    intro x0 hr
    cases x0 with
    | own v => rfl
    | ref a =>
      simp only [reads, List.mem_cons, forall_eq_or_imp] at hr
      obtain ⟨⟨ha, hT⟩, hrest⟩ := hr
      simp only [lookupShared, h.2 a k ha hT]
      cases hl : slotLookup k (s.getD a []) with
      | none => rfl
      | some x =>
        simp only [hl] at hrest ⊢
        exact ih x hrest

/-! ## The frame of a successful call -/

/-- C2, counterexample: in the destination `{"a": m, "b": m}` the map `m` is stored under
two keys.  `applyPatch` with the key sequence `a` and the field `y` returns nil and
writes `y` into `m`; the location `b`, `y`, which lies neither on the path `a` nor below
it, held no value before the call and holds the value 1 after it. -/
theorem applyPatchShared_alias_off_path :
    applyPatchShared ["a"] storeC2 0 [("y", some (.num 1))] =
      ([[("a", .ref 1), ("b", .ref 1)],
        [("x", .own (.iface (.float64 0))), ("y", .own (.iface (.float64 1)))]], .ok) ∧
    lookupShared ["b", "y"] storeC2 (.ref 0) = none ∧
    lookupShared ["b", "y"]
        (applyPatchShared ["a"] storeC2 0 [("y", some (.num 1))]).1 (.ref 0) =
      some (.own (.iface (.float64 1))) ∧
    ¬ ["b", "y"] <+: ["a"] ∧ ¬ ["a"] <+: ["b", "y"] :=
  ⟨rfl, rfl, rfl, by decide, by decide⟩

/-- C2, amended.  In a destination in which no map and no pointee is reachable along two
routes (a tree of values), when `applyPatch(D, K, F)` returns nil: every entry of the
target container whose key `F` does not name has the same value before and after the
call; every location that lies neither on the path `K` nor below it is unchanged; and a
location followed through interfaces, pointers, map entries and struct fields that holds
a value before the call and leaves the path at some entry, or goes below the target
through an entry that no field of `F` denotes, holds the same value after the call.  In a
destination whose maps are shared, a lookup that reads no entry the call writes gives the
same value before and after the call. -/
theorem applyPatch_frame (keys : List String) (fields : List (String × Raw)) :
    (∀ d d2, applyPatch d keys fields = (d2, .ok) →
      (∀ k, k ∉ fields.map Prod.fst →
        lookupPath d2 (keys ++ [k]) = lookupPath d (keys ++ [k])) ∧
      (∀ q, ¬ q <+: keys → ¬ keys <+: q → lookupPath d2 q = lookupPath d q) ∧
      (∀ q x, offLoc fields d keys q → locate d q = some x → locate d2 q = some x)) ∧
    (∀ s a s2 q x0, applyPatchShared keys s a fields = (s2, .ok) →
      (∀ p ∈ reads q s x0, p.1 < s.length ∧ p ∉ touched keys s a fields) →
      lookupShared q s2 x0 = lookupShared q s x0) := by
  refine ⟨?_, ?_⟩
  · intro d d2 hok
    have hd2 : d2 = (applyPatchLoop keys ⟨true, false⟩ d fields).1 := by
      rw [applyPatch] at hok
      rw [hok]
    subst hd2
    refine ⟨?_, ?_, ?_⟩
    · intro k hk
      exact applyPatchLoop_frame fields keys _ d _ (offPath_sibling fields keys k hk)
    · intro q h1 h2
      exact applyPatchLoop_frame fields keys _ d _ (offPath_diverge fields keys q h1 h2)
    · intro q x hoff hloc
      exact applyPatchLoop_frame_locate fields keys _ d q x hoff hloc
  · intro s a s2 q x0 hok hr
    have hs2 : s2 = (applyPatchShared keys s a fields).1 := by rw [hok]
    subst hs2
    exact lookupShared_agree _ s _ (applyPatchShared_agree fields keys s a) q x0 hr

theorem applyPatch_frame_witness :
    (applyPatch destC2 ["outer", "inner"] [("b", some (.num 1))] =
      (.map .iface [("outer", .iface (.map .iface [("inner", .iface (.map .iface
        [("a", .iface (.float64 1)), ("b", .iface (.float64 1))]))])),
        ("other", .iface (.float64 7))], .ok) ∧
    lookupPath (.map .iface [("outer", .iface (.map .iface [("inner", .iface (.map .iface
        [("a", .iface (.float64 1)), ("b", .iface (.float64 1))]))])),
        ("other", .iface (.float64 7))]) (["outer", "inner"] ++ ["a"]) =
      lookupPath destC2 (["outer", "inner"] ++ ["a"])) ∧
    (applyPatch destRecC2 ["rec"] [("a", some (.num 5))] =
      (.map .iface [("rec", .iface (.ptr (.struct "Inner" fieldsAB [.int 5, .int 2])))],
        .ok) ∧
    locate destRecC2 ["rec", "b"] = some (.int 2) ∧
    locate (.map .iface [("rec", .iface (.ptr (.struct "Inner" fieldsAB [.int 5, .int 2])))])
      ["rec", "b"] = some (.int 2)) ∧
    (lookupShared ["b", "x"] (applyPatchShared ["a"] storeC2 0 [("y", some (.num 1))]).1
        (.ref 0) =
      lookupShared ["b", "x"] storeC2 (.ref 0)) :=
  ⟨⟨rfl, ((applyPatch_frame ["outer", "inner"] [("b", some (.num 1))]).1 destC2 _ rfl).1 "a"
      (by decide)⟩,
    ⟨rfl, rfl, ((applyPatch_frame ["rec"] [("a", some (.num 5))]).1 destRecC2 _ rfl).2.2
      ["rec", "b"] (.int 2)
      (Or.inr (by
        intro f hf
        simp only [List.map_cons, List.map_nil, List.mem_singleton] at hf
        subst hf
        intro h
        have h1 : entryOf (.struct "Inner" fieldsAB [.int 1, .int 2]) "a" =
            some (.field 0) := rfl
        have h2 : entryOf (.struct "Inner" fieldsAB [.int 1, .int 2]) "b" =
            some (.field 1) := rfl
        have h3 : peel (.iface (.ptr (.struct "Inner" fieldsAB [.int 1, .int 2]))) =
            .struct "Inner" fieldsAB [.int 1, .int 2] := rfl
        rw [h3, h1, h2] at h
        simp at h)) rfl⟩,
    (applyPatch_frame ["a"] [("y", some (.num 1))]).2 storeC2 0 _ ["b", "x"] (.ref 0) rfl
      (by decide)⟩

/-! ## The target of a call -/

theorem applyPatchLoop_result_of_targetAt (fields : List (String × Raw))
    (keys : List String) (fl : Flags) (v : Val) (F : Focus)
    (h : targetAt keys fl v = some F) :
    (applyPatchLoop keys fl v fields).2 = (applyFields F.flags F.target fields).2 := by
  unfold targetAt at h
  cases hl : locationAt keys fl v with
  | none => simp [hl] at h
  | some p =>
    obtain ⟨fl1, v1⟩ := p
    simp only [hl] at h
    have := applyPatchLoop_result_of_locationAt fields keys [] fl v fl1 v1 hl
    rw [List.append_nil] at this
    rw [this]
    simp only [applyPatchLoop, h]

theorem targetAt_nil (fl : Flags) (v : Val) : targetAt [] fl v = normalize fl v := rfl

theorem resolve_storeFreshMap (e : GoType) (es : List (String × Val)) (entry : Val)
    (h : storeFreshMap e (.map .iface es) = some entry) (q : List String) :
    resolve entry q = resolve (.map .iface es) q := by
  apply resolve_of_peel
  cases e with
  | iface =>
    simp only [storeFreshMap, Option.some.injEq] at h
    subst h
    rfl
  | map e2 =>
    cases e2 with
    | iface =>
      simp only [storeFreshMap, Option.some.injEq] at h
      subst h
      rfl
    | _ => simp [storeFreshMap] at h
  | _ => simp [storeFreshMap] at h

theorem applyPatchLoop_target (fields : List (String × Raw)) (hne : fields ≠ [])
    (keys : List String) :
    ∀ (fl : Flags) (v : Val), v.wellFormed = true →
      (applyPatchLoop keys fl v fields).2 = .ok →
      ∃ F, targetAt keys fl v = some F ∧ F.target.wellFormed = true ∧
        (applyFields F.flags F.target fields).2 = .ok ∧
        resolve (applyPatchLoop keys fl v fields).1 keys =
          some (applyFields F.flags F.target fields).1 := by
  induction keys with
  | nil =>
    intro fl v hw hok
    cases hn : normalize fl v with
    | none => simp [applyPatchLoop, hn] at hok
    | some F =>
      simp only [applyPatchLoop, hn] at hok ⊢
      obtain ⟨_, hc2⟩ := applyFields_ok_container F.flags F.target fields hne
        (normalize_target_settled fl v F hn) hok
      exact ⟨F, hn, normalize_wellFormed fl v F hn hw, hok,
        by simp only [resolve, peel_plug_of_normalize fl v F hn _ hc2]⟩
  | cons key keys ih =>
    intro fl v hw hok
    cases hn : normalize fl v with
    | none => simp [applyPatchLoop, hn] at hok
    | some F0 =>
      have hwt := normalize_wellFormed fl v F0 hn hw
      obtain ⟨ls, t, fl2⟩ := F0
      simp only at hwt
      have hpl : ∀ t2, isContainer t2 = true → peel (plug ls t2) = t2 := fun t2 hc =>
        peel_plug_of_normalize fl v _ hn t2 hc
      cases t with
      | map e es =>
        simp only [Val.wellFormed] at hwt
        cases hl : mapLookup key es with
        | none =>
          cases hro : fl2.ro with
          | true => simp [applyPatchLoop, hn, hl, hro] at hok
          | false =>
            simp only [applyPatchLoop, hn, hl, hro, Bool.false_eq_true, if_false] at hok ⊢
            obtain ⟨es2, hm⟩ := applyPatchLoop_map_shape keys ⟨false, false⟩ .iface []
              fields
            have ih0 := ih ⟨false, false⟩ (.map .iface []) rfl
            have hs0 := storeFreshMap_isSome e
              (applyPatchLoop keys ⟨false, false⟩ (.map .iface []) fields).1 (.map .iface [])
            generalize applyPatchLoop keys ⟨false, false⟩ (.map .iface []) fields = r0
              at hm ih0 hok hs0 ⊢
            obtain ⟨m, res0⟩ := r0
            simp only at hm ih0 hok hs0 ⊢
            subst hm
            cases hst : storeFreshMap e (.map .iface es2) with
            | none => simp [hst] at hok
            | some entry =>
              simp only [hst] at hok ⊢
              rw [hst, Option.isSome_some] at hs0
              obtain ⟨y, hy⟩ := Option.isSome_iff_exists.mp hs0.symm
              obtain ⟨F, hF, hFw, hFok, hFr⟩ := ih0 hok
              refine ⟨F, ?_, hFw, hFok, ?_⟩
              · simp only [targetAt, locationAt, hn, hl, hro, Bool.false_eq_true, if_false,
                  hy]
                exact hF
              · simp only [resolve, hpl (.map e (mapInsert key entry es)) rfl,
                  mapLookup_mapInsert_self, resolve_storeFreshMap e es2 entry hst]
                exact hFr
        | some x =>
          simp only [applyPatchLoop, hn, hl] at hok ⊢
          obtain ⟨F, hF, hFw, hFok, hFr⟩ := ih ⟨false, fl2.ro⟩ x
            (wellFormedEntries_lookup es key x hwt hl) hok
          refine ⟨F, ?_, hFw, hFok, ?_⟩
          · simp only [targetAt, locationAt, hn, hl]
            exact hF
          · simp only [resolve, hpl (.map e (mapInsert key
              (applyPatchLoop keys ⟨false, fl2.ro⟩ x fields).1 es)) rfl,
              mapLookup_mapInsert_self]
            exact hFr
      | nilMap e => simp [applyPatchLoop, hn] at hok
      | struct n fs vals =>
        simp only [Val.wellFormed, Bool.and_eq_true, beq_iff_eq] at hwt
        cases hf : fieldByKey key fs with
        | none => simp [applyPatchLoop, hn, hf] at hok
        | some i =>
          simp only [applyPatchLoop, hn, hf] at hok ⊢
          have hi : i < vals.length := by
            rw [hwt.1]
            exact fieldByKey_lt key fs i hf
          obtain ⟨F, hF, hFw, hFok, hFr⟩ := ih ⟨fl2.addr, fl2.ro || !fieldExported fs i⟩
            (vals.getD i .nilIface) (wellFormedList_getD vals i hwt.2) hok
          refine ⟨F, ?_, hFw, hFok, ?_⟩
          · simp only [targetAt, locationAt, hn, hf]
            exact hF
          · simp only [resolve, hpl (.struct n fs (vals.set i (applyPatchLoop keys
              ⟨fl2.addr, fl2.ro || !fieldExported fs i⟩
              (vals.getD i .nilIface) fields).1)) rfl, hf]
            rw [← hFr]
            congr 1
            simp [List.getD_eq_getElem?_getD, List.getElem?_set, hi]
      | _ => simp [applyPatchLoop, hn] at hok

/-! ## The Null Sentinel in the field loop -/

theorem applyField_null_map (fl : Flags) (e : GoType) (es : List (String × Val))
    (f : String) :
    applyField fl (.map e es) f (some .null) =
      if fl.ro then (.map e es, .panic) else (.map e (mapDelete f es), .ok) := rfl

theorem applyField_null_struct (fl : Flags) (n : String) (fs : List StructField)
    (vals : List Val) (f : String) :
    applyField fl (.struct n fs vals) f (some .null) =
      match fieldByKey f fs with
      | none => (.struct n fs vals, .panic)
      | some i =>
        if fl.addr && !(fl.ro || !fieldExported fs i) then
          (.struct n fs (vals.set i (zero (fieldType fs i))), .ok)
        else (.struct n fs vals, .panic) := rfl

theorem applyFields_cons_ok (fl : Flags) (t : Val) (g : String) (d : Raw)
    (rest : List (String × Raw)) (h : (applyFields fl t ((g, d) :: rest)).2 = .ok) :
    (applyField fl t g d).2 = .ok ∧
      applyFields fl t ((g, d) :: rest) = applyFields fl (applyField fl t g d).1 rest := by
  simp only [applyFields] at h ⊢
  generalize applyField fl t g d = r at h ⊢
  obtain ⟨t2, res⟩ := r
  cases res with
  | ok => exact ⟨rfl, rfl⟩
  | err e => cases h
  | panic => cases h

theorem applyFields_null_map (fl : Flags) (f : String) (e : GoType)
    (fields : List (String × Raw)) :
    ∀ es, (applyFields fl (.map e es) fields).2 = .ok →
      (fields.map Prod.fst).Nodup → (f, some .null) ∈ fields →
      ∃ es2, (applyFields fl (.map e es) fields).1 = .map e es2 ∧ mapLookup f es2 = none := by
  induction fields with
  | nil => intro es _ _ hm; cases hm
  | cons gd rest ih =>
    intro es hok hnd hm
    obtain ⟨g, d⟩ := gd
    obtain ⟨h1, h2⟩ := applyFields_cons_ok fl _ g d rest hok
    rw [h2] at hok ⊢
    simp only [List.map_cons, List.nodup_cons] at hnd
    rcases List.mem_cons.mp hm with hhead | htail
    · simp only [Prod.mk.injEq] at hhead
      obtain ⟨rfl, rfl⟩ := hhead
      rw [applyField_null_map] at h1 hok ⊢
      cases hro : fl.ro with
      | true => simp [hro] at h1
      | false =>
        simp only [hro, Bool.false_eq_true, if_false] at hok ⊢
        obtain ⟨es2, hes2⟩ := applyFields_map_shape fl e (mapDelete f es) rest
        refine ⟨es2, hes2, ?_⟩
        have := applyFields_targetLookup fl rest f hnd.1 (.map e (mapDelete f es))
        rw [hes2] at this
        simpa only [targetLookup, mapLookup_mapDelete_self] using this
    · obtain ⟨es1, hes1⟩ := applyField_map_shape fl e es g d
      rw [hes1] at hok ⊢
      exact ih es1 hok hnd.2 htail

theorem applyField_struct_shape_length (fl : Flags) (n : String) (fs : List StructField)
    (vals : List Val) (f : String) (d : Raw) :
    ∃ vals2, (applyField fl (.struct n fs vals) f d).1 = .struct n fs vals2 ∧
      vals2.length = vals.length := by
  unfold applyField
  split <;> (repeat' split) <;> simp_all

theorem applyFields_struct_shape_length (fl : Flags) (n : String) (fs : List StructField)
    (fields : List (String × Raw)) :
    ∀ vals, ∃ vals2, (applyFields fl (.struct n fs vals) fields).1 = .struct n fs vals2 ∧
      vals2.length = vals.length := by
  induction fields with
  | nil => exact fun vals => ⟨vals, rfl, rfl⟩
  | cons gd rest ih =>
    intro vals
    obtain ⟨g, d⟩ := gd
    obtain ⟨vals1, h1, hl1⟩ := applyField_struct_shape_length fl n fs vals g d
    simp only [applyFields]
    generalize applyField fl (.struct n fs vals) g d = r at h1
    obtain ⟨t2, res⟩ := r
    simp only at h1
    subst h1
    cases res with
    | ok =>
      obtain ⟨vals2, h2, hl2⟩ := ih vals1
      exact ⟨vals2, h2, hl2.trans hl1⟩
    | err x => exact ⟨vals1, rfl, hl1⟩
    | panic => exact ⟨vals1, rfl, hl1⟩

theorem applyFields_null_struct (fl : Flags) (f : String) (n : String)
    (fs : List StructField) (fields : List (String × Raw)) :
    ∀ vals, vals.length = fs.length →
      (applyFields fl (.struct n fs vals) fields).2 = .ok →
      (fields.map Prod.fst).Nodup → (f, some .null) ∈ fields →
      ∃ vals2 i, (applyFields fl (.struct n fs vals) fields).1 = .struct n fs vals2 ∧
        fieldByKey f fs = some i ∧
        ((∀ g ∈ fields.map Prod.fst, g ≠ f → fieldByKey g fs ≠ some i) →
          vals2.get? i = some (zero (fieldType fs i))) := by
  induction fields with
  | nil => intro vals _ _ _ hm; cases hm
  | cons gd rest ih =>
    intro vals hlen hok hnd hm
    obtain ⟨g, d⟩ := gd
    obtain ⟨h1, h2⟩ := applyFields_cons_ok fl _ g d rest hok
    rw [h2] at hok ⊢
    simp only [List.map_cons, List.nodup_cons] at hnd
    rcases List.mem_cons.mp hm with hhead | htail
    · simp only [Prod.mk.injEq] at hhead
      obtain ⟨rfl, rfl⟩ := hhead
      rw [applyField_null_struct] at h1 hok ⊢
      cases hf : fieldByKey f fs with
      | none => simp [hf] at h1
      | some i =>
        simp only [hf] at h1 hok ⊢
        have hi : i < vals.length := by
          rw [hlen]
          exact fieldByKey_lt f fs i hf
        split at h1
        · rename_i hcond
          simp only [hcond, if_true] at hok ⊢
          obtain ⟨vals2, hv2, hl2⟩ := applyFields_struct_shape_length fl n fs rest
            (vals.set i (zero (fieldType fs i)))
          refine ⟨vals2, i, hv2, rfl, ?_⟩
          intro hsole
          have hent := applyFields_entryVal fl rest f
            (.struct n fs (vals.set i (zero (fieldType fs i)))) (by
              intro g hg
              have hgf : g ≠ f := by
                intro h
                subst h
                exact hnd.1 hg
              have := hsole g (by simp only [List.map_cons, List.mem_cons]; exact Or.inr hg)
                hgf
              simp only [entryOf, hf, Option.map_some']
              cases hg2 : fieldByKey g fs with
              | none => simp
              | some j =>
                simp only [Option.map_some', ne_eq, Option.some.injEq, Entry.field.injEq]
                intro hji
                subst hji
                exact this hg2)
          rw [hv2] at hent
          simp only [entryVal, hf, Option.some.injEq] at hent
          have hi2 : i < vals2.length := by
            rw [hl2]
            simpa using hi
          rw [List.get?_eq_getElem?, List.getElem?_eq_getElem hi2]
          have h3 : vals2.getD i .nilIface = vals2[i] := by
            simp [List.getD_eq_getElem?_getD, List.getElem?_eq_getElem hi2]
          rw [← h3, hent]
          simp [List.getD_eq_getElem?_getD, List.getElem?_set, hi]
        · cases h1
    · obtain ⟨vals1, hv1, hl1⟩ := applyField_struct_shape_length fl n fs vals g d
      rw [hv1] at hok ⊢
      obtain ⟨vals2, i, h5, h6, h7⟩ := ih vals1 (hl1.trans hlen) hok hnd.2 htail
      refine ⟨vals2, i, h5, h6, ?_⟩
      intro hsole
      apply h7
      intro g2 hg2 hne2
      exact hsole g2 (by simp only [List.map_cons, List.mem_cons]; exact Or.inr hg2) hne2

/-! ## The Null Sentinel -/

/-- C3, counterexample, three inputs with the payload null.  (1) The destination is a
`map[string]S` and the field `A` of the record stored under `x` is addressed: the record
is reached through `MapIndex`, so it is not addressable; the field resolves, `Set` panics
and the field keeps the value 1.  (2) The keyed container is the unexported field `cache`
of the destination: `SetMapIndex` panics and the key `a` stays in the container.  (3) The
unexported field `a` of the destination record is addressed: it resolves, `Set` panics
and the field keeps the value 1. -/
theorem applyPatch_null_sentinel_panics :
    (fieldByKey "A" fieldsC3 = some 0 ∧
      applyPatch destC3 ["x"] [("A", some .null)] = (destC3, .panic)) ∧
    (applyPatch destCacheC3 ["cache"] [("a", some .null)] = (destCacheC3, .panic)) ∧
    (fieldByKey "a" fieldsLowerC3 = some 0 ∧
      applyPatch destLowerC3 [] [("a", some .null)] = (destLowerC3, .panic)) :=
  ⟨⟨rfl, rfl⟩, rfl, ⟨rfl, rfl⟩⟩

theorem applyField_null_ok (F : Focus) (f : String) (hs : settled F.target = true) :
    (applyField F.flags F.target f (some .null)).2 = .ok ↔ nullAllowed F f := by
  obtain ⟨ls, t, fl⟩ := F
  simp only at hs
  cases t with
  | map e es =>
    simp only [applyField_null_map, nullAllowed]
    cases fl.ro <;> simp
  | struct n fs vals =>
    simp only [applyField_null_struct, nullAllowed]
    cases hf : fieldByKey f fs with
    | none => simp
    | some i =>
      cases ha : fl.addr <;> cases hr : fl.ro <;> cases he : fieldExported fs i <;>
        simp_all
  | nilMap e => simp [settled] at hs
  | _ => simp [applyField, nullAllowed]

theorem targetAt_settled (keys : List String) (fl : Flags) (v : Val) (F : Focus)
    (h : targetAt keys fl v = some F) : settled F.target = true := by
  unfold targetAt at h
  cases hl : locationAt keys fl v with
  | none => simp [hl] at h
  | some p =>
    simp only [hl] at h
    exact normalize_target_settled _ _ F h

/-- C3, amended.  In a destination in which nothing is shared, with structs that hold a
value for every field: the call `applyPatch(D, K, {f: null})` returns nil exactly when
the navigation reaches a target whose permission bits allow the write (a keyed container
not reached through an unexported field, or an addressable record not reached through an
unexported field in which `f` resolves to an exported field).  When `applyPatch(D, K, F)`
returns nil for a mapping `F` with distinct names that gives `f` the payload null, `K`
resolves afterwards to the target, in which `f` is absent if it is a keyed container
and, if it is a record, `f` resolves to a field that holds the zero value of its type
unless another name of `F` resolves to the same field; and every location that holds a
value before the call and lies off the path and off the entries `F` names holds the same
value afterwards. -/
theorem applyPatch_null_sentinel (d : Val) (keys : List String) (f : String)
    (hwf : d.wellFormed = true) :
    ((applyPatch d keys [(f, some .null)]).2 = .ok ↔
      ∃ F, targetAt keys ⟨true, false⟩ d = some F ∧ nullAllowed F f) ∧
    (∀ fields d2, (fields.map Prod.fst).Nodup → (f, some .null) ∈ fields →
      applyPatch d keys fields = (d2, .ok) →
      (∃ t2, resolve d2 keys = some t2 ∧ cleared t2 f (fields.map Prod.fst)) ∧
      (∀ q x, offLoc fields d keys q → locate d q = some x → locate d2 q = some x)) := by
  refine ⟨⟨?_, ?_⟩, ?_⟩
  · intro hok
    obtain ⟨F, hF, _, hFok, _⟩ := applyPatchLoop_target [(f, some .null)] (by simp) keys
      ⟨true, false⟩ d hwf hok
    refine ⟨F, hF, ?_⟩
    rw [applyFields_single] at hFok
    have hs := targetAt_settled keys _ d F hF
    exact (applyField_null_ok F f hs).mp hFok
  · rintro ⟨F, hF, hall⟩
    have hs := targetAt_settled keys _ d F hF
    rw [applyPatch, applyPatchLoop_result_of_targetAt _ keys _ d F hF, applyFields_single]
    exact (applyField_null_ok F f hs).mpr hall
  · intro fields d2 hnd hmem hok
    have h2 : (applyPatchLoop keys ⟨true, false⟩ d fields).2 = .ok := by
      rw [applyPatch] at hok
      rw [hok]
    have hd2 : d2 = (applyPatchLoop keys ⟨true, false⟩ d fields).1 := by
      rw [applyPatch] at hok
      rw [hok]
    subst hd2
    refine ⟨?_, fun q x hoff hloc =>
      applyPatchLoop_frame_locate fields keys _ d q x hoff hloc⟩
    obtain ⟨F, hF, hFw, hFok, hFr⟩ := applyPatchLoop_target fields
      (List.ne_nil_of_mem hmem) keys ⟨true, false⟩ d hwf h2
    refine ⟨_, hFr, ?_⟩
    obtain ⟨hc, _⟩ := applyFields_ok_container F.flags F.target fields
      (List.ne_nil_of_mem hmem) (targetAt_settled keys _ d F hF) hFok
    obtain ⟨ls, t, fl⟩ := F
    simp only at hFw hFok hc ⊢
    cases t with
    | map e es =>
      obtain ⟨es2, h1, h2⟩ := applyFields_null_map fl f e fields es hFok hnd hmem
      rw [h1]
      exact h2
    | struct n fs vals =>
      simp only [Val.wellFormed, Bool.and_eq_true, beq_iff_eq] at hFw
      obtain ⟨vals2, i, h1, h2, h3⟩ := applyFields_null_struct fl f n fs fields vals hFw.1
        hFok hnd hmem
      rw [h1]
      exact ⟨i, h2, h3⟩
    | _ => simp [isContainer] at hc

theorem applyPatch_null_sentinel_witness :
    processChange destRemoveC3 (putEvent "/outer/inner/c" .null) =
      (.map .iface [("outer", .iface (.map .iface [("inner", .iface (.map .iface
        [("a", .iface (.float64 1)), ("b", .iface (.float64 1))]))]))], .ok) ∧
    (∃ t2, resolve (.map .iface [("outer", .iface (.map .iface [("inner", .iface (.map .iface
        [("a", .iface (.float64 1)), ("b", .iface (.float64 1))]))]))])
        ["outer", "inner"] = some t2 ∧
      cleared t2 "c" ([("c", some JSON.null)].map Prod.fst)) ∧
    applyPatch recordC3 [] [("A", some .null)] = (.struct "S" fieldsC3 [.int 0], .ok) ∧
    (applyPatch recordC3 [] [("A", some .null)]).2 = .ok :=
  ⟨rfl, ((applyPatch_null_sentinel destRemoveC3 ["outer", "inner"] "c" rfl).2
    [("c", some .null)] _ (by simp) (by simp) rfl).1, rfl,
    (applyPatch_null_sentinel recordC3 [] "A" rfl).1.mpr
      ⟨⟨[], recordC3, ⟨true, false⟩⟩, rfl, rfl, rfl, 0, rfl, rfl⟩⟩

/-! ## The state a failed call leaves -/

theorem applyPatchLoop_congr (k1 : List String) :
    ∀ (fl : Flags) (v : Val) (fl1 : Flags) (v1 : Val),
      locationAt k1 fl v = some (fl1, v1) →
      ∀ (k2 k3 : List String) (f2 f3 : List (String × Raw)),
        (applyPatchLoop k2 fl1 v1 f2).1 = (applyPatchLoop k3 fl1 v1 f3).1 →
        (applyPatchLoop (k1 ++ k2) fl v f2).1 = (applyPatchLoop (k1 ++ k3) fl v f3).1 := by
  induction k1 with
  | nil =>
    intro fl v fl1 v1 h k2 k3 f2 f3 heq
    simp only [locationAt, Option.some.injEq, Prod.mk.injEq] at h
    obtain ⟨rfl, rfl⟩ := h
    exact heq
  | cons key keys ih =>
    intro fl v fl1 v1 h k2 k3 f2 f3 heq
    simp only [locationAt] at h
    cases hn : normalize fl v with
    | none => simp [hn] at h
    | some F =>
      obtain ⟨ls, t, fl2⟩ := F
      simp only [hn] at h
      cases t with
      | map e es =>
        simp only at h
        cases hl : mapLookup key es with
        | none =>
          simp only [hl] at h
          cases hro : fl2.ro with
          | true => simp [hro] at h
          | false =>
            simp only [hro, Bool.false_eq_true, if_false] at h
            cases hs : storeFreshMap e (.map .iface []) with
            | none => simp [hs] at h
            | some x =>
              simp only [hs] at h
              simp only [List.cons_append, applyPatchLoop, hn, hl, hro, Bool.false_eq_true,
                if_false, List.append_eq, ih _ _ _ _ h k2 k3 f2 f3 heq]
              split <;> rfl
        | some x =>
          simp only [hl] at h
          simp only [List.cons_append, applyPatchLoop, hn, hl, List.append_eq,
            ih _ _ _ _ h k2 k3 f2 f3 heq]
      | struct n fs vals =>
        simp only at h
        cases hf : fieldByKey key fs with
        | none => simp [hf] at h
        | some i =>
          simp only [hf] at h
          simp only [List.cons_append, applyPatchLoop, hn, hf, List.append_eq,
            ih _ _ _ _ h k2 k3 f2 f3 heq]
      | _ => simp at h

theorem targetAt_of_ok (fields : List (String × Raw)) (keys : List String) :
    ∀ (fl : Flags) (v : Val), (applyPatchLoop keys fl v fields).2 = .ok →
      ∃ F, targetAt keys fl v = some F := by
  induction keys with
  | nil =>
    intro fl v hok
    cases hn : normalize fl v with
    | none => simp [applyPatchLoop, hn] at hok
    | some F => exact ⟨F, hn⟩
  | cons key keys ih =>
    intro fl v hok
    cases hn : normalize fl v with
    | none => simp [applyPatchLoop, hn] at hok
    | some F0 =>
      obtain ⟨ls, t, fl2⟩ := F0
      cases t with
      | map e es =>
        cases hl : mapLookup key es with
        | none =>
          cases hro : fl2.ro with
          | true => simp [applyPatchLoop, hn, hl, hro] at hok
          | false =>
            simp only [applyPatchLoop, hn, hl, hro, Bool.false_eq_true, if_false] at hok
            have hs0 := storeFreshMap_isSome e
              (applyPatchLoop keys ⟨false, false⟩ (.map .iface []) fields).1 (.map .iface [])
            cases hst : storeFreshMap e
                (applyPatchLoop keys ⟨false, false⟩ (.map .iface []) fields).1 with
            | none => simp [hst] at hok
            | some entry =>
              simp only [hst] at hok
              rw [hst, Option.isSome_some] at hs0
              obtain ⟨y, hy⟩ := Option.isSome_iff_exists.mp hs0.symm
              obtain ⟨F, hF⟩ := ih _ _ hok
              refine ⟨F, ?_⟩
              simp only [targetAt, locationAt, hn, hl, hro, Bool.false_eq_true, if_false, hy]
              exact hF
        | some x =>
          simp only [applyPatchLoop, hn, hl] at hok
          obtain ⟨F, hF⟩ := ih _ _ hok
          refine ⟨F, ?_⟩
          simp only [targetAt, locationAt, hn, hl]
          exact hF
      | struct n fs vals =>
        cases hf : fieldByKey key fs with
        | none => simp [applyPatchLoop, hn, hf] at hok
        | some i =>
          simp only [applyPatchLoop, hn, hf] at hok
          obtain ⟨F, hF⟩ := ih _ _ hok
          refine ⟨F, ?_⟩
          simp only [targetAt, locationAt, hn, hf]
          exact hF
      | _ => simp [applyPatchLoop, hn] at hok

theorem applyFields_append (fl : Flags) (pre rest : List (String × Raw)) :
    ∀ t, (applyFields fl t pre).2 = .ok →
      applyFields fl t (pre ++ rest) = applyFields fl (applyFields fl t pre).1 rest := by
  induction pre with
  | nil => intro t _; rfl
  | cons gd pre ih =>
    intro t hok
    obtain ⟨g, d⟩ := gd
    obtain ⟨_, h2⟩ := applyFields_cons_ok fl t g d pre hok
    rw [h2] at hok ⊢
    have h3 : applyFields fl t ((g, d) :: (pre ++ rest)) =
        applyFields fl (applyField fl t g d).1 (pre ++ rest) := by
      simp only [applyFields]
      have : (applyField fl t g d).2 = .ok := (applyFields_cons_ok fl t g d pre (by
        rw [h2]; exact hok)).1
      generalize applyField fl t g d = r at this
      obtain ⟨t2, res⟩ := r
      simp only at this
      subst this
      rfl
    rw [List.cons_append, h3]
    exact ih _ hok

theorem applyFields_first_error (fl : Flags) (t : Val) (f : String) (d : Raw)
    (post : List (String × Raw)) (e : GoError)
    (h : (applyField fl t f d).2 = .err e) :
    applyFields fl t ((f, d) :: post) = applyField fl t f d := by
  simp only [applyFields]
  generalize applyField fl t f d = r at h
  obtain ⟨t2, res⟩ := r
  simp only at h
  subst h
  rfl

theorem applyField_map_err (fl : Flags) (e0 : GoType) (es : List (String × Val))
    (f : String) (d : Raw) (e : GoError)
    (h : (applyField fl (.map e0 es) f d).2 = .err e) :
    (applyField fl (.map e0 es) f d).1 = .map e0 es := by
  unfold applyField at h ⊢
  split at h <;> (repeat' split at h) <;> simp_all

/-- C15, amended.  `applyPatch` undoes nothing.  In a destination in which nothing is
shared: (1) when it returns an error, every entry of the target container that the
mapping does not name and every location off the path `K` hold the values they held
before the call; (2) after the navigation error at the location the prefix `K1` of `K`
reaches, the destination is what the call with the key sequence `K1` and no fields
leaves, which returns nil: every container inserted and every instance allocated along
`K1` remains; (3) after an error of the field `f` in the field loop the destination and
the error are those of the call with the mapping cut after `f`, and on a keyed container
the destination is what the call with the fields before `f` leaves: these fields remain
committed; (4) the destination is as it was before the call when the navigation error is
raised at a number, string, boolean or list reached through keys that are all present in
keyed containers.  In a destination whose maps are shared, a lookup that reads no entry
the failed call writes gives the same value before and after the call. -/
theorem applyPatch_error_frame (d : Val) :
    (∀ d2 err keys fields, applyPatch d keys fields = (d2, .err err) →
      (∀ k, k ∉ fields.map Prod.fst →
        lookupPath d2 (keys ++ [k]) = lookupPath d (keys ++ [k])) ∧
      (∀ q, ¬ q <+: keys → ¬ keys <+: q → lookupPath d2 q = lookupPath d q) ∧
      (∀ q x, offLoc fields d keys q → locate d q = some x → locate d2 q = some x)) ∧
    (∀ k1 F, targetAt k1 ⟨true, false⟩ d = some F → isContainer F.target = false →
      (applyPatch d k1 []).2 = .ok ∧
      ∀ key k2 fields, applyPatch d (k1 ++ key :: k2) fields =
        ((applyPatch d k1 []).1,
          .err (.fmtErrorf ("invalid type: " ++ F.target.typeOf.toStr)))) ∧
    (∀ keys pre f data post e, (applyPatch d keys pre).2 = .ok →
      (applyPatch d keys (pre ++ [(f, data)])).2 = .err e →
      applyPatch d keys (pre ++ (f, data) :: post) =
        applyPatch d keys (pre ++ [(f, data)]) ∧
      ∀ F e0 es, targetAt keys ⟨true, false⟩ d = some F → F.target = .map e0 es →
        (applyPatch d keys (pre ++ [(f, data)])).1 = (applyPatch d keys pre).1) ∧
    (∀ k1 x key k2 fields, lookupPath d k1 = some (.iface x) → isLeaf x = true →
      applyPatch d (k1 ++ key :: k2) fields =
        (d, .err (.fmtErrorf ("invalid type: " ++ x.typeOf.toStr)))) ∧
    (∀ keys fields s a s2 e q x0, applyPatchShared keys s a fields = (s2, .err e) →
      (∀ p ∈ reads q s x0, p.1 < s.length ∧ p ∉ touched keys s a fields) →
      lookupShared q s2 x0 = lookupShared q s x0) := by
  refine ⟨?_, ?_, ?_, ?_, ?_⟩
  · intro d2 err keys fields h
    have hd2 : d2 = (applyPatchLoop keys ⟨true, false⟩ d fields).1 := by
      rw [applyPatch] at h
      rw [h]
    subst hd2
    exact ⟨fun k hk =>
        applyPatchLoop_frame fields keys _ d _ (offPath_sibling fields keys k hk),
      fun q h1 h2 =>
        applyPatchLoop_frame fields keys _ d _ (offPath_diverge fields keys q h1 h2),
      fun q x hoff hloc => applyPatchLoop_frame_locate fields keys _ d q x hoff hloc⟩
  · intro k1 F hF hc
    unfold targetAt at hF
    cases hl : locationAt k1 ⟨true, false⟩ d with
    | none => simp [hl] at hF
    | some p =>
      obtain ⟨fl1, v1⟩ := p
      simp only [hl] at hF
      have hinv := applyPatchLoop_invalid_type fl1 v1 F hF hc
      have h0 : applyPatchLoop [] fl1 v1 [] = (plug F.layers F.target, .ok) := by
        simp only [applyPatchLoop, hF, applyFields]
      have hres := applyPatchLoop_result_of_locationAt [] k1 [] _ d fl1 v1 hl
      rw [List.append_nil, h0] at hres
      refine ⟨hres, ?_⟩
      intro key k2 fields
      have h1 := applyPatchLoop_congr k1 _ d fl1 v1 hl (key :: k2) [] fields []
        (by rw [hinv.1 key k2 fields, h0])
      have h2 := applyPatchLoop_result_of_locationAt fields k1 (key :: k2) _ d fl1 v1 hl
      rw [hinv.1 key k2 fields] at h2
      rw [List.append_nil] at h1
      simp only [applyPatch]
      exact Prod.ext h1 h2
  · intro keys pre f data post e hpre hfd
    obtain ⟨F, hF⟩ := targetAt_of_ok pre keys ⟨true, false⟩ d hpre
    have hr : ∀ X, (applyPatch d keys X).2 = (applyFields F.flags F.target X).2 :=
      fun X => applyPatchLoop_result_of_targetAt X keys _ d F hF
    rw [hr] at hpre hfd
    rw [applyFields_append _ _ _ _ hpre, applyFields_single] at hfd
    have hcut : applyFields F.flags F.target (pre ++ (f, data) :: post) =
        applyFields F.flags F.target (pre ++ [(f, data)]) := by
      rw [applyFields_append _ _ _ _ hpre, applyFields_append _ _ _ _ hpre,
        applyFields_first_error _ _ _ _ _ e hfd, applyFields_single]
    have hF2 := hF
    unfold targetAt at hF2
    cases hl : locationAt keys ⟨true, false⟩ d with
    | none => simp [hl] at hF2
    | some p =>
      obtain ⟨fl1, v1⟩ := p
      simp only [hl] at hF2
      have hloop : ∀ X, applyPatchLoop [] fl1 v1 X =
          (plug F.layers (applyFields F.flags F.target X).1,
            (applyFields F.flags F.target X).2) := by
        intro X
        simp only [applyPatchLoop, hF2]
      have hcongr : ∀ X Y, (applyFields F.flags F.target X).1 =
          (applyFields F.flags F.target Y).1 →
          (applyPatch d keys X).1 = (applyPatch d keys Y).1 := by
        intro X Y hxy
        have := applyPatchLoop_congr keys _ d fl1 v1 hl [] [] X Y (by
          rw [hloop X, hloop Y, hxy])
        simpa only [List.append_nil] using this
      refine ⟨Prod.ext (hcongr _ _ (by rw [hcut])) (by rw [hr, hr, hcut]), ?_⟩
      intro F3 e0 es hF3 ht
      rw [hF] at hF3
      simp only [Option.some.injEq] at hF3
      subst hF3
      apply hcongr
      rw [applyFields_append _ _ _ _ hpre, applyFields_single]
      obtain ⟨es1, h1⟩ := applyFields_map_shape F.flags e0 es pre
      rw [ht] at hfd ⊢
      rw [h1] at hfd ⊢
      exact applyField_map_err _ _ _ _ _ e hfd
  · intro k1 x key k2 fields hl hx
    exact applyPatchLoop_leaf_unchanged x hx key k2 fields k1 _ d hl
  · intro keys fields s a s2 e q x0 hok hr
    have hs2 : s2 = (applyPatchShared keys s a fields).1 := by rw [hok]
    subst hs2
    exact lookupShared_agree _ s _ (applyPatchShared_agree fields keys s a) q x0 hr

theorem applyPatch_error_frame_witness :
    (targetAt ["inner", "a"] ⟨true, false⟩ destOuter =
        some ⟨[], .int 0, ⟨true, false⟩⟩ ∧
      (applyPatch destOuter ["inner", "a"] []).1 =
        .struct "Outer" fieldsOuter [.ptr (.struct "Inner" fieldsAB [.int 0, .int 0])] ∧
      applyPatch destOuter (["inner", "a"] ++ "x" :: []) [("f", some (.num 1))] =
        ((applyPatch destOuter ["inner", "a"] []).1,
          .err (.fmtErrorf ("invalid type: " ++ (Val.int 0).typeOf.toStr)))) ∧
    (lookupPath destC13 ["m", "b"] = some (.iface (.bool true)) ∧
      isLeaf (.bool true) = true ∧
      applyPatch destC13 (["m", "b"] ++ "x" :: []) [("f", some (.num 1))] =
        (destC13, .err (.fmtErrorf ("invalid type: " ++ (Val.bool true).typeOf.toStr)))) :=
  ⟨⟨rfl, rfl, ((applyPatch_error_frame destOuter).2.1 ["inner", "a"]
      ⟨[], .int 0, ⟨true, false⟩⟩ rfl rfl).2 "x" [] [("f", some (.num 1))]⟩,
    ⟨rfl, rfl, (applyPatch_error_frame destC13).2.2.2.1 ["m", "b"] (.bool true) "x" []
      [("f", some (.num 1))] rfl rfl⟩⟩

/-! ## The store of shared maps and the tree model agree where nothing is shared -/

theorem unfoldSlot_own (n : Nat) (s : Store) (v : Val) : unfoldSlot n s (.own v) = v := by
  cases n <;> rfl

theorem unfold_ownAll (n : Nat) (s : Store) (es : List (String × Val)) :
    (ownAll es).map (fun p => (p.1, unfoldSlot n s p.2)) = es := by
  induction es with
  | nil => rfl
  | cons p rest ih =>
    simp only [ownAll, List.map_cons, List.map_map, unfoldSlot_own] at ih ⊢
    rw [ih]

theorem unfold_slotInsert (n : Nat) (s : Store) (k : String) (x : Slot)
    (L : List (String × Slot)) :
    (slotInsert k x L).map (fun p => (p.1, unfoldSlot n s p.2)) =
      mapInsert k (unfoldSlot n s x) (L.map (fun p => (p.1, unfoldSlot n s p.2))) := by
  induction L with
  | nil => rfl
  | cons p rest ih =>
    obtain ⟨k2, x2⟩ := p
    by_cases h : k2 = k
    · simp [slotInsert, mapInsert, h]
    · simp [slotInsert, mapInsert, h, ih]

theorem slotLookup_ownAll (k : String) (es : List (String × Val)) :
    slotLookup k (ownAll es) = (mapLookup k es).map .own := by
  induction es with
  | nil => rfl
  | cons p rest ih =>
    obtain ⟨k2, x2⟩ := p
    by_cases h : k2 = k
    · simp [ownAll, slotLookup, mapLookup, h]
    · simp only [ownAll, List.map_cons, slotLookup, mapLookup, h, if_false]
      exact ih

theorem slotInsert_ownAll (k : String) (v : Val) (es : List (String × Val)) :
    slotInsert k (.own v) (ownAll es) = ownAll (mapInsert k v es) := by
  induction es with
  | nil => rfl
  | cons p rest ih =>
    obtain ⟨k2, x2⟩ := p
    by_cases h : k2 = k
    · simp [ownAll, slotInsert, mapInsert, h]
    · simp only [ownAll, List.map_cons, slotInsert, mapInsert, h, if_false, List.cons.injEq,
        true_and]
      exact ih

theorem slotDelete_ownAll (k : String) (es : List (String × Val)) :
    slotDelete k (ownAll es) = ownAll (mapDelete k es) := by
  induction es with
  | nil => rfl
  | cons p rest ih =>
    obtain ⟨k2, x2⟩ := p
    by_cases h : k2 = k
    · simp only [ownAll, List.map_cons, slotDelete, mapDelete, h, if_true]
      exact ih
    · simp only [ownAll, List.map_cons, slotDelete, mapDelete, h, if_false, List.cons.injEq,
        true_and]
      exact ih

theorem applyField_map_nonnull (fl : Flags) (e : GoType) (es : List (String × Val))
    (f : String) (d : Raw) (hd : d ≠ some .null) :
    applyField fl (.map e es) f d =
      match (jsonUnmarshal d (zero e)).2 with
      | some err => (.map e es, .err err)
      | none =>
        if fl.ro then (.map e es, .panic)
        else (.map e (mapInsert f (jsonUnmarshal d (zero e)).1 es), .ok) := by
  unfold applyField
  split
  · exact absurd rfl hd
  · rfl

theorem applyFieldShared_nonnull (s : Store) (a : Nat) (f : String) (d : Raw)
    (hd : d ≠ some .null) :
    applyFieldShared s a f d =
      match (jsonUnmarshal d (zero .iface)).2 with
      | some err => (s, .err err)
      | none =>
        (s.set a (slotInsert f (.own (jsonUnmarshal d (zero .iface)).1) (s.getD a [])),
          .ok) := by
  unfold applyFieldShared
  split
  · exact absurd rfl hd
  · rfl

theorem applyFieldShared_own (s : Store) (a : Nat) (fl : Flags) (es : List (String × Val))
    (f : String) (d : Raw) (hs : s.getD a [] = ownAll es) (hro : fl.ro = false) :
    (∃ es2, applyField fl (.map .iface es) f d = (.map .iface es2, .ok) ∧
      applyFieldShared s a f d = (s.set a (ownAll es2), .ok)) ∨
    (∃ r, r ≠ .ok ∧ applyField fl (.map .iface es) f d = (.map .iface es, r) ∧
      applyFieldShared s a f d = (s, r)) := by
  by_cases hd : d = some .null
  · subst hd
    left
    refine ⟨mapDelete f es, ?_, ?_⟩
    · rw [applyField_null_map, hro]
      rfl
    · show (s.set a (slotDelete f (s.getD a [])), Res.ok) = _
      rw [hs, slotDelete_ownAll]
  · rw [applyField_map_nonnull fl _ es f d hd, applyFieldShared_nonnull s a f d hd, hs]
    cases hj : (jsonUnmarshal d (zero .iface)).2 with
    | some err =>
      right
      exact ⟨.err err, by simp, rfl, rfl⟩
    | none =>
      left
      refine ⟨mapInsert f (jsonUnmarshal d (zero .iface)).1 es, ?_, ?_⟩
      · simp only [hro, Bool.false_eq_true, if_false]
      · simp only [slotInsert_ownAll]

theorem set_getD_self (s : Store) (a : Nat) (ha : a < s.length) :
    s.set a (s.getD a []) = s := by
  have h : s.getD a [] = s[a] := by
    simp [List.getD_eq_getElem?_getD, List.getElem?_eq_getElem ha]
  rw [h]
  apply List.ext_getElem?
  intro i
  simp only [List.getElem?_set]
  split
  · rename_i hi
    subst hi
    simp [ha]
  · rfl

theorem applyFieldsShared_own (a : Nat) (fl : Flags) (hro : fl.ro = false)
    (fields : List (String × Raw)) :
    ∀ (s : Store) (es : List (String × Val)), a < s.length → s.getD a [] = ownAll es →
      ∃ es2, applyFields fl (.map .iface es) fields =
          (.map .iface es2, (applyFields fl (.map .iface es) fields).2) ∧
        applyFieldsShared a s fields =
          (s.set a (ownAll es2), (applyFields fl (.map .iface es) fields).2) := by
  induction fields with
  | nil =>
    intro s es ha hs
    refine ⟨es, rfl, ?_⟩
    simp only [applyFieldsShared, applyFields, ← hs, set_getD_self s a ha]
  | cons gd rest ih =>
    intro s es ha hs
    obtain ⟨g, d⟩ := gd
    rcases applyFieldShared_own s a fl es g d hs hro with ⟨es1, h1, h2⟩ | ⟨r, hr, h1, h2⟩
    · obtain ⟨es2, h3, h4⟩ := ih (s.set a (ownAll es1)) es1 (by simpa using ha) (by
        rw [getD_set_store]
        simp [ha])
      refine ⟨es2, ?_, ?_⟩
      · simp only [applyFields, h1]
        exact h3
      · simp only [applyFieldsShared, applyFields, h1, h2, h4, List.set_set]
    · refine ⟨es, ?_, ?_⟩
      · simp only [applyFields, h1]
        cases r with
        | ok => exact absurd rfl hr
        | err e => rfl
        | panic => rfl
      · have hself : s.set a (ownAll es) = s := by
          rw [← hs]
          exact set_getD_self s a ha
        simp only [applyFieldsShared, applyFields, h1, h2, hself]
        cases r with
        | ok => exact absurd rfl hr
        | err e => rfl
        | panic => rfl

theorem getD_append_length (s0 : Store) (x : List (String × Slot)) (T : Store) :
    (s0 ++ x :: T).getD s0.length [] = x := by
  induction s0 with
  | nil => rfl
  | cons h t ih => exact ih

theorem set_append_length (s0 : Store) (x y : List (String × Slot)) :
    (s0 ++ [x]).set s0.length y = s0 ++ [y] := by
  induction s0 with
  | nil => rfl
  | cons h t ih =>
    simp only [List.cons_append, List.length_cons, List.set_cons_succ, ih]

theorem unfoldSlot_ref_succ (n : Nat) (s : Store) (a : Nat) :
    unfoldSlot (n + 1) s (.ref a) =
      .iface (.map .iface ((s.getD a []).map (fun p => (p.1, unfoldSlot n s p.2)))) := rfl

theorem applyPatchLoop_empty_absent (key : String) (rest : List String)
    (fields : List (String × Raw)) (fl : Flags) (hro : fl.ro = false)
    (es : List (String × Val)) (hm : mapLookup key es = none) :
    applyPatchLoop (key :: rest) fl (.map .iface es) fields =
      (.map .iface (mapInsert key
          (.iface (applyPatchLoop rest ⟨false, false⟩ (.map .iface []) fields).1) es),
        (applyPatchLoop rest ⟨false, false⟩ (.map .iface []) fields).2) := by
  simp only [applyPatchLoop, normalize_map, hm, hro, Bool.false_eq_true, if_false,
    storeFreshMap, plug]

theorem applyPatchLoop_present (key : String) (rest : List String)
    (fields : List (String × Raw)) (fl : Flags) (hro : fl.ro = false)
    (es : List (String × Val)) (x : Val) (hm : mapLookup key es = some x) :
    applyPatchLoop (key :: rest) fl (.map .iface es) fields =
      (.map .iface (mapInsert key (applyPatchLoop rest ⟨false, false⟩ x fields).1 es),
        (applyPatchLoop rest ⟨false, false⟩ x fields).2) := by
  simp only [applyPatchLoop, normalize_map, hm, hro, plug]

theorem applyPatchShared_fresh (fields : List (String × Raw)) (keys : List String) :
    ∀ s0 : Store, ∃ T,
      applyPatchShared keys (s0 ++ [[]]) s0.length fields =
        (s0 ++ T, (applyPatchLoop keys ⟨false, false⟩ (.map .iface []) fields).2) ∧
      unfoldSlot (keys.length + 1) (s0 ++ T) (.ref s0.length) =
        .iface (applyPatchLoop keys ⟨false, false⟩ (.map .iface []) fields).1 := by
  induction keys with
  | nil =>
    intro s0
    obtain ⟨es2, h1, h2⟩ := applyFieldsShared_own s0.length ⟨false, false⟩ rfl fields
      (s0 ++ [[]]) [] (by simp) (getD_append_length s0 [] [])
    have h3 : applyPatchLoop [] ⟨false, false⟩ (.map .iface []) fields =
        (.map .iface es2, (applyFields ⟨false, false⟩ (.map .iface []) fields).2) := by
      simp only [applyPatchLoop, normalize_map, plug]
      rw [h1]
    refine ⟨[ownAll es2], ?_, ?_⟩
    · rw [h3]
      simp only [applyPatchShared, h2, set_append_length]
    · rw [h3]
      simp only [List.length_nil, Nat.zero_add, unfoldSlot_ref_succ, getD_append_length,
        unfold_ownAll]
  | cons key rest ih =>
    intro s0
    obtain ⟨T, h1, h2⟩ := ih (s0 ++ [[(key, .ref (s0.length + 1))]])
    have hlen : (s0 ++ [[(key, Slot.ref (s0.length + 1))]]).length = s0.length + 1 := by
      simp
    rw [hlen] at h1 h2
    have h3 : s0 ++ [(key, Slot.ref (s0.length + 1))] :: T =
        s0 ++ [[(key, Slot.ref (s0.length + 1))]] ++ T := by simp
    rw [applyPatchLoop_empty_absent key rest fields _ rfl [] rfl]
    refine ⟨[(key, .ref (s0.length + 1))] :: T, ?_, ?_⟩
    · have hl : slotLookup key ((s0 ++ [[]]).getD s0.length []) = none := by
        rw [getD_append_length]
        rfl
      have hstep : applyPatchShared (key :: rest) (s0 ++ [[]]) s0.length fields =
          applyPatchShared rest (s0 ++ [[(key, .ref (s0.length + 1))]] ++ [[]])
            (s0.length + 1) fields := by
        simp only [applyPatchShared]
        rw [hl]
        simp only [getD_append_length, slotInsert, List.length_append,
          List.length_singleton, set_append_length]
      rw [hstep, h1, h3]
    · rw [List.length_cons, unfoldSlot_ref_succ, getD_append_length, h3]
      simp only [List.map_cons, List.map_nil, h2, mapInsert]

/-- On a destination of type `map[string]interface{}` in which nothing is shared, the
store of shared maps and the tree model agree: when the entries of the destination are
put into one map of the store as values of their own, `applyPatchShared` ends as
`applyPatch` does, and the store it leaves stands for the destination `applyPatch`
leaves. -/
theorem applyPatchShared_unshared (keys : List String) (fields : List (String × Raw))
    (es : List (String × Val)) :
    (applyPatchShared keys [ownAll es] 0 fields).2 =
      (applyPatch (.map .iface es) keys fields).2 ∧
    unfoldSlot (keys.length + 1) (applyPatchShared keys [ownAll es] 0 fields).1 (.ref 0) =
      .iface (applyPatch (.map .iface es) keys fields).1 := by
  have hg : ∀ x : List (String × Slot), ∀ T : Store, (x :: T).getD 0 [] = x :=
    fun _ _ => rfl
  cases keys with
  | nil =>
    obtain ⟨es2, h1, h2⟩ := applyFieldsShared_own 0 ⟨true, false⟩ rfl fields
      [ownAll es] es (by simp) rfl
    have h3 : applyPatch (.map .iface es) [] fields =
        (.map .iface es2, (applyFields ⟨true, false⟩ (.map .iface es) fields).2) := by
      simp only [applyPatch, applyPatchLoop, normalize_map, plug]
      rw [h1]
    have h4 : applyPatchShared [] [ownAll es] 0 fields =
        ([ownAll es2], (applyFields ⟨true, false⟩ (.map .iface es) fields).2) := by
      simp only [applyPatchShared, h2, List.set_cons_zero]
    rw [h3, h4]
    refine ⟨rfl, ?_⟩
    simp only [List.length_nil, Nat.zero_add, unfoldSlot_ref_succ, hg, unfold_ownAll]
  | cons key rest =>
    have hl : slotLookup key ([ownAll es].getD 0 []) = (mapLookup key es).map .own :=
      slotLookup_ownAll key es
    cases hm : mapLookup key es with
    | none =>
      rw [hm] at hl
      obtain ⟨T, h1, h2⟩ := applyPatchShared_fresh fields rest
        [slotInsert key (.ref 1) (ownAll es)]
      simp only [List.length_singleton] at h1 h2
      have hstep : applyPatchShared (key :: rest) [ownAll es] 0 fields =
          applyPatchShared rest ([slotInsert key (.ref 1) (ownAll es)] ++ [[]]) 1 fields := by
        simp only [applyPatchShared]
        rw [hl]
        rfl
      rw [hstep, h1, applyPatch, applyPatchLoop_empty_absent key rest fields _ rfl es hm]
      refine ⟨rfl, ?_⟩
      rw [List.length_cons, unfoldSlot_ref_succ]
      simp only [List.singleton_append, hg, unfold_slotInsert, unfold_ownAll]
      rw [← List.singleton_append, h2]
    | some x =>
      rw [hm] at hl
      have hstep : applyPatchShared (key :: rest) [ownAll es] 0 fields =
          ([ownAll (mapInsert key (applyPatchLoop rest ⟨false, false⟩ x fields).1 es)],
            (applyPatchLoop rest ⟨false, false⟩ x fields).2) := by
        simp only [applyPatchShared]
        rw [hl]
        simp only [Option.map_some', List.set_cons_zero, hg, slotInsert_ownAll]
      rw [hstep, applyPatch, applyPatchLoop_present key rest fields _ rfl es x hm]
      refine ⟨rfl, ?_⟩
      rw [List.length_cons, unfoldSlot_ref_succ]
      simp only [hg, unfold_ownAll]

end Firebase
